import Mathlib

/-!
# A verification model of `@inrixia/db` (file-backed transparent object store)

This file gives a shallow Lean embedding of the TypeScript source of
`@inrixia/db`: a function `db(file, options)` returning a `Proxy`-wrapped
object whose property writes are synchronously persisted to disk as JSON,
with optional AES-256-CBC encryption at rest and optional live reconciliation
against external edits of the backing file.

Modelling conventions:

* JSON-safe values are the inductive `JVal`.  Every object and array node
  carries a ghost identity tag (`id : Nat`) standing for the JS heap identity
  of that node: an operation that mutates a node in place keeps its `id`,
  an operation that replaces a node installs a value with a different `id`.
  `JVal.undef` models the JS value `undefined`, which arises only as an
  array hole created by `delete arr[i]`.
* Platform primitives consumed by the code (the AES-256-CBC cipher behind
  `crypto.createCipheriv`, SHA-256 behind `createHash`, the UTF-8 byte codec
  behind `Buffer`, and the random IV source behind `crypto.randomBytes`) are
  parameters, bundled in `Platform`.  Everything the source itself computes
  (hex encoding, colon framing, JSON text, the proxy handler, the
  reconciler, the watcher's timestamp logic) is defined concretely.
* Numbers are modelled as `Int` (the store's JSON payloads in scope here are
  integral; IEEE floats are outside the model).
* The mutable closure state of one `db` instance (`store`, `fileExists`,
  `disableWrites`, `stat`, the backing file) is the structure `DBState`;
  filesystem writes update `fileContent`/`fileMtime` inside it.
-/

set_option maxHeartbeats 1600000

namespace DbTs

/-- JSON-safe JS values.  `arr`/`obj` carry a ghost heap-identity tag.
`undef` is the JS `undefined` (an array hole left by `delete`). -/
inductive JVal : Type where
  | null : JVal
  | bool (b : Bool) : JVal
  | num (n : Int) : JVal
  | str (s : String) : JVal
  | arr (id : Nat) (elems : List JVal) : JVal
  | obj (id : Nat) (fields : List (String × JVal)) : JVal
  | undef : JVal
deriving Repr

/-- A property key as used by the JS code: a string key or an array index. -/
inductive JKey : Type where
  | str (s : String) : JKey
  | idx (n : Nat) : JKey
deriving Repr, DecidableEq

/-- `typeof v === "object"` in JS: true for `null`, arrays and objects. -/
def isTypeofObject : JVal → Bool
  | .null => true
  | .arr _ _ => true
  | .obj _ _ => true
  | _ => false

/-- An object or array node, i.e. a value the proxy `get` trap wraps
(`target[key] !== null && typeof target[key] === "object"`). -/
def isWrappable : JVal → Bool
  | .arr _ _ => true
  | .obj _ _ => true
  | _ => false

/-- Same node constructor with the same ghost identity (the Lean rendering
of "the same JS object, possibly mutated in place"). -/
def sameCtorId : JVal → JVal → Bool
  | .obj i _, .obj j _ => i = j
  | .arr i _, .arr j _ => i = j
  | _, _ => false

/-- First-occurrence lookup in an object's field list. -/
def assocGet : List (String × JVal) → String → Option JVal
  | [], _ => none
  | (k, v) :: rest, k' => if k = k' then some v else assocGet rest k'

/-- JS property assignment on an object's field list: updating an existing
key keeps its position, a new key is appended. -/
def assocSet : List (String × JVal) → String → JVal → List (String × JVal)
  | [], k', v' => [(k', v')]
  | (k, v) :: rest, k', v' =>
      if k = k' then (k, v') :: rest else (k, v) :: assocSet rest k' v'

/-- `delete o[k]` on an object's field list. -/
def assocDel : List (String × JVal) → String → List (String × JVal)
  | [], _ => []
  | (k, v) :: rest, k' => if k = k' then rest else (k, v) :: assocDel rest k'

/-- The canonical-numeric-string test JS uses for array indices:
`some i` iff `k` is the decimal representation of `i`. -/
def canonIdx (k : String) : Option Nat :=
  match k.toNat? with
  | some i => if Nat.repr i = k then some i else none
  | none => none

/-- Element read from an array (a hole reads as `undefined`, i.e. `none`). -/
def arrGet (es : List JVal) (i : Nat) : Option JVal :=
  match es.get? i with
  | some .undef => none
  | some v => some v
  | none => none

/-- JS assignment `arr[i] = v`: in-range update, append at `i = length`,
beyond that the array is padded with holes. -/
def arrSet (es : List JVal) (i : Nat) (v : JVal) : List JVal :=
  if i < es.length then es.set i v
  else es ++ List.replicate (i - es.length) JVal.undef ++ [v]

/-- `delete arr[i]`: leaves a hole, the length is unchanged. -/
def arrDel (es : List JVal) (i : Nat) : List JVal :=
  if i < es.length then es.set i JVal.undef else es

/-- JS error signal (a thrown `TypeError` or parse/IO error). -/
abbrev JErr := Unit

/-- The property read `v[k]` (`undefined` is `none`).  Reading a property of
`null` or `undefined` throws.  Numeric string keys address array elements
and string characters the way JS coerces them. -/
def getKeyE : JVal → JKey → Except JErr (Option JVal)
  | .null, _ => .error ()
  | .undef, _ => .error ()
  | .obj _ fs, .str k => .ok (assocGet fs k)
  | .obj _ fs, .idx i => .ok (assocGet fs (Nat.repr i))
  | .arr _ es, .idx i => .ok (arrGet es i)
  | .arr _ es, .str k =>
      match canonIdx k with
      | some i => .ok (arrGet es i)
      | none => .ok none
  | .str s, .idx i =>
      .ok ((s.data.get? i).map fun c => JVal.str (String.mk [c]))
  | .str s, .str k =>
      match canonIdx k with
      | some i => .ok ((s.data.get? i).map fun c => JVal.str (String.mk [c]))
      | none => .ok none
  | _, _ => .ok none

/-- The property write `v[k] = x` in strict mode: mutates object/array nodes
in place (the ghost `id` is preserved), throws a `TypeError` on anything
else.  (A non-canonical string key on an array would become a named
property invisible to JSON; it is dropped here — no modelled code path
reaches it.) -/
def setKeyE : JVal → JKey → JVal → Except JErr JVal
  | .obj i fs, .str k, v => .ok (.obj i (assocSet fs k v))
  | .obj i fs, .idx n, v => .ok (.obj i (assocSet fs (Nat.repr n) v))
  | .arr i es, .idx n, v => .ok (.arr i (arrSet es n v))
  | .arr i es, .str k, v =>
      match canonIdx k with
      | some n => .ok (.arr i (arrSet es n v))
      | none => .ok (.arr i es)
  | _, _, _ => .error ()

/-- `delete v[k]`.  On objects the binding is removed; on arrays a hole is
left.  (`_rClean` only ever deletes from the object/array it iterates.) -/
def delKey : JVal → JKey → JVal
  | .obj i fs, .str k => .obj i (assocDel fs k)
  | .obj i fs, .idx n => .obj i (assocDel fs (Nat.repr n))
  | .arr i es, .idx n => .arr i (arrDel es n)
  | .arr i es, .str k =>
      match canonIdx k with
      | some n => .arr i (arrDel es n)
      | none => .arr i es
  | v, _ => v

/-- The key/value pairs a `for (const key in x)` loop visits, at the two
sites where the source iterates (`_rSet` iterates `_new`, `_rClean`
iterates `_old`), both of which only ever see values that passed a
`typeof === "object"` test: object fields in insertion order, array
indices (holes skipped), nothing for `null`. -/
def forInPairs : JVal → List (JKey × JVal)
  | .obj _ fs => fs.map fun p => (.str p.1, p.2)
  | .arr _ es =>
      (es.enum.filterMap fun p =>
        match p.2 with
        | .undef => none
        | v => some (JKey.idx p.1, v))
  | _ => []

/-- No duplicate string keys. -/
def keysNodup (fs : List (String × JVal)) : Bool :=
  match fs with
  | [] => true
  | (k, _) :: rest => !(rest.any fun p => p.1 = k) && keysNodup rest

mutual
/-- Well-formed JSON-parsed value: unique object keys, no `undefined`. -/
def wfVal : JVal → Bool
  | .obj _ fs => keysNodup fs && wfFields fs
  | .arr _ es => wfElems es
  | .undef => false
  | _ => true

def wfFields : List (String × JVal) → Bool
  | [] => true
  | (_, v) :: rest => wfVal v && wfFields rest

def wfElems : List JVal → Bool
  | [] => true
  | v :: rest => wfVal v && wfElems rest
end

mutual
/-- JSON deep equality: identity tags are ignored, object fields are
compared by key (order-insensitive), arrays index-wise. -/
def deepEq : JVal → JVal → Bool
  | .null, .null => true
  | .bool a, .bool b => a = b
  | .num a, .num b => a = b
  | .str a, .str b => a = b
  | .arr _ as, .arr _ bs => deepEqElems as bs
  | .obj _ afs, .obj _ bfs =>
      deepEqFields afs bfs && (bfs.all fun p => (assocGet afs p.1).isSome)
  | _, _ => false

def deepEqFields : List (String × JVal) → List (String × JVal) → Bool
  | [], _ => true
  | (k, v) :: rest, bfs =>
      (match assocGet bfs k with
       | some w => deepEq v w
       | none => false) && deepEqFields rest bfs

def deepEqElems : List JVal → List JVal → Bool
  | [], [] => true
  | a :: as, b :: bs => deepEq a b && deepEqElems as bs
  | _, _ => false
end

/-! ## Character-level utilities (hex, split, join) -/

/-- Lowercase hex digits (`Buffer.toString("hex")` output alphabet). -/
def hexDigitsL : List Char := "0123456789abcdef".data

def hexChar (n : Nat) : Char := hexDigitsL.getD n '0'

/-- Two lowercase hex characters for one byte. -/
def hexByte (b : Nat) : List Char := [hexChar (b / 16), hexChar (b % 16)]

/-- `buf.toString("hex")`. -/
def hexEnc (bs : List Nat) : List Char := bs.flatMap hexByte

/-- Value of one hex character (`Buffer.from(_, "hex")` accepts both cases). -/
def hexCharVal (c : Char) : Option Nat :=
  if '0' ≤ c ∧ c ≤ '9' then some (c.toNat - '0'.toNat)
  else if 'a' ≤ c ∧ c ≤ 'f' then some (c.toNat - 'a'.toNat + 10)
  else if 'A' ≤ c ∧ c ≤ 'F' then some (c.toNat - 'A'.toNat + 10)
  else none

/-- `Buffer.from(s, "hex")`: consumes hex pairs, truncating at the first
invalid pair. -/
def hexDecL : List Char → List Nat
  | c1 :: c2 :: rest =>
      match hexCharVal c1, hexCharVal c2 with
      | some h, some l => (16 * h + l) :: hexDecL rest
      | _, _ => []
  | _ => []

/-- `s.split(sep)` for a one-character separator, on char lists:
`charSplit ':' "a:b".data = ["a".data, "b".data]`, `charSplit ':' [] = [[]]`. -/
def charSplit (sep : Char) : List Char → List (List Char)
  | [] => [[]]
  | c :: rest =>
      if c = sep then [] :: charSplit sep rest
      else
        match charSplit sep rest with
        | g :: gs => (c :: g) :: gs
        | [] => [[c]]

/-- `parts.join(sep)` for a one-character separator. -/
def charJoin (sep : Char) : List (List Char) → List Char
  | [] => []
  | [g] => g
  | g :: gs => g ++ sep :: charJoin sep gs

/-! ## JSON serialization (`JSON.stringify`, compact and tab-indented) -/

/-- JSON string-literal escaping of one character. -/
def escChar (c : Char) : List Char :=
  if c = '"' then ['\\', '"']
  else if c = '\\' then ['\\', '\\']
  else if c = '\n' then ['\\', 'n']
  else if c = '\r' then ['\\', 'r']
  else if c = '\t' then ['\\', 't']
  else if c.toNat = 8 then ['\\', 'b']
  else if c.toNat = 12 then ['\\', 'f']
  else if c.toNat < 32 then
    ['\\', 'u', '0', '0', hexChar (c.toNat / 16), hexChar (c.toNat % 16)]
  else [c]

/-- A JSON string literal. -/
def strLit (s : String) : List Char := '"' :: s.data.flatMap escChar ++ ['"']

/-- Scalar serialization shared by both printers.  A top-level `undefined`
never reaches `JSON.stringify` in the modelled code paths. -/
def stringifyScalar : JVal → List Char
  | .null => "null".data
  | .bool true => "true".data
  | .bool false => "false".data
  | .num n => (toString n).data
  | .str s => strLit s
  | _ => "null".data

mutual
/-- `JSON.stringify(v)` (no indent). -/
def stringifyV : JVal → List Char
  | .arr _ es => '[' :: charJoin ',' (stringifyElems es) ++ [']']
  | .obj _ fs => '{' :: charJoin ',' (stringifyFields fs) ++ ['}']
  | v => stringifyScalar v

def stringifyFields : List (String × JVal) → List (List Char)
  | [] => []
  | (_, .undef) :: rest => stringifyFields rest
  | (k, v) :: rest => (strLit k ++ ':' :: stringifyV v) :: stringifyFields rest

def stringifyElems : List JVal → List (List Char)
  | [] => []
  | .undef :: rest => "null".data :: stringifyElems rest
  | v :: rest => stringifyV v :: stringifyElems rest
end

def indentC (lvl : Nat) : List Char := List.replicate lvl '\t'

/-- Items of an indented composite, each on its own line at indent `ind`,
separated by `",\n"`. -/
def prettyJoin (ind : List Char) : List (List Char) → List Char
  | [] => []
  | [it] => ind ++ it
  | it :: rest => ind ++ it ++ ',' :: '\n' :: prettyJoin ind rest

/-- Layout of one indented composite: `JSON.stringify(v, null, "\t")` puts
every item on its own line, one level deeper, and the closer on a fresh
line at the current level; an empty composite stays on one line. -/
def prettyItems (lvl : Nat) (opener closer : Char) (items : List (List Char)) :
    List Char :=
  match items with
  | [] => [opener, closer]
  | _ =>
      opener :: '\n' :: prettyJoin (indentC (lvl + 1)) items ++
        '\n' :: indentC lvl ++ [closer]

mutual
/-- `JSON.stringify(v, null, "\t")` at indent level `lvl`. -/
def stringifyPV : Nat → JVal → List Char
  | lvl, .arr _ es => prettyItems lvl '[' ']' (stringifyPElems (lvl + 1) es)
  | lvl, .obj _ fs => prettyItems lvl '{' '}' (stringifyPFields (lvl + 1) fs)
  | _, v => stringifyScalar v

def stringifyPFields : Nat → List (String × JVal) → List (List Char)
  | _, [] => []
  | lvl, (_, .undef) :: rest => stringifyPFields lvl rest
  | lvl, (k, v) :: rest =>
      (strLit k ++ ':' :: ' ' :: stringifyPV lvl v) :: stringifyPFields lvl rest

def stringifyPElems : Nat → List JVal → List (List Char)
  | _, [] => []
  | lvl, .undef :: rest => "null".data :: stringifyPElems lvl rest
  | lvl, v :: rest => stringifyPV lvl v :: stringifyPElems lvl rest
end

/-! ## JSON parsing (`JSON.parse`)

The parser threads a fresh-identity counter: every parsed object/array node
receives a new ghost id, as `JSON.parse` allocates fresh heap objects.
Recursion is fuelled; `parseJson` supplies ample fuel for its input. -/

def isWsChar (c : Char) : Bool :=
  c = ' ' ∨ c = '\n' ∨ c = '\t' ∨ c = '\r'

def skipWs (cs : List Char) : List Char := cs.dropWhile isWsChar

def isDigitC (c : Char) : Bool := '0' ≤ c ∧ c ≤ '9'

/-- Parse a JSON string literal body after the opening quote. -/
def parseStrRest (fuel : Nat) (cs : List Char) (acc : List Char) :
    Option (String × List Char) :=
  match fuel, cs with
  | 0, _ => none
  | _, [] => none
  | fuel + 1, c :: rest =>
      if c = '"' then some (String.mk acc.reverse, rest)
      else if c = '\\' then
        match rest with
        | 'n' :: r => parseStrRest fuel r ('\n' :: acc)
        | 't' :: r => parseStrRest fuel r ('\t' :: acc)
        | 'r' :: r => parseStrRest fuel r ('\r' :: acc)
        | 'b' :: r => parseStrRest fuel r ('\x08' :: acc)
        | 'f' :: r => parseStrRest fuel r ('\x0c' :: acc)
        | '"' :: r => parseStrRest fuel r ('"' :: acc)
        | '\\' :: r => parseStrRest fuel r ('\\' :: acc)
        | '/' :: r => parseStrRest fuel r ('/' :: acc)
        | 'u' :: a :: b :: c' :: d :: r =>
            match hexCharVal a, hexCharVal b, hexCharVal c', hexCharVal d with
            | some ha, some hb, some hc, some hd =>
                parseStrRest fuel r
                  (Char.ofNat (((ha * 16 + hb) * 16 + hc) * 16 + hd) :: acc)
            | _, _, _, _ => none
        | _ => none
      else parseStrRest fuel rest (c :: acc)

/-- Parse an unsigned decimal integer (at least one digit). -/
def parseDigits (cs : List Char) : Option (Nat × List Char) :=
  let ds := cs.takeWhile isDigitC
  if ds.isEmpty then none
  else some (ds.foldl (fun n c => n * 10 + (c.toNat - '0'.toNat)) 0,
             cs.dropWhile isDigitC)

/-- Parse a JSON number.  Only integers are representable in the model;
a fractional part or exponent makes the parse fail. -/
def parseNum (cs : List Char) : Option (Int × List Char) :=
  let (neg, cs') := match cs with
    | '-' :: r => (true, r)
    | _ => (false, cs)
  match parseDigits cs' with
  | none => none
  | some (n, rest) =>
      match rest with
      | '.' :: _ => none
      | 'e' :: _ => none
      | 'E' :: _ => none
      | _ => some (if neg then -(n : Int) else (n : Int), rest)

mutual
/-- Parse one JSON value; returns it with the remaining input and the next
fresh identity. -/
def parseVal (fuel : Nat) (cs : List Char) (nid : Nat) :
    Option (JVal × List Char × Nat) :=
  match fuel with
  | 0 => none
  | fuel + 1 =>
    match skipWs cs with
    | [] => none
    | c :: rest =>
      if c = '{' then
        match skipWs rest with
        | '}' :: r => some (.obj nid [], r, nid + 1)
        | _ => match parseMembers fuel rest (nid + 1) [] with
               | some (fs, r, nid') => some (.obj nid fs, r, nid')
               | none => none
      else if c = '[' then
        match skipWs rest with
        | ']' :: r => some (.arr nid [], r, nid + 1)
        | _ => match parseItems fuel rest (nid + 1) [] with
               | some (es, r, nid') => some (.arr nid es, r, nid')
               | none => none
      else if c = '"' then
        match parseStrRest (fuel + 1) rest [] with
        | some (s, r) => some (.str s, r, nid)
        | none => none
      else if c = 't' then
        match rest with
        | 'r' :: 'u' :: 'e' :: r => some (.bool true, r, nid)
        | _ => none
      else if c = 'f' then
        match rest with
        | 'a' :: 'l' :: 's' :: 'e' :: r => some (.bool false, r, nid)
        | _ => none
      else if c = 'n' then
        match rest with
        | 'u' :: 'l' :: 'l' :: r => some (.null, r, nid)
        | _ => none
      else
        match parseNum (c :: rest) with
        | some (n, r) => some (.num n, r, nid)
        | none => none

/-- Parse `"key": value` members until `}`.  A duplicate key overwrites the
earlier value in place, as in JS. -/
def parseMembers (fuel : Nat) (cs : List Char) (nid : Nat)
    (acc : List (String × JVal)) :
    Option (List (String × JVal) × List Char × Nat) :=
  match fuel with
  | 0 => none
  | fuel + 1 =>
    match skipWs cs with
    | '"' :: rest =>
      match parseStrRest (fuel + 1) rest [] with
      | none => none
      | some (k, r1) =>
        match skipWs r1 with
        | ':' :: r2 =>
          match parseVal fuel r2 nid with
          | none => none
          | some (v, r3, nid') =>
            match skipWs r3 with
            | ',' :: r4 => parseMembers fuel r4 nid' (assocSet acc k v)
            | '}' :: r4 => some (assocSet acc k v, r4, nid')
            | _ => none
        | _ => none
    | _ => none

/-- Parse array items until `]`. -/
def parseItems (fuel : Nat) (cs : List Char) (nid : Nat) (acc : List JVal) :
    Option (List JVal × List Char × Nat) :=
  match fuel with
  | 0 => none
  | fuel + 1 =>
    match parseVal fuel cs nid with
    | none => none
    | some (v, r, nid') =>
      match skipWs r with
      | ',' :: r2 => parseItems fuel r2 nid' (acc ++ [v])
      | ']' :: r2 => some (acc ++ [v], r2, nid')
      | _ => none
end

/-- `JSON.parse(s)`, threading the fresh-identity counter `nid`.
Fails (`none`) where `JSON.parse` throws. -/
def parseJson (s : String) (nid : Nat) : Option (JVal × Nat) :=
  match parseVal (4 * s.data.length + 16) s.data nid with
  | some (v, rest, nid') => if (skipWs rest).isEmpty then some (v, nid') else none
  | none => none

/-! ## Platform primitives and the codec (`encrypt`/`decrypt`) -/

/-- The primitives §6 of the design consumes from the host platform:
the AES-256-CBC cipher (`crypto.createCipheriv("aes-256-cbc", key, iv)`,
`update`+`final` composed, PKCS#7 padding included), its inverse, the
`Buffer` UTF-8 byte codec, SHA-256, and the `crypto.randomBytes(16)`
stream (indexed by a draw counter). -/
structure Platform where
  blockEnc : List Nat → List Nat → List Nat → List Nat
  blockDec : List Nat → List Nat → List Nat → List Nat
  strBytes : String → List Nat
  bytesStr : List Nat → String
  sha256 : String → List Nat
  ivGen : Nat → List Nat

/-- `crypto.createHash("sha256").update(cryptKey).digest().slice(0, 32)`. -/
def derivedKey (P : Platform) (cryptKey : String) : List Nat :=
  (P.sha256 cryptKey).take 32

/-- The source's `encrypt`: fresh IV, cipher the UTF-8 bytes, emit
`<ivHex>:<cipherHex>`. -/
def encryptS (P : Platform) (key iv : List Nat) (s : String) : String :=
  String.mk (hexEnc iv ++ ':' :: hexEnc (P.blockEnc key iv (P.strBytes s)))

/-- The source's `decrypt`: split on `":"`, shift off the IV segment,
re-join the rest on `":"` as the ciphertext, decipher. -/
def decryptS (P : Platform) (key : List Nat) (s : String) : String :=
  let parts := charSplit ':' s.data
  let iv := hexDecL (parts.headD [])
  let ct := hexDecL (charJoin ':' parts.tail)
  P.bytesStr (P.blockDec key iv ct)

/-! ## Store state and the persistence path -/

/-- The recognized construction options (`dbOptions<T>`). -/
structure Options where
  template : Option JVal := none
  cryptKey : Option String := none
  pretty : Bool := false
  forceCreate : Bool := false
  updateOnExternalChanges : Bool := false

/-- `pretty = options.pretty === true && options.cryptKey === undefined`. -/
def effPretty (o : Options) : Bool := o.pretty && o.cryptKey.isNone

/-- The closure state of one `db` instance plus its slice of the world:
the live root behind the proxy, the backing file (`none` = absent) with its
mtime, the watcher's last-known `stat`, the `fileExists`/`disableWrites`
closure variables, the parent-directory state, whether `fs.watch` was
installed, and counters for fresh IV draws, fresh mtimes and fresh ids. -/
structure DBState where
  root : JVal
  fileContent : Option String := none
  fileMtime : Nat := 0
  statMtime : Nat := 0
  fileExists : Bool := false
  folderNonempty : Bool := false
  folderExists : Bool := true
  disableWrites : Bool := false
  watching : Bool := false
  ivCtr : Nat := 0
  clock : Nat := 0
  idCtr : Nat := 1000

/-- `JSON.stringify(v, null, pretty ? "\t" : undefined)`. -/
def serializeStore (o : Options) (v : JVal) : String :=
  if effPretty o then String.mk (stringifyPV 0 v) else String.mk (stringifyV v)

/-- The bytes `_writeStore` puts on disk for payload `v`, drawing IV number
`ivIdx` when encryption is configured. -/
def encodeForDisk (P : Platform) (o : Options) (ivIdx : Nat) (v : JVal) : String :=
  match o.cryptKey with
  | some ck => encryptS P (derivedKey P ck) (P.ivGen ivIdx) (serializeStore o v)
  | none => serializeStore o v

/-- `_writeStore(store)`: no-op while `disableWrites` is set; otherwise
serialize, optionally encrypt, lazily create the parent directory when the
file did not exist at construction, write the full file, and refresh the
watcher's `stat` when `updateOnExternalChanges` is on. -/
def writeStore (P : Platform) (o : Options) (st : DBState) (v : JVal) : DBState :=
  if st.disableWrites then st
  else
    let raw := encodeForDisk P o st.ivCtr v
    let ivCtr' := if o.cryptKey.isSome then st.ivCtr + 1 else st.ivCtr
    let folderExists' :=
      if ¬st.fileExists ∧ st.folderNonempty ∧ ¬st.folderExists then true
      else st.folderExists
    let mt := st.clock + 1
    let st' := { st with
      fileContent := some raw
      fileMtime := mt
      clock := mt
      ivCtr := ivCtr'
      folderExists := folderExists' }
    if o.updateOnExternalChanges then { st' with statMtime := mt } else st'

/-- Errors surfaced by the store. -/
inductive DbError where
  | ioError : DbError
  | emptyFile : DbError
  | parseError : DbError
  | typeError : DbError
deriving Repr, DecidableEq

/-- `_readStore()`: read the file, treat an empty file as fatal, perform
the plaintext-to-encrypted legacy migration when a `cryptKey` is configured
and the raw content starts with `{` (re-serializing and re-encrypting to
disk, then re-parsing the same raw text for the return value), otherwise
decrypt when configured, and parse. -/
def readStore (P : Platform) (o : Options) (st : DBState) :
    Except DbError (DBState × JVal) :=
  match st.fileContent with
  | none => .error .ioError
  | some raw =>
    if raw = "" then .error .emptyFile
    else
      match o.cryptKey with
      | some ck =>
        if raw.data.head? = some '{' then
          match parseJson raw st.idCtr with
          | none => .error .parseError
          | some (v, nid) =>
            let st1 := writeStore P o { st with idCtr := nid } v
            match parseJson raw st1.idCtr with
            | none => .error .parseError
            | some (v2, nid2) => .ok ({ st1 with idCtr := nid2 }, v2)
        else
          match parseJson (decryptS P (derivedKey P ck) raw) st.idCtr with
          | none => .error .parseError
          | some (v, nid) => .ok ({ st with idCtr := nid }, v)
      | none =>
        match parseJson raw st.idCtr with
        | none => .error .parseError
        | some (v, nid) => .ok ({ st with idCtr := nid }, v)

/-! ## Path access through the proxy

A caller navigates `store.a.b…` through the `get` trap, which wraps nested
objects/arrays in fresh proxies over the *same* underlying nodes; on
tree-shaped roots this is exactly access by path, so the wrapped views are
modelled by paths from the root. -/

/-- Resolve a path of property reads (an intermediate `undefined` makes the
next read throw, as in JS; a trailing `undefined` resolves to `undef`). -/
def resolveAtE : JVal → List JKey → Except JErr JVal
  | v, [] => .ok v
  | v, k :: ks => do
      let sub? ← getKeyE v k
      resolveAtE (sub?.getD .undef) ks

/-- The assignment `root.path[k] = v`, mutating the node at `path` in place
(all ancestors keep their identity). -/
def setAtPath : JVal → List JKey → JKey → JVal → Except JErr JVal
  | r, [], k, v => setKeyE r k v
  | r, p :: ps, k, v => do
      let sub? ← getKeyE r p
      let sub' ← setAtPath (sub?.getD .undef) ps k v
      setKeyE r p sub'

/-- `delete root.path[k]`, in place. -/
def delAtPath : JVal → List JKey → JKey → Except JErr JVal
  | r, [], k => .ok (delKey r k)
  | r, p :: ps, k => do
      let sub? ← getKeyE r p
      let sub' ← delAtPath (sub?.getD .undef) ps k
      setKeyE r p sub'

/-- A property write through the wrapped store: navigate `path` through the
`get` trap; if the final target is a wrapped node, the `set` trap stores the
value on the underlying node, invokes `_writeStore(store)` with the whole
current root, and reports `true`.  A write on an unwrapped target (scalar or
`null`) is an ordinary strict-mode `TypeError`, with no write triggered. -/
def handlerSetPath (P : Platform) (o : Options) (st : DBState)
    (path : List JKey) (k : JKey) (v : JVal) : Except JErr (DBState × Bool) := do
  let tgt ← resolveAtE st.root path
  if isWrappable tgt then do
    let root' ← setAtPath st.root path k v
    let st' := { st with root := root' }
    .ok (writeStore P o st' root', true)
  else .error ()

/-! ## The Reconciler (`_recursiveUpdate` = `_rSet` then `_rClean`)

`_rSet`/`_rClean` walk the live root through the proxy, so every assignment
they perform invokes the (suppressed) `_writeStore` trigger; the live side
is addressed by its path from the root, the snapshot side is a value.
`_rClean` iterates the key list of the live node captured at entry, which on
tree-shaped roots coincides with the JS `for…in` over the mutating node
(only the key currently visited is ever deleted). -/

mutual
/-- `_rSet(_new, _old)` where `_old` is the live node at `path`:
for every key `for…in` visits on `_new`, run one step. -/
def rSetP (P : Platform) (o : Options) (st : DBState) (nv : JVal)
    (path : List JKey) : Except JErr DBState :=
  match nv with
  | .obj _ fs => rSetFieldsP P o st fs path
  | .arr _ es => rSetElemsP P o st 0 es path
  | _ => .ok st
termination_by (sizeOf nv, 0)

def rSetFieldsP (P : Platform) (o : Options) (st : DBState)
    (fs : List (String × JVal)) (path : List JKey) : Except JErr DBState :=
  match fs with
  | [] => .ok st
  | (k, v) :: rest => do
      let st' ← rSetStepP P o st (JKey.str k) v path
      rSetFieldsP P o st' rest path
termination_by (sizeOf fs, 0)

def rSetElemsP (P : Platform) (o : Options) (st : DBState) (i : Nat)
    (es : List JVal) (path : List JKey) : Except JErr DBState :=
  match es with
  | [] => .ok st
  | .undef :: rest => rSetElemsP P o st (i + 1) rest path
  | v :: rest => do
      let st' ← rSetStepP P o st (JKey.idx i) v path
      rSetElemsP P o st' (i + 1) rest path
termination_by (sizeOf es, 0)

/-- One `_rSet` body step for key `k` with snapshot value `nvk`:
`if (typeof _new[key] === "object") { if (_old[key] === undefined)
_old[key] = _new[key]; else _rSet(_new[key], _old[key]); } else
_old[key] = _new[key];` — assignments go through the proxy `set` trap and
hence invoke the (suppressible) persistence trigger. -/
def rSetStepP (P : Platform) (o : Options) (st : DBState) (k : JKey)
    (nvk : JVal) (path : List JKey) : Except JErr DBState :=
  if isTypeofObject nvk then do
    let old ← resolveAtE st.root path
    let oldk ← getKeyE old k
    match oldk with
    | none => do
        let root' ← setAtPath st.root path k nvk
        .ok (writeStore P o { st with root := root' } root')
    | some _ => rSetP P o st nvk (path ++ [k])
  else do
    let root' ← setAtPath st.root path k nvk
    .ok (writeStore P o { st with root := root' } root')
termination_by (sizeOf nvk, 1)
end

mutual
/-- `_rClean(_new, _old)` where `_old` (the value captured at `path`) is the
live node: for every key `for…in` visits on `_old`, run one step. -/
def rCleanP (P : Platform) (o : Options) (st : DBState) (nv old : JVal)
    (path : List JKey) : Except JErr DBState :=
  match old with
  | .obj _ fs => rCleanFieldsP P o st nv fs path
  | .arr _ es => rCleanElemsP P o st nv 0 es path
  | _ => .ok st
termination_by (sizeOf old, 0)

def rCleanFieldsP (P : Platform) (o : Options) (st : DBState) (nv : JVal)
    (fs : List (String × JVal)) (path : List JKey) : Except JErr DBState :=
  match fs with
  | [] => .ok st
  | (k, ov) :: rest => do
      let st' ← rCleanStepP P o st nv (JKey.str k) ov path
      rCleanFieldsP P o st' nv rest path
termination_by (sizeOf fs, 0)

def rCleanElemsP (P : Platform) (o : Options) (st : DBState) (nv : JVal)
    (i : Nat) (es : List JVal) (path : List JKey) : Except JErr DBState :=
  match es with
  | [] => .ok st
  | .undef :: rest => rCleanElemsP P o st nv (i + 1) rest path
  | ov :: rest => do
      let st' ← rCleanStepP P o st nv (JKey.idx i) ov path
      rCleanElemsP P o st' nv (i + 1) rest path
termination_by (sizeOf es, 0)

/-- One `_rClean` body step for key `k` with live value `ov`:
`if (_new[key] === undefined) delete _old[key]; else if
(typeof _old[key] === "object") _rClean(_new[key], _old[key]);` — reading
`_new[key]` throws when `_new` is `null`; `delete` is untrapped, so it never
triggers a write. -/
def rCleanStepP (P : Platform) (o : Options) (st : DBState) (nv : JVal)
    (k : JKey) (ov : JVal) (path : List JKey) : Except JErr DBState := do
  let nvk ← getKeyE nv k
  match nvk with
  | none => do
      let root' ← delAtPath st.root path k
      .ok { st with root := root' }
  | some nvv =>
      if isTypeofObject ov then rCleanP P o st nvv ov (path ++ [k])
      else .ok st
termination_by (sizeOf ov, 1)
end

/-- `_recursiveUpdate(_new, _old)`: suppress the persistence trigger, apply
(`_rSet`), prune (`_rClean`), lift the suppression.  (On a thrown error the
suppression is *not* lifted; the model propagates the error.) -/
def recursiveUpdate (P : Platform) (o : Options) (st : DBState) (nv : JVal) :
    Except JErr DBState := do
  let st1 := { st with disableWrites := true }
  let st2 ← rSetP P o st1 nv []
  let st3 ← rCleanP P o st2 nv st2.root []
  .ok { st3 with disableWrites := false }

/-! ## The Change Watcher and construction -/

/-- The watcher's debounce-timer expiry: if the file's current modification
timestamp equals the last-known `stat`, do nothing; otherwise
`_recursiveUpdate(_readStore(), store)`. -/
def watchTick (P : Platform) (o : Options) (st : DBState) :
    Except DbError DBState :=
  match st.fileContent with
  | none => .error .ioError
  | some _ =>
    if st.statMtime = st.fileMtime then .ok st
    else
      match readStore P o st with
      | .error e => .error e
      | .ok (st1, snap) =>
        match recursiveUpdate P o st1 snap with
        | .ok st2 => .ok st2
        | .error _ => .error .typeError

/-- The object spread `{ ...defaultDB }`: a fresh top-level object whose
field values (including nested objects) are shared with the source. -/
def spreadObj (freshId : Nat) : JVal → JVal
  | .obj _ fs => .obj freshId fs
  | .arr _ es =>
      .obj freshId (es.enum.filterMap fun p =>
        match p.2 with
        | .undef => none
        | v => some (Nat.repr p.1, v))
  | _ => .obj freshId []

/-- `db(file, options)`: read-or-initialize the root, wrap it, optionally
write it out eagerly and start the watcher.  The world supplies the initial
backing-file content (`none` = absent) and mtime and the parent-directory
state. -/
def dbInit (P : Platform) (o : Options) (fileContent0 : Option String)
    (fileMtime0 : Nat) (folderNonempty folderExists0 : Bool) :
    Except DbError DBState :=
  let fileExists := fileContent0.isSome
  let st0 : DBState := {
    root := .null
    fileContent := fileContent0
    fileMtime := fileMtime0
    statMtime := 0
    fileExists := fileExists
    folderNonempty := folderNonempty
    folderExists := folderExists0
    disableWrites := false
    watching := false
    ivCtr := 0
    clock := fileMtime0
    idCtr := 0 }
  if fileExists then
    match readStore P o st0 with
    | .error e => .error e
    | .ok (st1, v) =>
      let st2 := { st1 with root := v }
      if o.updateOnExternalChanges then
        .ok { st2 with watching := true, statMtime := st2.fileMtime }
      else .ok st2
  else
    let defaultDB := o.template.getD (.obj st0.idCtr [])
    let nid := if o.template.isSome then st0.idCtr else st0.idCtr + 1
    let st1 := { st0 with root := spreadObj nid defaultDB, idCtr := nid + 1 }
    if o.forceCreate then
      let st2 := writeStore P o st1 defaultDB
      let st3 :=
        if o.updateOnExternalChanges then
          { st2 with watching := true, statMtime := st2.fileMtime }
        else st2
      .ok { st3 with fileExists := true }
    else .ok st1

/-! ## Value-level (pure) form of the reconciler

`_rSet`/`_rClean` mutate the live node in place; on tree-shaped roots their
effect on the node at a path factors through the following pure functions
(proved below), which mirror the source line by line.  A recursion into a
primitive live value operates on a by-value copy (JS primitives), so its
only observable outcome is an error or no change — hence the
`isWrappable` split in the step functions. -/

/-- Replace the subtree at `path` (every ancestor is mutated in place). -/
def replaceAtE : JVal → List JKey → JVal → Except JErr JVal
  | _, [], v => .ok v
  | r, p :: ps, v => do
      let sub? ← getKeyE r p
      let sub' ← replaceAtE (sub?.getD .undef) ps v
      setKeyE r p sub'

mutual
/-- Pure `_rSet(_new, _old)`: the mutated `_old`. -/
def rSet (nv old : JVal) : Except JErr JVal :=
  match nv with
  | .obj _ fs => rSetFields fs old
  | .arr _ es => rSetElems 0 es old
  | _ => .ok old
termination_by (sizeOf nv, 0)

def rSetFields (fs : List (String × JVal)) (old : JVal) : Except JErr JVal :=
  match fs with
  | [] => .ok old
  | (k, v) :: rest => do
      let old' ← rSetStep (JKey.str k) v old
      rSetFields rest old'
termination_by (sizeOf fs, 0)

def rSetElems (i : Nat) (es : List JVal) (old : JVal) : Except JErr JVal :=
  match es with
  | [] => .ok old
  | .undef :: rest => rSetElems (i + 1) rest old
  | v :: rest => do
      let old' ← rSetStep (JKey.idx i) v old
      rSetElems (i + 1) rest old'
termination_by (sizeOf es, 0)

/-- Pure form of one `_rSet` step for key `k`. -/
def rSetStep (k : JKey) (nvk : JVal) (old : JVal) : Except JErr JVal :=
  if isTypeofObject nvk then do
    let oldk ← getKeyE old k
    match oldk with
    | none => setKeyE old k nvk
    | some ov =>
        if isWrappable ov then do
          let ov' ← rSet nvk ov
          setKeyE old k ov'
        else do
          let _ ← rSet nvk ov
          .ok old
  else setKeyE old k nvk
termination_by (sizeOf nvk, 1)
end

mutual
/-- Pure `_rClean(_new, _old)`: the pruned `_old` (the iterated key list is
the one captured at entry). -/
def rClean (nv old : JVal) : Except JErr JVal :=
  match old with
  | .obj _ fs => rCleanFields nv fs old
  | .arr _ es => rCleanElems nv 0 es old
  | _ => .ok old
termination_by (sizeOf old, 0)

def rCleanFields (nv : JVal) (fs : List (String × JVal)) (old : JVal) :
    Except JErr JVal :=
  match fs with
  | [] => .ok old
  | (k, ov) :: rest => do
      let old' ← rCleanStep nv (JKey.str k) ov old
      rCleanFields nv rest old'
termination_by (sizeOf fs, 0)

def rCleanElems (nv : JVal) (i : Nat) (es : List JVal) (old : JVal) :
    Except JErr JVal :=
  match es with
  | [] => .ok old
  | .undef :: rest => rCleanElems nv (i + 1) rest old
  | ov :: rest => do
      let old' ← rCleanStep nv (JKey.idx i) ov old
      rCleanElems nv (i + 1) rest old'
termination_by (sizeOf es, 0)

/-- Pure form of one `_rClean` step for key `k` with captured live value
`ov`, applied to the current node `old`. -/
def rCleanStep (nv : JVal) (k : JKey) (ov old : JVal) : Except JErr JVal := do
  let nvk ← getKeyE nv k
  match nvk with
  | none => .ok (delKey old k)
  | some nvv =>
      if isTypeofObject ov then
        if isWrappable ov then do
          let ov' ← rClean nvv ov
          setKeyE old k ov'
        else do
          let _ ← rClean nvv ov
          .ok old
      else .ok old
termination_by (sizeOf ov, 1)
end

/-! ## Kind-compatibility between a snapshot and the live value

`compat snap live` states that wherever the snapshot carries a value of JS
type `"object"` (object, array or `null`) at a position where the live side
also has a value, the live value has the same JS kind (and live arrays are
no longer than the snapshot's).  This is the precondition under which the
Apply/Prune passes actually make the live value deep-equal to the
snapshot. -/
mutual
def compat : JVal → JVal → Bool
  | .null, l => match l with | .null => true | _ => false
  | .obj _ sfs, l =>
      match l with
      | .obj _ lfs => compatFields sfs lfs
      | _ => false
  | .arr _ ses, l =>
      match l with
      | .arr _ les => compatElems ses les
      | _ => false
  | _, _ => true

def compatFields : List (String × JVal) → List (String × JVal) → Bool
  | [], _ => true
  | (k, sv) :: rest, lfs =>
      (match assocGet lfs k with
       | some lv => compat sv lv
       | none => true) && compatFields rest lfs

def compatElems : List JVal → List JVal → Bool
  | _, [] => true
  | [], _ :: _ => false
  | sv :: ss, lv :: ls => compat sv lv && compatElems ss ls
end

/-! ## A heap model for template sharing (claim about `{ ...defaultDB }`)

The tree model above is adequate for value-level claims, but the relation
between the store root and the caller's template object is about reference
sharing, so it is modelled on a small explicit heap: object nodes live at
addresses, values are primitives or references. -/

inductive HPrim : Type where
  | null : HPrim
  | bool (b : Bool) : HPrim
  | num (n : Int) : HPrim
  | str (s : String) : HPrim
deriving Repr, DecidableEq

/-- A heap value: a primitive or a reference to an object node. -/
inductive HVal : Type where
  | prim (p : HPrim) : HVal
  | ref (a : Nat) : HVal
deriving Repr, DecidableEq

/-- The heap: object nodes (field lists) by address. -/
abbrev Heap := List (Nat × List (String × HVal))

def hGet (h : Heap) (a : Nat) : Option (List (String × HVal)) :=
  match h with
  | [] => none
  | (b, n) :: rest => if b = a then some n else hGet rest a

def hPut (h : Heap) (a : Nat) (n : List (String × HVal)) : Heap :=
  match h with
  | [] => [(a, n)]
  | (b, m) :: rest => if b = a then (b, n) :: rest else (b, m) :: hPut rest a n

def hAssocGet (fs : List (String × HVal)) (k : String) : Option HVal :=
  match fs with
  | [] => none
  | (k', v) :: rest => if k' = k then some v else hAssocGet rest k

def hAssocSet (fs : List (String × HVal)) (k : String) (v : HVal) :
    List (String × HVal) :=
  match fs with
  | [] => [(k, v)]
  | (k', w) :: rest =>
      if k' = k then (k', v) :: rest else (k', w) :: hAssocSet rest k v

/-- `{ ...src }`: allocate a fresh object whose field list is copied from
`src`; the field *values* — in particular references to nested objects —
are shared with the source. -/
def hSpread (h : Heap) (src fresh : Nat) : Heap :=
  hPut h fresh ((hGet h src).getD [])

/-- A property write `root.path[k] = v` through the proxy: follow `path` by
reference from `a`, then mutate the final node in place. -/
def hSetPath (h : Heap) (a : Nat) (path : List String) (k : String) (v : HVal) :
    Option Heap :=
  match path with
  | [] =>
      match hGet h a with
      | some n => some (hPut h a (hAssocSet n k v))
      | none => none
  | p :: ps =>
      match hGet h a with
      | some n =>
          match hAssocGet n p with
          | some (.ref b) => hSetPath h b ps k v
          | _ => none
      | none => none

mutual
/-- Fuelled readback of a heap value as a pure tree (for observing what a
holder of the reference sees); identity tags are irrelevant here, all 0. -/
def hRead (fuel : Nat) (h : Heap) (v : HVal) : Option JVal :=
  match fuel with
  | 0 => none
  | fuel + 1 =>
    match v with
    | .prim .null => some .null
    | .prim (.bool b) => some (.bool b)
    | .prim (.num n) => some (.num n)
    | .prim (.str s) => some (.str s)
    | .ref a =>
        match hGet h a with
        | none => none
        | some fs =>
            match hReadFields fuel h fs with
            | some fs' => some (.obj 0 fs')
            | none => none
termination_by (fuel, 0)

/-- Fuelled readback of a node's fields. -/
def hReadFields (fuel : Nat) (h : Heap) (fs : List (String × HVal)) :
    Option (List (String × JVal)) :=
  match fuel with
  | 0 => none
  | fuel + 1 =>
    match fs with
    | [] => some []
    | (k, v) :: rest =>
        match hRead fuel h v, hReadFields (fuel + 1) h rest with
        | some t, some ts => some ((k, t) :: ts)
        | _, _ => none
termination_by (fuel, sizeOf fs)
end

/-- The addresses a node's fields reference. -/
def fieldRefs (fs : List (String × HVal)) : List Nat :=
  fs.filterMap fun p =>
    match p.2 with
    | .ref a => some a
    | _ => none

/-- Every reference stored anywhere in the heap points to an allocated
address other than `a`, and `a` itself is not allocated (a fresh address). -/
def heapClosedAway (h : Heap) (a : Nat) : Prop :=
  hGet h a = none ∧
    ∀ e ∈ h, ∀ c ∈ fieldRefs e.2, hGet h c ≠ none ∧ c ≠ a

/-! ## Concrete artifacts for witnesses -/

/-- A degenerate platform instantiation for witnesses: the identity block
cipher, code-point bytes, a constant hash and a constant IV stream. -/
def trivialPlatform : Platform where
  blockEnc := fun _ _ d => d
  blockDec := fun _ _ d => d
  strBytes := fun s => s.data.map Char.toNat
  bytesStr := fun l => String.mk (l.map Char.ofNat)
  sha256 := fun _ => List.replicate 32 0
  ivGen := fun _ => List.replicate 16 7

/-- A second IV stream that varies with the draw counter. -/
def countingPlatform : Platform :=
  { trivialPlatform with ivGen := fun n => List.replicate 16 (n % 256) }

/-! ## Pure-pass vocabulary for the Reconciler theorems -/

/-- The observable effect of one suppressed, state-threaded reconciler pass,
expressed through its pure value-level result: on success the subtree at
`path` is replaced by the pure result when the live node there is wrappable,
and the state is untouched otherwise. -/
def liftPure (st : DBState) (path : List JKey) (old : JVal) :
    Except JErr JVal → Except JErr DBState
  | .error e => .error e
  | .ok old' =>
      if isWrappable old then
        match replaceAtE st.root path old' with
        | .error e => .error e
        | .ok r => .ok { st with root := r }
      else .ok st

mutual
/-- After the Apply pass: the live value carries every snapshot key with an
applied value (scalars equal, kinds equal, array lengths equal), possibly
plus extra keys that the Prune pass will remove. -/
def applied : JVal → JVal → Bool
  | .null, lv =>
      match lv with
      | .null => true
      | _ => false
  | .obj _ sfs, lv =>
      match lv with
      | .obj _ lfs => appliedFields sfs lfs
      | _ => false
  | .arr _ ses, lv =>
      match lv with
      | .arr _ les => decide (ses.length = les.length) && appliedElems ses les
      | _ => false
  | sv, lv => deepEq lv sv

def appliedFields : List (String × JVal) → List (String × JVal) → Bool
  | [], _ => true
  | (k, sv) :: rest, lfs =>
      (match assocGet lfs k with
       | some lv => applied sv lv
       | none => false) && appliedFields rest lfs

def appliedElems : List JVal → List JVal → Bool
  | [], _ => true
  | _ :: _, [] => false
  | sv :: ss, lv :: ls => applied sv lv && appliedElems ss ls
end

/-- What one Apply pass establishes on a kind-compatible live value. -/
def applyFacts (nv old : JVal) : Prop :=
  isTypeofObject nv = true → compat nv old = true → wfVal nv = true →
  wfVal old = true →
  ∃ mid, rSet nv old = .ok mid ∧ (mid = old ∨ sameCtorId old mid = true) ∧
    wfVal mid = true ∧ applied nv mid = true ∧
    (∀ k sv lv, getKeyE nv k = .ok (some sv) → isTypeofObject sv = true →
      getKeyE old k = .ok (some lv) → isWrappable lv = true →
      ∃ mv, getKeyE mid k = .ok (some mv) ∧ rSet sv lv = .ok mv)

/-- What one Apply step establishes at key `k`. -/
def applyStepFacts (k : JKey) (nvk old : JVal) : Prop :=
  ((∃ oi ofs s, old = .obj oi ofs ∧ k = .str s) ∨
    (∃ ai aes m, old = .arr ai aes ∧ k = .idx m ∧ m ≤ aes.length)) →
  (∀ lv, getKeyE old k = .ok (some lv) → compat nvk lv = true) →
  wfVal nvk = true → wfVal old = true →
  ∃ cur1, rSetStep k nvk old = .ok cur1 ∧ sameCtorId old cur1 = true ∧
    wfVal cur1 = true ∧
    (∀ ai aes m, old = .arr ai aes → k = .idx m →
      ∃ aes1, cur1 = .arr ai aes1 ∧ aes1.length ≤ max aes.length (m + 1)) ∧
    ∃ mv, getKeyE cur1 k = .ok (some mv) ∧ applied nvk mv = true ∧
      (∀ lv, isTypeofObject nvk = true → getKeyE old k = .ok (some lv) →
        isWrappable lv = true → rSet nvk lv = .ok mv)

/-- What the Apply pass over an object's snapshot fields establishes. -/
def applyFieldsFacts (fs : List (String × JVal)) (old : JVal) : Prop :=
  (∃ oi ofs, old = .obj oi ofs) →
  (∀ p ∈ fs, ∀ lv, getKeyE old (.str p.1) = .ok (some lv) → compat p.2 lv = true) →
  keysNodup fs = true → wfFields fs = true → wfVal old = true →
  ∃ mid, rSetFields fs old = .ok mid ∧ sameCtorId old mid = true ∧
    wfVal mid = true ∧
    (∀ p ∈ fs, ∃ mv, getKeyE mid (.str p.1) = .ok (some mv) ∧
      applied p.2 mv = true ∧
      (∀ lv, isTypeofObject p.2 = true → getKeyE old (.str p.1) = .ok (some lv) →
        isWrappable lv = true → rSet p.2 lv = .ok mv)) ∧
    (∀ s, (fs.any fun q => q.1 = s) = false →
      getKeyE mid (.str s) = getKeyE old (.str s))

/-- What the Apply pass over an array's snapshot elements establishes. -/
def applyElemsFacts (i : Nat) (es : List JVal) (old : JVal) : Prop :=
  (∃ ai aes, old = .arr ai aes ∧ i ≤ aes.length ∧ aes.length ≤ i + es.length) →
  (∀ j sv, es.get? j = some sv → ∀ lv, getKeyE old (.idx (i + j)) = .ok (some lv) →
    compat sv lv = true) →
  wfElems es = true → wfVal old = true →
  ∃ mid, rSetElems i es old = .ok mid ∧ sameCtorId old mid = true ∧
    wfVal mid = true ∧
    (∃ ai mes, mid = .arr ai mes ∧ mes.length = i + es.length) ∧
    (∀ j sv, es.get? j = some sv → ∃ mv, getKeyE mid (.idx (i + j)) = .ok (some mv) ∧
      applied sv mv = true ∧
      (∀ lv, isTypeofObject sv = true → getKeyE old (.idx (i + j)) = .ok (some lv) →
        isWrappable lv = true → rSet sv lv = .ok mv)) ∧
    (∀ m, m < i → getKeyE mid (.idx m) = getKeyE old (.idx m))

/-- What one Prune pass establishes on an applied live value. -/
def cleanFacts (nv old : JVal) : Prop :=
  applied nv old = true → wfVal nv = true → wfVal old = true →
  ∃ out, rClean nv old = .ok out ∧ (out = old ∨ sameCtorId old out = true) ∧
    wfVal out = true ∧ deepEq out nv = true ∧
    (∀ k nvv lv, getKeyE nv k = .ok (some nvv) → getKeyE old k = .ok (some lv) →
      isWrappable lv = true →
      ∃ lv2, rClean nvv lv = .ok lv2 ∧ getKeyE out k = .ok (some lv2))

/-- What one Prune step establishes at key `k` with captured live value `ov`. -/
def cleanStepFacts (nv : JVal) (k : JKey) (ov old : JVal) : Prop :=
  ((∃ oi ofs s, old = .obj oi ofs ∧ k = .str s) ∨
    (∃ ai aes m, old = .arr ai aes ∧ k = .idx m ∧ ¬ getKeyE nv k = .ok none)) →
  getKeyE old k = .ok (some ov) →
  (∀ nvv, getKeyE nv k = .ok (some nvv) → applied nvv ov = true) →
  (∃ r, getKeyE nv k = .ok r) →
  wfVal nv = true → wfVal ov = true → wfVal old = true →
  ∃ cur1, rCleanStep nv k ov old = .ok cur1 ∧ sameCtorId old cur1 = true ∧
    wfVal cur1 = true ∧
    (∀ ai aes m, old = .arr ai aes → k = .idx m →
      ∃ aes1, cur1 = .arr ai aes1 ∧ aes1.length = aes.length) ∧
    (getKeyE nv k = .ok none → getKeyE cur1 k = .ok none) ∧
    (∀ nvv, getKeyE nv k = .ok (some nvv) →
      ∃ w, getKeyE cur1 k = .ok (some w) ∧ deepEq w nvv = true ∧
        (isWrappable ov = true → rClean nvv ov = .ok w))

/-- What the Prune pass over an object's captured fields establishes. -/
def cleanFieldsFacts (nv : JVal) (fs : List (String × JVal)) (old : JVal) : Prop :=
  (∃ oi ofs, old = .obj oi ofs) →
  (∃ ni nfs, nv = .obj ni nfs) →
  (∀ p ∈ fs, getKeyE old (.str p.1) = .ok (some p.2)) →
  (∀ p ∈ fs, ∀ nvv, getKeyE nv (.str p.1) = .ok (some nvv) →
    applied nvv p.2 = true) →
  keysNodup fs = true → wfFields fs = true → wfVal nv = true → wfVal old = true →
  ∃ out, rCleanFields nv fs old = .ok out ∧ sameCtorId old out = true ∧
    wfVal out = true ∧
    (∀ s w, getKeyE out (.str s) = .ok (some w) →
      (getKeyE old (.str s) = .ok (some w) ∧ (fs.any fun q => q.1 = s) = false) ∨
      (∃ nvv, getKeyE nv (.str s) = .ok (some nvv) ∧ deepEq w nvv = true)) ∧
    (∀ s w, getKeyE old (.str s) = .ok (some w) → ¬ getKeyE nv (.str s) = .ok none →
      ∃ w2, getKeyE out (.str s) = .ok (some w2)) ∧
    (∀ p ∈ fs, ∀ nvv, getKeyE nv (.str p.1) = .ok (some nvv) →
      isWrappable p.2 = true →
      ∃ lv2, rClean nvv p.2 = .ok lv2 ∧ getKeyE out (.str p.1) = .ok (some lv2)) ∧
    (∀ s, (fs.any fun q => q.1 = s) = false →
      getKeyE out (.str s) = getKeyE old (.str s))

/-- What the Prune pass over an array's captured elements establishes. -/
def cleanElemsFacts (nv : JVal) (i : Nat) (es : List JVal) (old : JVal) : Prop :=
  (∃ ai aes, old = .arr ai aes ∧ aes.length = i + es.length) →
  (∃ ni nes, nv = .arr ni nes ∧ nes.length = i + es.length) →
  (∀ j v, es.get? j = some v → getKeyE old (.idx (i + j)) = .ok (some v)) →
  (∀ j v, es.get? j = some v → ∀ nvv, getKeyE nv (.idx (i + j)) = .ok (some nvv) →
    applied nvv v = true) →
  wfElems es = true → wfVal nv = true → wfVal old = true →
  ∃ out, rCleanElems nv i es old = .ok out ∧ sameCtorId old out = true ∧
    wfVal out = true ∧
    (∀ ai aes, old = .arr ai aes → ∃ oes, out = .arr ai oes ∧
      oes.length = aes.length) ∧
    (∀ j v, es.get? j = some v →
      ∃ w nvv, getKeyE out (.idx (i + j)) = .ok (some w) ∧
        getKeyE nv (.idx (i + j)) = .ok (some nvv) ∧ deepEq w nvv = true ∧
        (isWrappable v = true → rClean nvv v = .ok w)) ∧
    (∀ m, m < i → getKeyE out (.idx m) = getKeyE old (.idx m))

/-! # Lemmas and theorems -/

theorem ok_bind {ε α β : Type} (a : α) (f : α → Except ε β) :
    (Except.ok a >>= f : Except ε β) = f a := rfl

theorem ebind_ok_iff {ε α β : Type} {x : Except ε α} {f : α → Except ε β} {b : β} :
    (x >>= f) = .ok b ↔ ∃ a, x = .ok a ∧ f a = .ok b := by
  cases x with
  | error e =>
      constructor
      · intro h; cases h
      · rintro ⟨a, ha, _⟩; cases ha
  | ok a =>
      constructor
      · intro h; exact ⟨a, rfl, h⟩
      · rintro ⟨a', ha, hf⟩; cases ha; exact hf

theorem writeStore_disabled (P : Platform) (o : Options) (st : DBState) (v : JVal)
    (h : st.disableWrites = true) : writeStore P o st v = st := by
  simp [writeStore, h]

/-- Normal form of an unsuppressed `_writeStore`. -/
theorem writeStore_enabled (P : Platform) (o : Options) (st : DBState) (v : JVal)
    (h : st.disableWrites = false) :
    writeStore P o st v = { st with
      fileContent := some (encodeForDisk P o st.ivCtr v)
      fileMtime := st.clock + 1
      clock := st.clock + 1
      ivCtr := if o.cryptKey.isSome then st.ivCtr + 1 else st.ivCtr
      folderExists :=
        if ¬st.fileExists ∧ st.folderNonempty ∧ ¬st.folderExists then true
        else st.folderExists
      statMtime :=
        if o.updateOnExternalChanges then st.clock + 1 else st.statMtime } := by
  rw [writeStore, if_neg (by simp [h])]
  split <;> split <;> (try split) <;> simp_all

/-- While the trigger is suppressed, the Apply pass touches nothing but the
root: file content, timestamps, flags and counters are all unchanged. -/
theorem rSetP_io (P : Platform) (o : Options) :
    (∀ (st : DBState) (nv : JVal) (path : List JKey) (st' : DBState),
        st.disableWrites = true → rSetP P o st nv path = .ok st' →
          st' = { st with root := st'.root }) ∧
    (∀ (st : DBState) (i : Nat) (es : List JVal) (path : List JKey) (st' : DBState),
        st.disableWrites = true → rSetElemsP P o st i es path = .ok st' →
          st' = { st with root := st'.root }) ∧
    (∀ (st : DBState) (k : JKey) (nvk : JVal) (path : List JKey) (st' : DBState),
        st.disableWrites = true → rSetStepP P o st k nvk path = .ok st' →
          st' = { st with root := st'.root }) ∧
    (∀ (st : DBState) (fs : List (String × JVal)) (path : List JKey) (st' : DBState),
        st.disableWrites = true → rSetFieldsP P o st fs path = .ok st' →
          st' = { st with root := st'.root }) := by
  refine rSetP.mutual_induct P o
    (fun st nv path => ∀ st', st.disableWrites = true →
      rSetP P o st nv path = .ok st' → st' = { st with root := st'.root })
    (fun st i es path => ∀ st', st.disableWrites = true →
      rSetElemsP P o st i es path = .ok st' → st' = { st with root := st'.root })
    (fun st k nvk path => ∀ st', st.disableWrites = true →
      rSetStepP P o st k nvk path = .ok st' → st' = { st with root := st'.root })
    (fun st fs path => ∀ st', st.disableWrites = true →
      rSetFieldsP P o st fs path = .ok st' → st' = { st with root := st'.root })
    ?_ ?_ ?_ ?_ ?_ ?_ ?_ ?_ ?_ ?_
  · intro st path id fs ih st' hdw h
    rw [rSetP] at h
    exact ih st' hdw h
  · intro st path id es ih st' hdw h
    rw [rSetP] at h
    exact ih st' hdw h
  · intro st nv path h1 h2 st' hdw h
    rw [rSetP] at h
    · cases h; rfl
    · exact h1
    · exact h2
  · intro st i path st' hdw h
    rw [rSetElemsP] at h
    cases h
    rfl
  · intro st i path rest ih st' hdw h
    rw [rSetElemsP] at h
    exact ih st' hdw h
  · intro st i path v rest hne ih1 ih2 st' hdw h
    rw [rSetElemsP] at h
    · rw [ebind_ok_iff] at h
      obtain ⟨st1, hs, h⟩ := h
      have h1 := ih1 st1 hdw hs
      have hdw1 : st1.disableWrites = true := by rw [h1]; exact hdw
      have h2 := ih2 st1 st' hdw1 h
      rw [h1] at h2
      exact h2
    · exact hne
  · intro st k nvk path hto ih st' hdw h
    rw [rSetStepP, if_pos hto] at h
    rw [ebind_ok_iff] at h
    obtain ⟨old, hres, h⟩ := h
    rw [ebind_ok_iff] at h
    obtain ⟨oldk, hget, h⟩ := h
    cases oldk with
    | none =>
        rw [ebind_ok_iff] at h
        obtain ⟨root', hsp, h⟩ := h
        have hd : ({ st with root := root' } : DBState).disableWrites = true := hdw
        rw [writeStore_disabled P o _ _ hd] at h
        cases h
        rfl
    | some ov =>
        exact ih st' hdw h
  · intro st k nvk path hto st' hdw h
    rw [rSetStepP, if_neg hto] at h
    rw [ebind_ok_iff] at h
    obtain ⟨root', hsp, h⟩ := h
    have hd : ({ st with root := root' } : DBState).disableWrites = true := hdw
    rw [writeStore_disabled P o _ _ hd] at h
    cases h
    rfl
  · intro st path st' hdw h
    rw [rSetFieldsP] at h
    cases h
    rfl
  · intro st path k v rest ih1 ih2 st' hdw h
    rw [rSetFieldsP] at h
    rw [ebind_ok_iff] at h
    obtain ⟨st1, hs, h⟩ := h
    have h1 := ih1 st1 hdw hs
    have hdw1 : st1.disableWrites = true := by rw [h1]; exact hdw
    have h2 := ih2 st1 st' hdw1 h
    rw [h1] at h2
    exact h2

/-- The Prune pass likewise: with the trigger suppressed it changes only the
root. -/
theorem rCleanP_io (P : Platform) (o : Options) :
    (∀ (st : DBState) (nv old : JVal) (path : List JKey) (st' : DBState),
        st.disableWrites = true → rCleanP P o st nv old path = .ok st' →
          st' = { st with root := st'.root }) ∧
    (∀ (st : DBState) (nv : JVal) (i : Nat) (es : List JVal) (path : List JKey)
        (st' : DBState),
        st.disableWrites = true → rCleanElemsP P o st nv i es path = .ok st' →
          st' = { st with root := st'.root }) ∧
    (∀ (st : DBState) (nv : JVal) (k : JKey) (ov : JVal) (path : List JKey)
        (st' : DBState),
        st.disableWrites = true → rCleanStepP P o st nv k ov path = .ok st' →
          st' = { st with root := st'.root }) ∧
    (∀ (st : DBState) (nv : JVal) (fs : List (String × JVal)) (path : List JKey)
        (st' : DBState),
        st.disableWrites = true → rCleanFieldsP P o st nv fs path = .ok st' →
          st' = { st with root := st'.root }) := by
  refine rCleanP.mutual_induct P o
    (fun st nv old path => ∀ st', st.disableWrites = true →
      rCleanP P o st nv old path = .ok st' → st' = { st with root := st'.root })
    (fun st nv i es path => ∀ st', st.disableWrites = true →
      rCleanElemsP P o st nv i es path = .ok st' → st' = { st with root := st'.root })
    (fun st nv k ov path => ∀ st', st.disableWrites = true →
      rCleanStepP P o st nv k ov path = .ok st' → st' = { st with root := st'.root })
    (fun st nv fs path => ∀ st', st.disableWrites = true →
      rCleanFieldsP P o st nv fs path = .ok st' → st' = { st with root := st'.root })
    ?_ ?_ ?_ ?_ ?_ ?_ ?_ ?_ ?_
  · intro st nv path id fs ih st' hdw h
    rw [rCleanP] at h
    exact ih st' hdw h
  · intro st nv path id es ih st' hdw h
    rw [rCleanP] at h
    exact ih st' hdw h
  · intro st nv old path h1 h2 st' hdw h
    rw [rCleanP] at h
    · cases h; rfl
    · exact h1
    · exact h2
  · intro st nv i path st' hdw h
    rw [rCleanElemsP] at h
    cases h
    rfl
  · intro st nv i path rest ih st' hdw h
    rw [rCleanElemsP] at h
    exact ih st' hdw h
  · intro st nv i path v rest hne ih1 ih2 st' hdw h
    rw [rCleanElemsP] at h
    · rw [ebind_ok_iff] at h
      obtain ⟨st1, hs, h⟩ := h
      have h1 := ih1 st1 hdw hs
      have hdw1 : st1.disableWrites = true := by rw [h1]; exact hdw
      have h2 := ih2 st1 st' hdw1 h
      rw [h1] at h2
      exact h2
    · exact hne
  · intro st nv k ov path ih st' hdw h
    rw [rCleanStepP] at h
    rw [ebind_ok_iff] at h
    obtain ⟨nvk, hget, h⟩ := h
    cases nvk with
    | none =>
        rw [ebind_ok_iff] at h
        obtain ⟨root', hdp, h⟩ := h
        cases h
        rfl
    | some nvv =>
        have h' : (if isTypeofObject ov = true then rCleanP P o st nvv ov (path ++ [k])
            else Except.ok st) = Except.ok st' := h
        by_cases hov : isTypeofObject ov = true
        · rw [if_pos hov] at h'
          exact ih nvv st' hdw h'
        · rw [if_neg hov] at h'
          cases h'
          rfl
  · intro st nv path st' hdw h
    rw [rCleanFieldsP] at h
    cases h
    rfl
  · intro st nv path k v rest ih1 ih2 st' hdw h
    rw [rCleanFieldsP] at h
    rw [ebind_ok_iff] at h
    obtain ⟨st1, hs, h⟩ := h
    have h1 := ih1 st1 hdw hs
    have hdw1 : st1.disableWrites = true := by rw [h1]; exact hdw
    have h2 := ih2 st1 st' hdw1 h
    rw [h1] at h2
    exact h2

/-- A completed merge changes only the root, and re-enables the trigger. -/
theorem recursiveUpdate_io (P : Platform) (o : Options) (st : DBState) (nv : JVal)
    (st' : DBState) (h : recursiveUpdate P o st nv = .ok st') :
    st' = { st with root := st'.root, disableWrites := false } := by
  rw [recursiveUpdate] at h
  rw [ebind_ok_iff] at h
  obtain ⟨st2, h2, h⟩ := h
  rw [ebind_ok_iff] at h
  obtain ⟨st3, h3, h⟩ := h
  have i2 := (rSetP_io P o).1 _ _ _ _ rfl h2
  have hdw2 : st2.disableWrites = true := by rw [i2]
  have i3 := (rCleanP_io P o).1 _ _ _ _ _ hdw2 h3
  rw [i2] at i3
  cases h
  rw [i3]

/-! ## C1 — property writes persist synchronously -/

/-- **C1**: for every property write at any depth on the wrapped store root
(the root or any nested wrapped view), when the persistence trigger is not
suppressed, the value is stored on the underlying node (`root'` is the root
with the node at `path` mutated in place), the entire current root is
serialized (and encrypted when configured) and written in full to the
backing file, replacing prior content, synchronously within the write call
— and the `set` trap reports success. -/
theorem handler_set_persists (P : Platform) (o : Options) (st : DBState)
    (path : List JKey) (k : JKey) (v : JVal) (tgt root' : JVal)
    (hdw : st.disableWrites = false)
    (hres : resolveAtE st.root path = .ok tgt)
    (hwrap : isWrappable tgt = true)
    (hset : setAtPath st.root path k v = .ok root') :
    ∃ st', handlerSetPath P o st path k v = .ok (st', true) ∧
      st'.root = root' ∧
      st'.fileContent = some (encodeForDisk P o st.ivCtr root') ∧
      st'.fileMtime = st.clock + 1 := by
  have hd : ({ st with root := root' } : DBState).disableWrites = false := hdw
  refine ⟨writeStore P o { st with root := root' } root', ?_, ?_, ?_, ?_⟩
  · rw [handlerSetPath, hres, ok_bind, if_pos hwrap, hset, ok_bind]
  · rw [writeStore_enabled P o _ _ hd]
  · rw [writeStore_enabled P o _ _ hd]
  · rw [writeStore_enabled P o _ _ hd]

/-- Witness for `handler_set_persists`: writing `store.a.b = 5` on a store
whose root is `{a: {}}` persists `{"a":{"b":5}}`. -/
theorem handler_set_persists_witness :
    ∃ st', handlerSetPath trivialPlatform {}
        { root := .obj 1 [("a", .obj 2 [])], fileContent := some "old",
          disableWrites := false }
        [JKey.str "a"] (JKey.str "b") (.num 5) = .ok (st', true) ∧
      st'.root = .obj 1 [("a", .obj 2 [("b", .num 5)])] ∧
      st'.fileContent = some (encodeForDisk trivialPlatform {} 0
        (.obj 1 [("a", .obj 2 [("b", .num 5)])])) ∧
      st'.fileMtime = 0 + 1 :=
  handler_set_persists trivialPlatform {}
    { root := .obj 1 [("a", .obj 2 [])], fileContent := some "old",
      disableWrites := false }
    [JKey.str "a"] (JKey.str "b") (.num 5) (.obj 2 [])
    (.obj 1 [("a", .obj 2 [("b", .num 5)])]) rfl rfl rfl rfl

/-! ## C5 — merge-time suppression of the persistence trigger -/

/-- **C5**: for the full duration of a Reconciler merge the persistence
trigger is suppressed: every assignment `_rSet`/`_rClean` performs goes
through the wrapped views' `set` path and hence calls `_writeStore`, yet
the backing file (content and mtime) and the watcher `stat` are unchanged
when the merge completes — and the suppression is then lifted
(`disableWrites = false`), so later caller-initiated writes persist. -/
theorem recUpdate_suppresses_and_lifts (P : Platform) (o : Options)
    (st : DBState) (nv : JVal) (st' : DBState)
    (h : recursiveUpdate P o st nv = .ok st') :
    st'.fileContent = st.fileContent ∧ st'.fileMtime = st.fileMtime ∧
    st'.statMtime = st.statMtime ∧ st'.disableWrites = false := by
  have e := recursiveUpdate_io P o st nv st' h
  refine ⟨?_, ?_, ?_, ?_⟩ <;> rw [e]

/-- Witness for `recUpdate_suppresses_and_lifts`: a merge that overwrites a
scalar leaf leaves the file untouched and re-enables writes. -/
theorem recUpdate_suppresses_and_lifts_witness :
    recursiveUpdate trivialPlatform {}
        { root := .obj 1 [("a", .num 1)], fileContent := some "f",
          disableWrites := false }
        (.obj 50 [("a", .num 2)]) =
      .ok { root := JVal.obj 1 [("a", .num 2)], fileContent := some "f",
            disableWrites := false } ∧
    (some "f" : Option String) = some "f" ∧ (false : Bool) = false := by
  have h : recursiveUpdate trivialPlatform {}
      { root := .obj 1 [("a", .num 1)], fileContent := some "f",
        disableWrites := false }
      (.obj 50 [("a", .num 2)]) =
      .ok { root := JVal.obj 1 [("a", .num 2)], fileContent := some "f",
            disableWrites := false } := by
    simp [recursiveUpdate, rSetP, rSetFieldsP, rSetStepP, rCleanP, rCleanFieldsP,
      rCleanStepP, isTypeofObject, getKeyE, setKeyE, assocGet, assocSet,
      resolveAtE, setAtPath, delAtPath, writeStore, delKey, assocDel, ok_bind]
  refine ⟨h, ?_, ?_⟩
  · exact (recUpdate_suppresses_and_lifts trivialPlatform {} _ _ _ h).1
  · exact (recUpdate_suppresses_and_lifts trivialPlatform {} _ _ _ h).2.2.2

/-! ## C7 — `updateOnExternalChanges` does not imply `forceCreate` -/

/-- **C7** (failing input for the claim): constructing over an absent file
with `updateOnExternalChanges: true` but without `forceCreate` — contrary to
the README's "Will enable forceCreate if true" — neither materializes the
file nor starts the Change Watcher: both actions sit under
`if (options.forceCreate === true)`. -/
theorem updateOnExternalChanges_without_forceCreate_inert (P : Platform) :
    ∃ st, dbInit P { updateOnExternalChanges := true } none 0 false true = .ok st ∧
      st.fileContent = none ∧ st.watching = false ∧ st.fileExists = false := by
  exact ⟨_, rfl, rfl, rfl, rfl⟩

/-! ## C9 — an empty backing file is fatal -/

/-- **C9**: reading an existing backing file whose content is empty fails
with the `Database file … is empty!` error — on a direct `_readStore`, at
construction over such a file, and on the Watcher's read — and is never
treated as an empty store. -/
theorem empty_file_is_fatal (P : Platform) (o : Options) (st : DBState)
    (mt : Nat) (fn fe : Bool)
    (hfile : st.fileContent = some "") :
    readStore P o st = .error .emptyFile ∧
    dbInit P o (some "") mt fn fe = .error .emptyFile ∧
    (st.statMtime ≠ st.fileMtime → watchTick P o st = .error .emptyFile) := by
  refine ⟨?_, ?_, ?_⟩
  · rw [readStore, hfile]
    simp
  · rw [dbInit]
    simp only [Option.isSome_some, if_true]
    rw [readStore]
    simp
  · intro hne
    rw [watchTick, hfile]
    simp only [if_neg hne]
    rw [readStore, hfile]
    simp [hne]

/-- Witness for `empty_file_is_fatal` at a concrete store state. -/
theorem empty_file_is_fatal_witness :
    readStore trivialPlatform {} { root := .obj 0 [], fileContent := some "" } =
      .error .emptyFile ∧
    dbInit trivialPlatform {} (some "") 0 false true = .error .emptyFile ∧
    watchTick trivialPlatform {}
        { root := .obj 0 [], fileContent := some "", statMtime := 1, fileMtime := 0 } =
      .error .emptyFile := by
  refine ⟨(empty_file_is_fatal trivialPlatform {}
      { root := .obj 0 [], fileContent := some "" } 0 false true rfl).1,
    (empty_file_is_fatal trivialPlatform {}
      { root := .obj 0 [], fileContent := some "" } 0 false true rfl).2.1,
    (empty_file_is_fatal trivialPlatform {}
      { root := .obj 0 [], fileContent := some "", statMtime := 1, fileMtime := 0 }
      0 false true rfl).2.2 (by decide)⟩

/-! ## C2 — encryption format and roundtrip -/

theorem hexCharVal_hexChar : ∀ n, n < 16 → hexCharVal (hexChar n) = some n := by decide

theorem hexChar_mem : ∀ n, n < 16 → hexChar n ∈ hexDigitsL := by decide

theorem hexChar_ne_colon : ∀ n, n < 16 → hexChar n ≠ ':' := by decide

theorem hexEnc_cons (b : Nat) (rest : List Nat) :
    hexEnc (b :: rest) = hexChar (b / 16) :: hexChar (b % 16) :: hexEnc rest := rfl

theorem hexEnc_len (bs : List Nat) : (hexEnc bs).length = 2 * bs.length := by
  induction bs with
  | nil => rfl
  | cons b rest ih =>
      rw [hexEnc_cons]
      simp only [List.length_cons, ih, List.length_cons]
      omega

theorem colon_not_mem_hexEnc (bs : List Nat) (hb : ∀ b ∈ bs, b < 256) :
    ':' ∉ hexEnc bs := by
  induction bs with
  | nil => simp [hexEnc]
  | cons b rest ih =>
      have hblt := hb b (by simp)
      have h1 : b / 16 < 16 := by omega
      have h2 : b % 16 < 16 := by omega
      rw [hexEnc_cons]
      intro hmem
      rcases List.mem_cons.mp hmem with h | hmem
      · exact hexChar_ne_colon _ h1 h.symm
      rcases List.mem_cons.mp hmem with h | hmem
      · exact hexChar_ne_colon _ h2 h.symm
      exact ih (fun x hx => hb x (List.mem_cons_of_mem _ hx)) hmem

theorem hexDecL_hexEnc (bs : List Nat) (hb : ∀ b ∈ bs, b < 256) :
    hexDecL (hexEnc bs) = bs := by
  induction bs with
  | nil => rfl
  | cons b rest ih =>
      have hblt := hb b (by simp)
      have h1 : b / 16 < 16 := by omega
      have h2 : b % 16 < 16 := by omega
      show hexDecL (hexChar (b / 16) :: hexChar (b % 16) :: hexEnc rest) = b :: rest
      rw [hexDecL, hexCharVal_hexChar _ h1, hexCharVal_hexChar _ h2]
      simp only
      rw [ih (fun x hx => hb x (by simp [hx]))]
      congr 1
      omega

theorem charSplit_append (a b : List Char) (ha : ':' ∉ a) :
    charSplit ':' (a ++ ':' :: b) = a :: charSplit ':' b := by
  induction a with
  | nil => simp [charSplit]
  | cons c rest ih =>
      have hc : c ≠ ':' := by intro h; exact ha (by simp [h])
      have hrest : ':' ∉ rest := fun h => ha (by simp [h])
      simp only [List.cons_append, charSplit, if_neg hc]
      rw [show (rest.append (':' :: b)) = rest ++ ':' :: b from rfl, ih hrest]

theorem charSplit_no_sep (b : List Char) (hb : ':' ∉ b) :
    charSplit ':' b = [b] := by
  induction b with
  | nil => rfl
  | cons c rest ih =>
      have hc : c ≠ ':' := by intro h; exact hb (by simp [h])
      have hrest : ':' ∉ rest := fun h => hb (by simp [h])
      simp only [charSplit, if_neg hc]
      rw [ih hrest]

theorem hexEnc_mem_hexDigits (bs : List Nat) (hb : ∀ b ∈ bs, b < 256) :
    ∀ c ∈ hexEnc bs, c ∈ hexDigitsL := by
  induction bs with
  | nil => simp [hexEnc]
  | cons b rest ih =>
      have hblt := hb b (by simp)
      have h1 : b / 16 < 16 := by omega
      have h2 : b % 16 < 16 := by omega
      intro c hc
      rw [hexEnc_cons] at hc
      rcases List.mem_cons.mp hc with h | hc
      · exact h ▸ hexChar_mem _ h1
      rcases List.mem_cons.mp hc with h | hc
      · exact h ▸ hexChar_mem _ h2
      exact ih (fun x hx => hb x (List.mem_cons_of_mem _ hx)) c hc

/-- Roundtrip of the codec framing: splitting the `<ivHex>:<cipherHex>`
output on the colon, hex-decoding both segments and deciphering recovers
the plaintext, given the platform cipher contract. -/
theorem decryptS_encryptS (P : Platform) (key iv : List Nat) (s : String)
    (hivB : ∀ b ∈ iv, b < 256)
    (hctB : ∀ b ∈ P.blockEnc key iv (P.strBytes s), b < 256)
    (hinv : P.bytesStr (P.blockDec key iv (P.blockEnc key iv (P.strBytes s))) = s) :
    decryptS P key (encryptS P key iv s) = s := by
  have hcA : ':' ∉ hexEnc iv := colon_not_mem_hexEnc iv hivB
  have hcB : ':' ∉ hexEnc (P.blockEnc key iv (P.strBytes s)) :=
    colon_not_mem_hexEnc _ hctB
  simp only [decryptS, encryptS]
  rw [charSplit_append _ _ hcA, charSplit_no_sep _ hcB]
  simp only [List.headD, List.tail, charJoin]
  rw [hexDecL_hexEnc iv hivB, hexDecL_hexEnc _ hctB]
  exact hinv

/-- **C2**: with the AES-256-CBC primitive inverting itself under the
SHA-256-derived key (the platform contract), `decrypt(encrypt(s)) = s`;
two encryptions under distinct 16-byte IVs produce distinct outputs (so
fresh random IVs make equal plaintexts encrypt differently); and the output
is `<ivHex>:<cipherHex>` — two segments drawn from the lowercase hex
alphabet, neither containing the colon delimiter, joined by one colon —
with `decrypt` splitting on the first colon to recover the IV. -/
theorem encrypt_decrypt_contract (P : Platform) (ck : String) (s : String)
    (iv iv2 : List Nat)
    (hiv16 : iv.length = 16) (hivB : ∀ b ∈ iv, b < 256)
    (hctB : ∀ b ∈ P.blockEnc (derivedKey P ck) iv (P.strBytes s), b < 256)
    (hinv : P.bytesStr (P.blockDec (derivedKey P ck) iv
              (P.blockEnc (derivedKey P ck) iv (P.strBytes s))) = s)
    (hiv2 : iv2.length = 16) (hiv2B : ∀ b ∈ iv2, b < 256) (hne : iv2 ≠ iv) :
    decryptS P (derivedKey P ck) (encryptS P (derivedKey P ck) iv s) = s ∧
    encryptS P (derivedKey P ck) iv2 s ≠ encryptS P (derivedKey P ck) iv s ∧
    ∃ a b, encryptS P (derivedKey P ck) iv s = String.mk (a ++ ':' :: b) ∧
      (∀ c ∈ a, c ∈ hexDigitsL) ∧ (∀ c ∈ b, c ∈ hexDigitsL) ∧
      ':' ∉ a ∧ ':' ∉ b := by
  have hcA : ':' ∉ hexEnc iv := colon_not_mem_hexEnc iv hivB
  have hcB : ':' ∉ hexEnc (P.blockEnc (derivedKey P ck) iv (P.strBytes s)) :=
    colon_not_mem_hexEnc _ hctB
  refine ⟨decryptS_encryptS P (derivedKey P ck) iv s hivB hctB hinv, ?_, ?_⟩
  · intro heq
    have hdata := congrArg String.data heq
    have hlen : (hexEnc iv2).length = (hexEnc iv).length := by
      rw [hexEnc_len, hexEnc_len, hiv2, hiv16]
    obtain ⟨h1, _⟩ := List.append_inj hdata hlen
    apply hne
    calc iv2 = hexDecL (hexEnc iv2) := (hexDecL_hexEnc iv2 hiv2B).symm
    _ = hexDecL (hexEnc iv) := by rw [h1]
    _ = iv := hexDecL_hexEnc iv hivB
  · exact ⟨hexEnc iv, hexEnc (P.blockEnc (derivedKey P ck) iv (P.strBytes s)),
      rfl, hexEnc_mem_hexDigits iv hivB, hexEnc_mem_hexDigits _ hctB, hcA, hcB⟩

/-- Witness for `encrypt_decrypt_contract` with the identity block cipher. -/
theorem encrypt_decrypt_contract_witness :
    decryptS trivialPlatform (derivedKey trivialPlatform "pw")
        (encryptS trivialPlatform (derivedKey trivialPlatform "pw")
          (List.replicate 16 7) "ab") = "ab" ∧
    encryptS trivialPlatform (derivedKey trivialPlatform "pw")
        (List.replicate 16 0) "ab" ≠
      encryptS trivialPlatform (derivedKey trivialPlatform "pw")
        (List.replicate 16 7) "ab" := by
  have h := encrypt_decrypt_contract trivialPlatform "pw" "ab"
    (List.replicate 16 7) (List.replicate 16 0)
    (by decide) (by decide) (by decide) (by decide) (by decide) (by decide)
    (by decide)
  exact ⟨h.1, h.2.1⟩

/-! ## C8 — watcher timestamp comparison -/

/-- A read without encryption changes nothing but the id counter. -/
theorem readStore_plain (P : Platform) (o : Options) (st : DBState)
    (st1 : DBState) (v : JVal)
    (hck : o.cryptKey = none)
    (h : readStore P o st = .ok (st1, v)) :
    st1 = { st with idCtr := st1.idCtr } := by
  rcases hf : st.fileContent with _ | raw
  · simp only [readStore, hf] at h
    cases h
  · simp only [readStore, hf, hck] at h
    by_cases hraw : raw = ""
    · simp only [if_pos hraw] at h
      cases h
    · simp only [if_neg hraw] at h
      rcases hp : parseJson raw st.idCtr with _ | ⟨v', nid⟩
      · simp only [hp] at h
        cases h
      · simp only [hp] at h
        cases h
        rfl


/-- **C8** (amended): on the debounce-timer expiry, if the file's current
modification timestamp equals the last-known one, no reconciliation occurs
and the state (root included) is unchanged; if it differs, the file is read
and merged via the Reconciler — but (for a non-migrating read) the
last-known timestamp is *not* updated by the reconciliation path (only
`_writeStore` refreshes `stat`), so the reconciled external edit is still
seen as new on the next notification. -/
theorem watchTick_spec (P : Platform) (o : Options) (st : DBState)
    (st1 st2 : DBState) (snap : JVal) :
    (st.fileContent.isSome = true → st.statMtime = st.fileMtime →
       watchTick P o st = .ok st) ∧
    (st.statMtime ≠ st.fileMtime → o.cryptKey = none →
       readStore P o st = .ok (st1, snap) →
       recursiveUpdate P o st1 snap = .ok st2 →
       watchTick P o st = .ok st2 ∧ st2.statMtime = st.statMtime ∧
         st2.fileMtime = st.fileMtime ∧ st2.disableWrites = false) := by
  constructor
  · intro hsome heq
    rcases hf : st.fileContent with _ | raw
    · rw [hf] at hsome; cases hsome
    · simp only [watchTick, hf, if_pos heq]
  · intro hne hck hread hrec
    rcases hf : st.fileContent with _ | raw
    · simp only [readStore, hf] at hread
      cases hread
    · have h1 := readStore_plain P o st st1 snap hck hread
      have h2 := recursiveUpdate_io P o st1 snap st2 hrec
      rw [h1] at h2
      refine ⟨?_, ?_, ?_, ?_⟩
      · simp only [watchTick, hf, if_neg hne, hread, hrec]
      · rw [h2]
      · rw [h2]
      · rw [h2]

/-- **C8** (counterexample to the claim as stated): a concrete reconciling
tick — `stat` 3, file mtime 5 — merges the snapshot into the root, yet the
resulting state still carries `statMtime = 3 ≠ 5 = fileMtime`: the claim's
"the last-known timestamp is updated before returning to idle" is false on
the code, and the same edit would be reconciled again. -/
theorem watchTick_stat_not_updated :
    watchTick trivialPlatform {}
      { root := .obj 1 [("a", .num 1)], fileContent := some "\x7b\"a\":2\x7d",
        fileMtime := 5, statMtime := 3, disableWrites := false } =
    .ok { root := .obj 1 [("a", .num 2)], fileContent := some "\x7b\"a\":2\x7d",
          fileMtime := 5, statMtime := 3, disableWrites := false, idCtr := 1001 } ∧
    (3 : Nat) ≠ 5 := by
  constructor
  · have hread : readStore trivialPlatform {}
        { root := .obj 1 [("a", .num 1)], fileContent := some "\x7b\"a\":2\x7d",
          fileMtime := 5, statMtime := 3, disableWrites := false } =
      .ok ({ root := .obj 1 [("a", .num 1)], fileContent := some "\x7b\"a\":2\x7d",
             fileMtime := 5, statMtime := 3, disableWrites := false, idCtr := 1001 },
           .obj 1000 [("a", .num 2)]) := rfl
    have hrec : recursiveUpdate trivialPlatform {}
        { root := .obj 1 [("a", .num 1)], fileContent := some "\x7b\"a\":2\x7d",
          fileMtime := 5, statMtime := 3, disableWrites := false, idCtr := 1001 }
        (.obj 1000 [("a", .num 2)]) =
        .ok { root := .obj 1 [("a", .num 2)], fileContent := some "\x7b\"a\":2\x7d",
              fileMtime := 5, statMtime := 3, disableWrites := false, idCtr := 1001 } := by
      simp [recursiveUpdate, rSetP, rSetFieldsP, rSetStepP, rCleanP, rCleanFieldsP,
        rCleanStepP, isTypeofObject, getKeyE, setKeyE, assocGet, assocSet,
        resolveAtE, setAtPath, delAtPath, writeStore, delKey, assocDel, ok_bind]
    simp only [watchTick, if_neg (by decide : ¬(3 : Nat) = 5), hread, hrec]
  · decide


theorem hexChar_mem_any (n : Nat) : hexChar n ∈ hexDigitsL := by
  by_cases h : n < 16
  · exact hexChar_mem n h
  · show hexDigitsL.getD n '0' ∈ hexDigitsL
    rw [List.getD_eq_default]
    · decide
    · simp [hexDigitsL]; omega

theorem encryptS_ne_empty (P : Platform) (key iv : List Nat) (s : String) :
    encryptS P key iv s ≠ "" := by
  intro h
  have := congrArg String.data h
  simp only [encryptS] at this
  cases hiv : hexEnc iv with
  | nil => rw [hiv] at this; cases this
  | cons c rest => rw [hiv] at this; cases this

theorem encryptS_head_ne_brace (P : Platform) (key iv : List Nat) (s : String) :
    ¬(encryptS P key iv s).data.head? = some '{' := by
  intro h
  simp only [encryptS] at h
  cases hiv : iv with
  | nil =>
      rw [hiv] at h
      simp [hexEnc] at h
  | cons b rest =>
      rw [hiv, hexEnc_cons] at h
      simp only [List.cons_append, List.head?] at h
      have hm : hexChar (b / 16) ∈ hexDigitsL := hexChar_mem_any _
      rw [Option.some_inj.mp h] at hm
      revert hm
      decide


/-- **C6**: opening a store with a passphrase over a file whose raw content
begins with `{` makes the first read parse the content as plaintext JSON,
re-serialize and re-encrypt it to disk (the file afterwards holds
`encrypt(serialize(v))`) before returning the parsed value, and a
subsequent independent read with the same passphrase decrypts and
reproduces the original value.  JSON-codec facts (`parseJson` results,
`deepEq`) and the block-cipher contract enter as pointwise hypotheses,
discharged concretely in the witness. -/
theorem legacy_migration (P : Platform) (o : Options) (ck : String)
    (st : DBState) (raw : String) (v v2 v3 : JVal) (n1 n2 n3 : Nat)
    (hck : o.cryptKey = some ck)
    (hdw : st.disableWrites = false)
    (hfile : st.fileContent = some raw)
    (hne : raw ≠ "")
    (hbrace : raw.data.head? = some '{')
    (hp1 : parseJson raw st.idCtr = some (v, n1))
    (hp2 : parseJson raw n1 = some (v2, n2))
    (hd2 : deepEq v2 v = true)
    (hivB : ∀ b ∈ P.ivGen st.ivCtr, b < 256)
    (hctB : ∀ b ∈ P.blockEnc (derivedKey P ck) (P.ivGen st.ivCtr)
        (P.strBytes (serializeStore o v)), b < 256)
    (hinv : P.bytesStr (P.blockDec (derivedKey P ck) (P.ivGen st.ivCtr)
        (P.blockEnc (derivedKey P ck) (P.ivGen st.ivCtr)
          (P.strBytes (serializeStore o v)))) = serializeStore o v)
    (hp3 : parseJson (serializeStore o v) n2 = some (v3, n3)) :
    ∃ st' st'', readStore P o st = .ok (st', v2) ∧
      st'.fileContent = some (encryptS P (derivedKey P ck) (P.ivGen st.ivCtr)
        (serializeStore o v)) ∧
      deepEq v2 v = true ∧
      readStore P o st' = .ok (st'', v3) := by
  have hdw1 : ({ st with fileContent := some raw, idCtr := n1 } :
      DBState).disableWrites = false := hdw
  have hw := writeStore_enabled P o { st with fileContent := some raw, idCtr := n1 }
    v hdw1
  have henc : encodeForDisk P o st.ivCtr v =
      encryptS P (derivedKey P ck) (P.ivGen st.ivCtr) (serializeStore o v) := by
    simp [encodeForDisk, hck]
  have hread1 : readStore P o st =
      .ok ({ writeStore P o { st with fileContent := some raw, idCtr := n1 } v
             with idCtr := n2 }, v2) := by
    simp only [readStore, hfile, if_neg hne, hck, if_pos hbrace, hp1, hw, hp2]
  have hcontent :
      ({ writeStore P o { st with fileContent := some raw, idCtr := n1 } v
         with idCtr := n2 } : DBState).fileContent =
      some (encryptS P (derivedKey P ck) (P.ivGen st.ivCtr)
        (serializeStore o v)) := by
    rw [hw]
    exact congrArg some henc
  have hde : decryptS P (derivedKey P ck)
      (encryptS P (derivedKey P ck) (P.ivGen st.ivCtr) (serializeStore o v)) =
      serializeStore o v :=
    decryptS_encryptS P (derivedKey P ck) (P.ivGen st.ivCtr) (serializeStore o v)
      hivB hctB hinv
  have hread2 : readStore P o
      { writeStore P o { st with fileContent := some raw, idCtr := n1 } v
        with idCtr := n2 } =
      .ok ({ writeStore P o { st with fileContent := some raw, idCtr := n1 } v
             with idCtr := n3 }, v3) := by
    simp only [readStore, hw, henc, if_neg (encryptS_ne_empty P _ _ _), hck,
      if_neg (encryptS_head_ne_brace P (derivedKey P ck) (P.ivGen st.ivCtr)
        (serializeStore o v)), hde, hp3]
  exact ⟨_, _, hread1, hcontent, hd2, hread2⟩

/-- Witness for `legacy_migration`: a plaintext file `{"a":1}` opened with
passphrase `"pw"` under the identity block cipher. -/
theorem legacy_migration_witness :
    ∃ st' st'', readStore trivialPlatform { cryptKey := some "pw" }
        { root := .obj 0 [], fileContent := some "\x7b\"a\":1\x7d",
          disableWrites := false, idCtr := 0 } =
      .ok (st', .obj 1 [("a", .num 1)]) ∧
      st'.fileContent = some (encryptS trivialPlatform
        (derivedKey trivialPlatform "pw") (trivialPlatform.ivGen 0)
        (serializeStore { cryptKey := some "pw" } (.obj 0 [("a", .num 1)]))) ∧
      deepEq (.obj 1 [("a", .num 1)]) (.obj 0 [("a", .num 1)]) = true ∧
      readStore trivialPlatform { cryptKey := some "pw" } st' =
        .ok (st'', .obj 2 [("a", .num 1)]) :=
  legacy_migration trivialPlatform { cryptKey := some "pw" } "pw"
    { root := .obj 0 [], fileContent := some "\x7b\"a\":1\x7d",
      disableWrites := false, idCtr := 0 }
    "\x7b\"a\":1\x7d" (.obj 0 [("a", .num 1)]) (.obj 1 [("a", .num 1)])
    (.obj 2 [("a", .num 1)]) 1 2 3
    rfl rfl rfl (by decide) rfl rfl rfl (by decide) (by decide) (by decide)
    (by decide) rfl

/-- Witness for `watchTick_spec`: an equal-timestamp tick is inert; a
differing-timestamp tick merges and keeps the stale `stat`. -/
theorem watchTick_spec_witness :
    watchTick trivialPlatform {}
      { root := .obj 0 [], fileContent := some "x", fileMtime := 4, statMtime := 4 } =
      .ok { root := .obj 0 [], fileContent := some "x", fileMtime := 4, statMtime := 4 } ∧
    (watchTick trivialPlatform {}
        { root := .obj 1 [("a", .num 1)], fileContent := some "\x7b\"a\":2\x7d",
          fileMtime := 5, statMtime := 3, disableWrites := false } =
      .ok { root := .obj 1 [("a", .num 2)], fileContent := some "\x7b\"a\":2\x7d",
            fileMtime := 5, statMtime := 3, disableWrites := false, idCtr := 1001 } ∧
      (3 : Nat) = 3 ∧ (5 : Nat) = 5 ∧ false = false) := by
  have hrec : recursiveUpdate trivialPlatform {}
      { root := .obj 1 [("a", .num 1)], fileContent := some "\x7b\"a\":2\x7d",
        fileMtime := 5, statMtime := 3, disableWrites := false, idCtr := 1001 }
      (.obj 1000 [("a", .num 2)]) =
      .ok { root := .obj 1 [("a", .num 2)], fileContent := some "\x7b\"a\":2\x7d",
            fileMtime := 5, statMtime := 3, disableWrites := false, idCtr := 1001 } := by
    simp [recursiveUpdate, rSetP, rSetFieldsP, rSetStepP, rCleanP, rCleanFieldsP,
      rCleanStepP, isTypeofObject, getKeyE, setKeyE, assocGet, assocSet,
      resolveAtE, setAtPath, delAtPath, writeStore, delKey, assocDel, ok_bind]
  exact ⟨(watchTick_spec trivialPlatform {}
      { root := .obj 0 [], fileContent := some "x", fileMtime := 4, statMtime := 4 }
      { root := .obj 0 [] } { root := .obj 0 [] } .null).1 rfl rfl,
    (watchTick_spec trivialPlatform {}
      { root := .obj 1 [("a", .num 1)], fileContent := some "\x7b\"a\":2\x7d",
        fileMtime := 5, statMtime := 3, disableWrites := false }
      { root := .obj 1 [("a", .num 1)], fileContent := some "\x7b\"a\":2\x7d",
        fileMtime := 5, statMtime := 3, disableWrites := false, idCtr := 1001 }
      { root := .obj 1 [("a", .num 2)], fileContent := some "\x7b\"a\":2\x7d",
        fileMtime := 5, statMtime := 3, disableWrites := false, idCtr := 1001 }
      (.obj 1000 [("a", .num 2)])).2 (by decide) rfl rfl hrec⟩

/-! ## C10 — the template is shallow-copied, not cloned

The heap model (`hSpread` for `store = new Proxy({ ...defaultDB }, handler)`,
`hSetPath` for proxy property writes) exposes the reference sharing between
the live root and the caller's template. -/

theorem hGet_hPut_self (h : Heap) (a : Nat) (n : List (String × HVal)) :
    hGet (hPut h a n) a = some n := by
  induction h with
  | nil => simp [hPut, hGet]
  | cons e rest ih =>
      obtain ⟨b, m⟩ := e
      by_cases hb : b = a
      · simp [hPut, hGet, hb]
      · simp [hPut, hGet, hb, ih]

theorem hGet_hPut_ne (h : Heap) (a c : Nat) (n : List (String × HVal))
    (hne : c ≠ a) : hGet (hPut h a n) c = hGet h c := by
  have hne' : a ≠ c := fun hh => hne hh.symm
  induction h with
  | nil => simp [hPut, hGet, hne']
  | cons e rest ih =>
      obtain ⟨b, m⟩ := e
      by_cases hb : b = a
      · subst hb
        simp [hPut, hGet, hne']
      · by_cases hc : b = c
        · simp [hPut, hGet, hb, hc, hne]
        · simp [hPut, hGet, hb, hc, ih]

theorem hPut_hPut (h : Heap) (a : Nat) (n n' : List (String × HVal)) :
    hPut (hPut h a n) a n' = hPut h a n' := by
  induction h with
  | nil => simp [hPut]
  | cons e rest ih =>
      obtain ⟨b, m⟩ := e
      by_cases hb : b = a
      · simp [hPut, hb]
      · simp [hPut, hb, ih]

theorem hGet_mem (h : Heap) (a : Nat) (n : List (String × HVal))
    (hget : hGet h a = some n) : (a, n) ∈ h := by
  induction h with
  | nil => cases hget
  | cons e rest ih =>
      obtain ⟨b, m⟩ := e
      by_cases hb : b = a
      · subst hb
        rw [hGet, if_pos rfl] at hget
        cases hget
        exact List.mem_cons_self _ _
      · rw [hGet, if_neg hb] at hget
        exact List.mem_cons_of_mem _ (ih hget)

theorem hRead_hPut_away (fresh : Nat) (n' : List (String × HVal)) :
    (∀ (fuel : Nat) (h : Heap) (v : HVal), heapClosedAway h fresh →
      (∀ a, v = .ref a → a ≠ fresh) →
      hRead fuel (hPut h fresh n') v = hRead fuel h v) ∧
    (∀ (fuel : Nat) (h : Heap) (fs : List (String × HVal)), heapClosedAway h fresh →
      (∀ c ∈ fieldRefs fs, c ≠ fresh) →
      hReadFields fuel (hPut h fresh n') fs = hReadFields fuel h fs) := by
  refine hRead.mutual_induct
    (fun fuel h v => heapClosedAway h fresh →
      (∀ a, v = .ref a → a ≠ fresh) →
      hRead fuel (hPut h fresh n') v = hRead fuel h v)
    (fun fuel h fs => heapClosedAway h fresh →
      (∀ c ∈ fieldRefs fs, c ≠ fresh) →
      hReadFields fuel (hPut h fresh n') fs = hReadFields fuel h fs)
    ?_ ?_ ?_ ?_ ?_ ?_ ?_ ?_ ?_ ?_ ?_ ?_
  · intro h v _ _; simp only [hRead]
  · intro h fuel _ _; simp only [hRead]
  · intro h fuel b _ _; simp only [hRead]
  · intro h fuel n _ _; simp only [hRead]
  · intro h fuel s _ _; simp only [hRead]
  · intro h fuel a hget hcl hav
    have hne := hav a rfl
    simp only [hRead, hGet_hPut_ne h fresh a n' hne, hget]
  · intro h fuel a fs hget hfs fs' ih hcl hav
    have hne := hav a rfl
    have havf : ∀ c ∈ fieldRefs fs, c ≠ fresh := fun c hc =>
      (hcl.2 (a, fs) (hGet_mem h a fs hget) c hc).2
    simp only [hRead, hGet_hPut_ne h fresh a n' hne, hget, ih hcl havf]
  · intro h fuel a fs hget hfs ih hcl hav
    have hne := hav a rfl
    have havf : ∀ c ∈ fieldRefs fs, c ≠ fresh := fun c hc =>
      (hcl.2 (a, fs) (hGet_mem h a fs hget) c hc).2
    simp only [hRead, hGet_hPut_ne h fresh a n' hne, hget, ih hcl havf]
  · intro h fs _ _; simp only [hReadFields]
  · intro h fuel _ _; simp only [hReadFields]
  · intro h fuel k' v rest t ts hrest hv ih1 ih2 hcl hav
    have hv' : ∀ a, v = .ref a → a ≠ fresh := by
      intro a ha
      refine hav a ?_
      simp [fieldRefs, ha]
    have hrest' : ∀ c ∈ fieldRefs rest, c ≠ fresh := by
      intro c hc
      refine hav c ?_
      simp only [fieldRefs, List.filterMap_cons]
      cases v with
      | prim p => simpa [fieldRefs] using hc
      | ref b => simp [fieldRefs] at hc ⊢; right; simpa [fieldRefs] using hc
    simp only [hReadFields, ih1 hcl hv', ih2 hcl hrest']
  · intro h fuel k' v rest hfail ih1 ih2 hcl hav
    have hv' : ∀ a, v = .ref a → a ≠ fresh := by
      intro a ha
      refine hav a ?_
      simp [fieldRefs, ha]
    have hrest' : ∀ c ∈ fieldRefs rest, c ≠ fresh := by
      intro c hc
      refine hav c ?_
      simp only [fieldRefs, List.filterMap_cons]
      cases v with
      | prim p => simpa [fieldRefs] using hc
      | ref b => simp [fieldRefs] at hc ⊢; right; simpa [fieldRefs] using hc
    simp only [hReadFields, ih1 hcl hv', ih2 hcl hrest']


/-- **C10** (counterexample to the claim as stated): the root is initialized
by the object-spread `{ ...defaultDB }`, a *shallow* copy.  With template
`{a: {b: 1}}` (node 0 referencing node 1) spread into a fresh root node 2,
the write `store.a.b = 2` mutates node 1, which the template still
references: reading the caller's template afterwards shows `{a: {b: 2}}` —
a depth-2 mutation through the store does not leave the template
unchanged. -/
theorem template_shallow_clone_mutated :
    ∃ h', hSetPath (hSpread [(0, [("a", HVal.ref 1)]),
          (1, [("b", HVal.prim (.num 1))])] 0 2) 2 ["a"] "b"
        (.prim (.num 2)) = some h' ∧
      hRead 5 [(0, [("a", HVal.ref 1)]), (1, [("b", HVal.prim (.num 1))])]
        (.ref 0) = some (.obj 0 [("a", .obj 0 [("b", .num 1)])]) ∧
      hRead 5 h' (.ref 0) = some (.obj 0 [("a", .obj 0 [("b", .num 2)])]) := by
  refine ⟨_, rfl, ?_, ?_⟩ <;>
    simp [hRead, hReadFields, hGet, hSpread, hPut, hAssocGet, hAssocSet]

/-- **C10** (amended): the root is a shallow copy of the template (a fresh
top-level node whose field values are shared), so mutations of *top-level*
properties through the store leave the caller's template unchanged — while
deeper mutations act on shared nodes and are visible through the template,
as the counterexample shows. -/
theorem template_toplevel_write_safe (h : Heap) (t fresh : Nat) (k : String)
    (v : HVal) (fuel : Nat) (h' : Heap)
    (hcl : heapClosedAway h fresh)
    (ht : hGet h t ≠ none)
    (hset : hSetPath (hSpread h t fresh) fresh [] k v = some h') :
    hRead fuel h' (.ref t) = hRead fuel h (.ref t) := by
  have htf : t ≠ fresh := by
    intro he
    exact ht (he ▸ hcl.1)
  simp only [hSetPath, hSpread, hGet_hPut_self] at hset
  cases hset
  rw [hPut_hPut]
  exact (hRead_hPut_away fresh _).1 fuel h (.ref t) hcl
    (fun a ha => by cases ha; exact htf)

/-- Witness for `template_toplevel_write_safe` on the counterexample's
template: a top-level write `store.a = 7` leaves the template reading
`{a: {b: 1}}`. -/
theorem template_toplevel_write_safe_witness :
    ∃ h', hSetPath (hSpread [(0, [("a", HVal.ref 1)]),
          (1, [("b", HVal.prim (.num 1))])] 0 2) 2 [] "a"
        (.prim (.num 7)) = some h' ∧
      hRead 5 h' (.ref 0) = hRead 5
        [(0, [("a", HVal.ref 1)]), (1, [("b", HVal.prim (.num 1))])] (.ref 0) := by
  refine ⟨_, rfl, ?_⟩
  exact template_toplevel_write_safe
    [(0, [("a", HVal.ref 1)]), (1, [("b", HVal.prim (.num 1))])] 0 2 "a"
    (.prim (.num 7)) 5 _ (by constructor <;> decide) (by decide) rfl

/-! ## The Reconciler: node algebra, path lenses, factorization,
and the Apply/Prune correctness chain (C3, C4) -/

theorem assocGet_assocSet_self (fs : List (String × JVal)) (k : String) (v : JVal) :
    assocGet (assocSet fs k v) k = some v := by
  induction fs with
  | nil => simp [assocSet, assocGet]
  | cons e rest ih =>
      obtain ⟨k1, v1⟩ := e
      by_cases h : k1 = k
      · simp [assocSet, assocGet, h]
      · simp [assocSet, assocGet, h, ih]

theorem assocGet_assocSet_ne (fs : List (String × JVal)) (k k' : String) (v : JVal)
    (h : k' ≠ k) : assocGet (assocSet fs k v) k' = assocGet fs k' := by
  have h' : k ≠ k' := fun hh => h hh.symm
  induction fs with
  | nil =>
      show assocGet [(k, v)] k' = none
      rw [assocGet, if_neg h', assocGet]
  | cons e rest ih =>
      obtain ⟨k1, v1⟩ := e
      by_cases h1 : k1 = k
      · subst h1
        rw [assocSet, if_pos rfl, assocGet, if_neg h', assocGet, if_neg h']
      · rw [assocSet, if_neg h1]
        by_cases h2 : k1 = k'
        · rw [assocGet, if_pos h2, assocGet, if_pos h2]
        · rw [assocGet, if_neg h2, assocGet, if_neg h2, ih]

theorem assocSet_id (fs : List (String × JVal)) (k : String) (v : JVal)
    (h : assocGet fs k = some v) : assocSet fs k v = fs := by
  induction fs with
  | nil => cases h
  | cons e rest ih =>
      obtain ⟨k1, v1⟩ := e
      by_cases h1 : k1 = k
      · subst h1
        rw [assocGet, if_pos rfl] at h
        cases h
        rw [assocSet, if_pos rfl]
      · rw [assocGet, if_neg h1] at h
        rw [assocSet, if_neg h1, ih h]

theorem assocGet_none_of_not_any (fs : List (String × JVal)) (k : String)
    (h : (fs.any fun p => p.1 = k) = false) : assocGet fs k = none := by
  induction fs with
  | nil => rfl
  | cons e rest ih =>
      obtain ⟨k1, v1⟩ := e
      simp only [List.any_cons, Bool.or_eq_false_iff] at h
      rw [assocGet, if_neg (by simpa using h.1)]
      exact ih h.2

theorem assocGet_assocDel_self (fs : List (String × JVal)) (k : String)
    (hnd : keysNodup fs = true) : assocGet (assocDel fs k) k = none := by
  induction fs with
  | nil => rfl
  | cons e rest ih =>
      obtain ⟨k1, v1⟩ := e
      rw [keysNodup, Bool.and_eq_true, Bool.not_eq_true'] at hnd
      by_cases h1 : k1 = k
      · subst h1
        rw [assocDel, if_pos rfl]
        exact assocGet_none_of_not_any rest k1 hnd.1
      · rw [assocDel, if_neg h1, assocGet, if_neg h1]
        exact ih hnd.2

theorem assocGet_assocDel_ne (fs : List (String × JVal)) (k k' : String)
    (h : k' ≠ k) : assocGet (assocDel fs k) k' = assocGet fs k' := by
  induction fs with
  | nil => rfl
  | cons e rest ih =>
      obtain ⟨k1, v1⟩ := e
      by_cases h1 : k1 = k
      · subst h1
        rw [assocDel, if_pos rfl, assocGet, if_neg (fun hh => h hh.symm)]
      · rw [assocDel, if_neg h1]
        by_cases h2 : k1 = k'
        · rw [assocGet, if_pos h2, assocGet, if_pos h2]
        · rw [assocGet, if_neg h2, assocGet, if_neg h2, ih]

theorem assocSet_any_false (fs : List (String × JVal)) (k : String) (v : JVal)
    (k' : String) (h : (fs.any fun p => p.1 = k') = false) (hne : k ≠ k') :
    ((assocSet fs k v).any fun p => p.1 = k') = false := by
  induction fs with
  | nil => simpa [assocSet] using hne
  | cons e rest ih =>
      obtain ⟨k1, v1⟩ := e
      simp only [List.any_cons, Bool.or_eq_false_iff] at h
      by_cases h1 : k1 = k
      · rw [assocSet, if_pos h1]
        simp only [List.any_cons, Bool.or_eq_false_iff]
        exact ⟨h.1, h.2⟩
      · rw [assocSet, if_neg h1]
        simp only [List.any_cons, Bool.or_eq_false_iff]
        exact ⟨h.1, ih h.2⟩

theorem keysNodup_assocSet (fs : List (String × JVal)) (k : String) (v : JVal)
    (h : keysNodup fs = true) : keysNodup (assocSet fs k v) = true := by
  induction fs with
  | nil => simp [assocSet, keysNodup]
  | cons e rest ih =>
      obtain ⟨k1, v1⟩ := e
      rw [keysNodup, Bool.and_eq_true] at h
      by_cases h1 : k1 = k
      · subst h1
        rw [assocSet, if_pos rfl, keysNodup, Bool.and_eq_true]
        exact h
      · rw [assocSet, if_neg h1, keysNodup, Bool.and_eq_true]
        refine ⟨?_, ih h.2⟩
        rw [Bool.not_eq_true']
        exact assocSet_any_false rest k v k1 (by simpa using h.1)
          (fun hh => h1 hh.symm)

theorem arrGet_arrSet_self (es : List JVal) (i : Nat) (v : JVal) (hv : v ≠ .undef) :
    arrGet (arrSet es i v) i = some v := by
  rw [arrSet]
  by_cases h : i < es.length
  · rw [if_pos h, arrGet, List.get?_eq_getElem?, List.getElem?_set_self h]
    cases v <;> simp_all
  · rw [if_neg h, arrGet, List.get?_eq_getElem?]
    rw [show es ++ List.replicate (i - es.length) JVal.undef ++ [v] =
      (es ++ List.replicate (i - es.length) JVal.undef) ++ [v] from by
        rw [List.append_assoc]]
    have hlen : (es ++ List.replicate (i - es.length) JVal.undef).length = i := by
      simp
      omega
    rw [List.getElem?_append_right (by omega), hlen, Nat.sub_self]
    cases v <;> simp_all

theorem arrGet_arrSet_ne (es : List JVal) (i j : Nat) (v : JVal) (h : j ≠ i)
    (hj : j < es.length) : arrGet (arrSet es i v) j = arrGet es j := by
  rw [arrSet]
  by_cases hi : i < es.length
  · rw [if_pos hi, arrGet, arrGet, List.get?_eq_getElem?, List.get?_eq_getElem?,
      List.getElem?_set_ne (fun hh => h hh.symm)]
  · rw [if_neg hi, arrGet, arrGet]
    simp only [List.get?_eq_getElem?]
    rw [List.getElem?_append_left (show j <
        (es ++ List.replicate (i - es.length) JVal.undef).length by
      simp only [List.length_append, List.length_replicate]
      omega), List.getElem?_append_left hj]

theorem arrSet_id (es : List JVal) (i : Nat) (v : JVal)
    (h : arrGet es i = some v) : arrSet es i v = es := by
  have hi : i < es.length := by
    by_contra hc
    rw [arrGet, List.get?_eq_getElem?, List.getElem?_eq_none (by omega)] at h
    cases h
  rw [arrSet, if_pos hi]
  have hv : es[i]? = some v := by
    rw [arrGet, List.get?_eq_getElem?] at h
    rcases he : es[i]? with _ | w
    · rw [he] at h; cases h
    · rw [he] at h
      cases w <;> simp_all
  apply List.ext_getElem?
  intro j
  by_cases hj : j = i
  · subst hj
    rw [List.getElem?_set_self hi, hv]
  · rw [List.getElem?_set_ne (fun hh => hj hh.symm)]

theorem arrGet_arrDel_ne (es : List JVal) (i j : Nat) (h : j ≠ i) :
    arrGet (arrDel es i) j = arrGet es j := by
  rw [arrDel]
  by_cases hi : i < es.length
  · rw [if_pos hi, arrGet, arrGet, List.get?_eq_getElem?, List.get?_eq_getElem?,
      List.getElem?_set_ne (fun hh => h hh.symm)]
  · rw [if_neg hi]

theorem arrGet_some (es : List JVal) (i : Nat) (w : JVal)
    (h : arrGet es i = some w) : i < es.length ∧ w ≠ .undef ∧ es[i]? = some w := by
  rw [arrGet, List.get?_eq_getElem?] at h
  rcases he : es[i]? with _ | c
  · rw [he] at h; cases h
  · rw [he] at h
    have hlt : i < es.length := by
      by_contra hc
      rw [List.getElem?_eq_none (by omega)] at he
      cases he
    cases c with
    | undef => cases h
    | null => cases h; exact ⟨hlt, by simp, rfl⟩
    | bool b => cases h; exact ⟨hlt, by simp, rfl⟩
    | num x => cases h; exact ⟨hlt, by simp, rfl⟩
    | str st => cases h; exact ⟨hlt, by simp, rfl⟩
    | arr a b => cases h; exact ⟨hlt, by simp, rfl⟩
    | obj a b => cases h; exact ⟨hlt, by simp, rfl⟩

theorem getKeyE_setKeyE_self (n : JVal) (k : JKey) (v : JVal) (n' : JVal) (w : JVal)
    (hset : setKeyE n k v = .ok n') (hget : getKeyE n k = .ok (some w))
    (hv : v ≠ .undef) : getKeyE n' k = .ok (some v) := by
  cases n with
  | obj i fs =>
      cases k with
      | str s =>
          rw [setKeyE] at hset
          cases hset
          rw [getKeyE, assocGet_assocSet_self]
      | idx m =>
          rw [setKeyE] at hset
          cases hset
          rw [getKeyE, assocGet_assocSet_self]
  | arr i es =>
      cases k with
      | idx m =>
          rw [setKeyE] at hset
          cases hset
          rw [getKeyE] at hget
          injection hget with hg
          rw [getKeyE, arrGet_arrSet_self es m v hv]
      | str s =>
          rw [setKeyE] at hset
          rw [getKeyE] at hget
          rcases hc : canonIdx s with _ | m
          · simp only [hc] at hget
            cases hget
          · simp only [hc] at hset hget
            cases hset
            injection hget with hg
            rw [getKeyE]
            simp only [hc]
            rw [arrGet_arrSet_self es m v hv]
  | null => cases hset
  | undef => cases hset
  | bool b => cases hset
  | num x => cases hset
  | str s => cases hset

theorem setKeyE_wrappable (n : JVal) (k : JKey) (v : JVal)
    (h : isWrappable n = true) :
    ∃ n', setKeyE n k v = .ok n' ∧ sameCtorId n n' = true := by
  cases n with
  | obj i fs =>
      cases k with
      | str s => exact ⟨_, rfl, by rw [sameCtorId]; simp⟩
      | idx m => exact ⟨_, rfl, by rw [sameCtorId]; simp⟩
  | arr i es =>
      cases k with
      | idx m => exact ⟨_, rfl, by rw [sameCtorId]; simp⟩
      | str s =>
          rw [setKeyE]
          rcases hc : canonIdx s with _ | m
          · exact ⟨_, rfl, by rw [sameCtorId]; simp⟩
          · exact ⟨_, rfl, by rw [sameCtorId]; simp⟩
  | null => cases h
  | undef => cases h
  | bool b => cases h
  | num x => cases h
  | str s => cases h

theorem getKey_source_wrappable (old : JVal) (k : JKey) (ov : JVal)
    (hget : getKeyE old k = .ok (some ov)) (hov : isWrappable ov = true) :
    isWrappable old = true := by
  cases old with
  | obj i fs => rfl
  | arr i es => rfl
  | null => cases hget
  | undef => cases hget
  | bool b => cases hget
  | num x => cases hget
  | str s =>
      exfalso
      cases k with
      | idx m =>
          rw [getKeyE] at hget
          injection hget with hg
          rcases hc : s.data.get? m with _ | c
          · rw [hc] at hg; cases hg
          · rw [hc] at hg
            cases hg
            cases hov
      | str s' =>
          rw [getKeyE] at hget
          rcases hcc : canonIdx s' with _ | m
          · simp only [hcc] at hget
            cases hget
          · simp only [hcc] at hget
            injection hget with hg
            rcases hc : s.data.get? m with _ | c
            · rw [hc] at hg; cases hg
            · rw [hc] at hg
              cases hg
              cases hov

theorem setKeyE_id (n : JVal) (k : JKey) (v : JVal)
    (hget : getKeyE n k = .ok (some v)) (hw : isWrappable n = true) :
    setKeyE n k v = .ok n := by
  cases n with
  | obj i fs =>
      cases k with
      | str s =>
          rw [getKeyE] at hget
          injection hget with hg
          rw [setKeyE, assocSet_id _ _ _ hg]
      | idx m =>
          rw [getKeyE] at hget
          injection hget with hg
          rw [setKeyE, assocSet_id _ _ _ hg]
  | arr i es =>
      cases k with
      | idx m =>
          rw [getKeyE] at hget
          injection hget with hg
          rw [setKeyE, arrSet_id _ _ _ hg]
      | str s =>
          rw [getKeyE] at hget
          rcases hc : canonIdx s with _ | m
          · simp only [hc] at hget
            cases hget
          · simp only [hc] at hget
            injection hget with hg
            rw [setKeyE]
            simp only [hc]
            rw [arrSet_id _ _ _ hg]
  | null => cases hw
  | undef => cases hw
  | bool b => cases hw
  | num x => cases hw
  | str s => cases hw

theorem sameCtorId_wrappable {a b : JVal} (h : sameCtorId a b = true) :
    isWrappable a = true ∧ isWrappable b = true := by
  cases a <;> cases b <;> simp_all [sameCtorId, isWrappable]

theorem sameCtorId_refl {a : JVal} (h : isWrappable a = true) :
    sameCtorId a a = true := by
  cases a <;> simp_all [sameCtorId, isWrappable]

theorem sameCtorId_trans {a b c : JVal} (h1 : sameCtorId a b = true)
    (h2 : sameCtorId b c = true) : sameCtorId a c = true := by
  cases a <;> cases b <;> cases c <;> simp_all [sameCtorId]

theorem assocSet_assocSet (fs : List (String × JVal)) (k : String) (v w : JVal) :
    assocSet (assocSet fs k v) k w = assocSet fs k w := by
  induction fs with
  | nil => simp [assocSet]
  | cons p rest ih =>
      obtain ⟨a, b⟩ := p
      by_cases h : a = k
      · simp [assocSet, h]
      · simp [assocSet, h, ih]

theorem arrSet_length (es : List JVal) (i : Nat) (v : JVal) :
    (arrSet es i v).length = max es.length (i + 1) := by
  rw [arrSet]
  split
  · simp; omega
  · simp; omega

theorem set_append_last {α : Type} (xs : List α) (v w : α) :
    (xs ++ [v]).set xs.length w = xs ++ [w] := by
  induction xs with
  | nil => simp
  | cons a rest ih => simp [List.set, ih]

theorem arrSet_arrSet (es : List JVal) (i : Nat) (v w : JVal) :
    arrSet (arrSet es i v) i w = arrSet es i w := by
  by_cases h : i < es.length
  · have e1 : arrSet es i v = es.set i v := by rw [arrSet, if_pos h]
    have e2 : arrSet (es.set i v) i w = (es.set i v).set i w := by
      rw [arrSet, if_pos (by simpa using h)]
    have e3 : arrSet es i w = es.set i w := by rw [arrSet, if_pos h]
    rw [e1, e2, e3, List.set_set]
  · have e1 : arrSet es i v = es ++ List.replicate (i - es.length) JVal.undef ++ [v] := by
      rw [arrSet, if_neg h]
    have e2 : arrSet es i w = es ++ List.replicate (i - es.length) JVal.undef ++ [w] := by
      rw [arrSet, if_neg h]
    have hlt : i < (es ++ List.replicate (i - es.length) JVal.undef ++ [v]).length := by
      simp only [List.length_append, List.length_replicate, List.length_cons,
        List.length_nil]
      omega
    have e3 : arrSet (es ++ List.replicate (i - es.length) JVal.undef ++ [v]) i w
        = (es ++ List.replicate (i - es.length) JVal.undef ++ [v]).set i w := by
      rw [arrSet, if_pos hlt]
    rw [e1, e3, e2]
    apply List.ext_getElem?
    intro j
    rcases Nat.lt_trichotomy j i with hj | hj | hj
    · rw [List.getElem?_set_ne (by omega)]
      have hA : j < (es ++ List.replicate (i - es.length) JVal.undef).length := by
        simp only [List.length_append, List.length_replicate]
        omega
      rw [show es ++ List.replicate (i - es.length) JVal.undef ++ [v]
          = (es ++ List.replicate (i - es.length) JVal.undef) ++ [v] by simp]
      rw [show es ++ List.replicate (i - es.length) JVal.undef ++ [w]
          = (es ++ List.replicate (i - es.length) JVal.undef) ++ [w] by simp]
      rw [List.getElem?_append_left hA, List.getElem?_append_left hA]
    · subst hj
      have hlen2 : (es ++ List.replicate (j - es.length) JVal.undef).length = j := by
        simp only [List.length_append, List.length_replicate]
        omega
      rw [List.getElem?_set_self (by omega)]
      rw [show es ++ List.replicate (j - es.length) JVal.undef ++ [w]
          = (es ++ List.replicate (j - es.length) JVal.undef) ++ [w] by simp]
      rw [List.getElem?_append_right (by omega), hlen2]
      simp
    · have h1 : ((es ++ List.replicate (i - es.length) JVal.undef ++ [v]).set i w)[j]?
          = none := by
        apply List.getElem?_eq_none
        simp only [List.length_set, List.length_append, List.length_replicate,
          List.length_cons, List.length_nil]
        omega
      have h2 : (es ++ List.replicate (i - es.length) JVal.undef ++ [w])[j]? = none := by
        apply List.getElem?_eq_none
        simp only [List.length_append, List.length_replicate, List.length_cons,
          List.length_nil]
        omega
      rw [h1, h2]

theorem setKeyE_setKeyE (n : JVal) (k : JKey) (v : JVal) (n' : JVal)
    (hset : setKeyE n k v = .ok n') (w : JVal) :
    setKeyE n' k w = setKeyE n k w := by
  cases n with
  | obj i fs =>
      cases k with
      | str s => cases hset; simp [setKeyE, assocSet_assocSet]
      | idx m => cases hset; simp [setKeyE, assocSet_assocSet]
  | arr i es =>
      cases k with
      | idx m => cases hset; simp [setKeyE, arrSet_arrSet]
      | str s =>
          rw [setKeyE] at hset
          rcases hc : canonIdx s with _ | m
          · simp only [hc] at hset
            cases hset
            rfl
          · simp only [hc] at hset
            cases hset
            rw [setKeyE]
            simp only [hc]
            rw [setKeyE]
            simp only [hc, arrSet_arrSet]
  | null => cases hset
  | undef => cases hset
  | bool b => cases hset
  | num x => cases hset
  | str s => cases hset

theorem setKeyE_sameCtor (n : JVal) (k : JKey) (v : JVal) (n' : JVal)
    (hset : setKeyE n k v = .ok n') : sameCtorId n n' = true := by
  cases n with
  | obj i fs =>
      cases k with
      | str s => cases hset; simp [sameCtorId]
      | idx m => cases hset; simp [sameCtorId]
  | arr i es =>
      cases k with
      | idx m => cases hset; simp [sameCtorId]
      | str s =>
          rw [setKeyE] at hset
          rcases hc : canonIdx s with _ | m <;> simp only [hc] at hset <;>
            (cases hset; simp [sameCtorId])
  | null => cases hset
  | undef => cases hset
  | bool b => cases hset
  | num x => cases hset
  | str s => cases hset

theorem setKeyE_nonwrappable_error (n : JVal) (k : JKey) (v : JVal)
    (h : isWrappable n = false) : setKeyE n k v = .error () := by
  cases n <;> simp_all [setKeyE, isWrappable]

theorem arrGet_arrSet_ne_any (es : List JVal) (i j : Nat) (v : JVal)
    (h : j ≠ i) : arrGet (arrSet es i v) j = arrGet es j := by
  by_cases hj : j < es.length
  · exact arrGet_arrSet_ne es i j v h hj
  · have h1 : arrGet es j = none := by
      rw [arrGet, List.get?_eq_getElem?, List.getElem?_eq_none (by omega)]
    rw [h1]
    by_cases hj2 : j < (arrSet es i v).length
    · have hmax := arrSet_length es i v
      have hii : ¬ i < es.length := by omega
      have hji : j < i := by omega
      have e1 : arrSet es i v = es ++ List.replicate (i - es.length) JVal.undef ++ [v] := by
        rw [arrSet, if_neg hii]
      rw [arrGet, e1, List.get?_eq_getElem?]
      rw [show es ++ List.replicate (i - es.length) JVal.undef ++ [v]
          = (es ++ List.replicate (i - es.length) JVal.undef) ++ [v] by simp]
      rw [List.getElem?_append_left (by
        simp only [List.length_append, List.length_replicate]
        omega)]
      rw [List.getElem?_append_right (by omega)]
      rw [List.getElem?_replicate, if_pos (by omega)]
    · have h2 : arrGet (arrSet es i v) j = none := by
        rw [arrGet, List.get?_eq_getElem?, List.getElem?_eq_none (by omega)]
      rw [h2]

theorem getKeyE_setKeyE_obj_ne (i : Nat) (fs : List (String × JVal))
    (s s' : String) (v : JVal) (h : s' ≠ s) :
    getKeyE (.obj i (assocSet fs s v)) (.str s') = getKeyE (.obj i fs) (.str s') := by
  simp [getKeyE, assocGet_assocSet_ne _ _ _ _ h]

theorem getKeyE_delKey_obj_ne (i : Nat) (fs : List (String × JVal))
    (s s' : String) (h : s' ≠ s) :
    getKeyE (.obj i (assocDel fs s)) (.str s') = getKeyE (.obj i fs) (.str s') := by
  simp [getKeyE, assocGet_assocDel_ne _ _ _ h]

theorem getKeyE_setKeyE_arr_ne (i : Nat) (es : List JVal) (m m' : Nat)
    (v : JVal) (h : m' ≠ m) :
    getKeyE (.arr i (arrSet es m v)) (.idx m') = getKeyE (.arr i es) (.idx m') := by
  simp [getKeyE, arrGet_arrSet_ne_any _ _ _ _ h]

theorem getKeyE_delKey_arr_ne (i : Nat) (es : List JVal) (m m' : Nat)
    (h : m' ≠ m) :
    getKeyE (.arr i (arrDel es m)) (.idx m') = getKeyE (.arr i es) (.idx m') := by
  simp [getKeyE, arrGet_arrDel_ne _ _ _ h]

theorem assocGet_mem (fs : List (String × JVal)) (k : String) (v : JVal)
    (h : assocGet fs k = some v) : (k, v) ∈ fs := by
  induction fs with
  | nil => cases h
  | cons p rest ih =>
      obtain ⟨a, b⟩ := p
      rw [assocGet] at h
      by_cases ha : a = k
      · rw [if_pos ha] at h
        injection h with h
        subst ha; subst h
        exact List.mem_cons_self _ _
      · rw [if_neg ha] at h
        exact List.mem_cons_of_mem _ (ih h)

theorem assocDel_any_false (fs : List (String × JVal)) (k k' : String)
    (h : (fs.any fun p => p.1 = k') = false) :
    ((assocDel fs k).any fun p => p.1 = k') = false := by
  induction fs with
  | nil => simp [assocDel]
  | cons p rest ih =>
      obtain ⟨a, b⟩ := p
      simp only [List.any_cons, Bool.or_eq_false_iff] at h
      rw [assocDel]
      by_cases ha : a = k
      · rw [if_pos ha]; exact h.2
      · rw [if_neg ha]
        simp only [List.any_cons, Bool.or_eq_false_iff]
        exact ⟨h.1, ih h.2⟩

theorem keysNodup_assocDel (fs : List (String × JVal)) (k : String)
    (h : keysNodup fs = true) : keysNodup (assocDel fs k) = true := by
  induction fs with
  | nil => simp [assocDel, keysNodup]
  | cons p rest ih =>
      obtain ⟨a, b⟩ := p
      rw [keysNodup, Bool.and_eq_true, Bool.not_eq_true'] at h
      rw [assocDel]
      by_cases ha : a = k
      · rw [if_pos ha]; exact h.2
      · rw [if_neg ha]
        rw [keysNodup, Bool.and_eq_true, Bool.not_eq_true']
        exact ⟨assocDel_any_false rest k a h.1, ih h.2⟩

theorem error_bind {ε α β : Type} (e : ε) (f : α → Except ε β) :
    (Except.error e >>= f : Except ε β) = .error e := rfl

theorem bind_ok_id {ε α : Type} (x : Except ε α) : (x >>= Except.ok) = x := by
  cases x <;> rfl

theorem wrappable_ne_undef {v : JVal} (h : isWrappable v = true) : v ≠ .undef := by
  cases v <;> simp_all [isWrappable]

theorem resolve_wrappable_source (ps : List JKey) :
    ∀ (v old : JVal), resolveAtE v ps = .ok old → isWrappable old = true →
      isWrappable v = true := by
  induction ps with
  | nil =>
      intro v old h hw
      rw [resolveAtE] at h
      injection h with h
      rw [h]; exact hw
  | cons k ks ih =>
      intro v old h hw
      rw [resolveAtE, ebind_ok_iff] at h
      obtain ⟨sub?, hg, hr⟩ := h
      rcases sub? with _ | w
      · have := ih _ _ hr hw
        simp [Option.getD, isWrappable] at this
      · exact getKey_source_wrappable v k w hg (ih _ _ hr hw)

theorem resolve_cons_some (v : JVal) (k : JKey) (ks : List JKey) (old : JVal)
    (h : resolveAtE v (k :: ks) = .ok old) (hw : isWrappable old = true) :
    ∃ base, getKeyE v k = .ok (some base) ∧ resolveAtE base ks = .ok old ∧
      isWrappable base = true := by
  rw [resolveAtE, ebind_ok_iff] at h
  obtain ⟨sub?, hg, hr⟩ := h
  rcases sub? with _ | base
  · have := resolve_wrappable_source ks _ _ hr hw
    simp [Option.getD, isWrappable] at this
  · exact ⟨base, hg, hr, resolve_wrappable_source ks _ _ hr hw⟩

theorem resolve_snoc (path : List JKey) (k : JKey) :
    ∀ r : JVal, resolveAtE r (path ++ [k])
      = (resolveAtE r path >>= fun v =>
          getKeyE v k >>= fun s => .ok (s.getD .undef)) := by
  induction path with
  | nil =>
      intro r
      simp only [List.nil_append]
      cases hE : getKeyE r k <;>
        simp [resolveAtE, hE, ok_bind, error_bind]
  | cons p ps ih =>
      intro r
      rw [show (p :: ps) ++ [k] = p :: (ps ++ [k]) from rfl]
      cases hE : getKeyE r p <;>
        simp only [resolveAtE, hE, ok_bind, error_bind, ih]

theorem setAtPath_factor (path : List JKey) :
    ∀ (r old : JVal) (k : JKey) (v : JVal), resolveAtE r path = .ok old →
      setAtPath r path k v = (setKeyE old k v >>= fun old' => replaceAtE r path old') := by
  induction path with
  | nil =>
      intro r old k v hres
      rw [resolveAtE] at hres
      injection hres with hres
      subst hres
      cases hS : setKeyE r k v <;>
        simp [setAtPath, replaceAtE, hS, ok_bind, error_bind]
  | cons p ps ih =>
      intro r old k v hres
      rw [resolveAtE, ebind_ok_iff] at hres
      obtain ⟨sub?, hg, hr⟩ := hres
      rw [setAtPath, hg, ok_bind]
      rw [ih _ _ k v hr]
      cases hS : setKeyE old k v <;>
        simp only [replaceAtE, hS, hg, ok_bind, error_bind]

theorem delAtPath_factor (path : List JKey) :
    ∀ (r old : JVal) (k : JKey), resolveAtE r path = .ok old →
      delAtPath r path k = replaceAtE r path (delKey old k) := by
  induction path with
  | nil =>
      intro r old k hres
      rw [resolveAtE] at hres
      injection hres with hres
      subst hres
      rw [delAtPath, replaceAtE]
  | cons p ps ih =>
      intro r old k hres
      rw [resolveAtE, ebind_ok_iff] at hres
      obtain ⟨sub?, hg, hr⟩ := hres
      rw [delAtPath, replaceAtE, hg, ok_bind, ok_bind]
      rw [ih _ _ k hr]

theorem replace_snoc (path : List JKey) :
    ∀ (r old : JVal) (k : JKey) (s : Option JVal) (v : JVal),
      resolveAtE r path = .ok old → getKeyE old k = .ok s →
      replaceAtE r (path ++ [k]) v
        = (setKeyE old k v >>= fun old' => replaceAtE r path old') := by
  induction path with
  | nil =>
      intro r old k s v hres hget
      rw [resolveAtE] at hres
      injection hres with hres
      subst hres
      rw [show ([] : List JKey) ++ [k] = [k] from rfl]
      rw [replaceAtE, hget, ok_bind, replaceAtE, ok_bind]
      rw [show (fun old' => replaceAtE r [] old') = Except.ok from rfl]
      rw [bind_ok_id]
  | cons p ps ih =>
      intro r old k s v hres hget
      rw [resolveAtE, ebind_ok_iff] at hres
      obtain ⟨sub?, hg, hr⟩ := hres
      rw [show (p :: ps) ++ [k] = p :: (ps ++ [k]) from rfl]
      rw [replaceAtE, hg, ok_bind]
      rw [ih _ _ k s v hr hget]
      cases hS : setKeyE old k v <;>
        simp only [replaceAtE, hS, hg, ok_bind, error_bind]

theorem replace_self (path : List JKey) :
    ∀ (r old : JVal), resolveAtE r path = .ok old → isWrappable old = true →
      replaceAtE r path old = .ok r := by
  induction path with
  | nil =>
      intro r old hres _
      rw [resolveAtE] at hres
      injection hres with hres
      subst hres
      rw [replaceAtE]
  | cons p ps ih =>
      intro r old hres hw
      obtain ⟨base, hg, hr, hwb⟩ := resolve_cons_some r p ps old hres hw
      rw [replaceAtE, hg, ok_bind]
      rw [show (some base).getD JVal.undef = base from rfl]
      rw [ih _ _ hr hw, ok_bind]
      exact setKeyE_id r p base hg (getKey_source_wrappable r p base hg hwb)

theorem replace_ok (path : List JKey) :
    ∀ (r old : JVal), resolveAtE r path = .ok old → isWrappable old = true →
      ∀ v : JVal, ∃ r', replaceAtE r path v = .ok r' := by
  induction path with
  | nil =>
      intro r old _ _ v
      exact ⟨v, rfl⟩
  | cons p ps ih =>
      intro r old hres hw v
      obtain ⟨base, hg, hr, hwb⟩ := resolve_cons_some r p ps old hres hw
      obtain ⟨sub', hsub⟩ := ih _ _ hr hw v
      obtain ⟨r', hset, _⟩ :=
        setKeyE_wrappable r p sub' (getKey_source_wrappable r p base hg hwb)
      refine ⟨r', ?_⟩
      rw [replaceAtE, hg, ok_bind]
      rw [show (some base).getD JVal.undef = base from rfl]
      rw [hsub, ok_bind, hset]

theorem resolve_replace (path : List JKey) :
    ∀ (r old w r' : JVal), resolveAtE r path = .ok old → isWrappable old = true →
      isWrappable w = true → replaceAtE r path w = .ok r' →
      resolveAtE r' path = .ok w ∧ isWrappable r' = true := by
  induction path with
  | nil =>
      intro r old w r' _ _ hww hrep
      rw [replaceAtE] at hrep
      injection hrep with hrep
      subst hrep
      exact ⟨rfl, hww⟩
  | cons p ps ih =>
      intro r old w r' hres hw hww hrep
      obtain ⟨base, hg, hr, hwb⟩ := resolve_cons_some r p ps old hres hw
      rw [replaceAtE, hg, ok_bind] at hrep
      rw [show (some base).getD JVal.undef = base from rfl] at hrep
      rw [ebind_ok_iff] at hrep
      obtain ⟨sub', hsub, hset⟩ := hrep
      obtain ⟨hres', hwsub⟩ := ih _ _ _ _ hr hw hww hsub
      have hget' : getKeyE r' p = .ok (some sub') :=
        getKeyE_setKeyE_self r p sub' r' base hset hg (wrappable_ne_undef hwsub)
      constructor
      · rw [resolveAtE, hget', ok_bind]
        exact hres'
      · exact (sameCtorId_wrappable (setKeyE_sameCtor r p sub' r' hset)).2

theorem replace_replace (path : List JKey) :
    ∀ (r old w r₁ : JVal), resolveAtE r path = .ok old → isWrappable old = true →
      isWrappable w = true → replaceAtE r path w = .ok r₁ →
      ∀ w' : JVal, replaceAtE r₁ path w' = replaceAtE r path w' := by
  induction path with
  | nil =>
      intro r old w r₁ _ _ _ hrep w'
      rw [replaceAtE] at hrep
      injection hrep with hrep
      subst hrep
      rw [replaceAtE, replaceAtE]
  | cons p ps ih =>
      intro r old w r₁ hres hw hww hrep w'
      obtain ⟨base, hg, hr, hwb⟩ := resolve_cons_some r p ps old hres hw
      rw [replaceAtE, hg, ok_bind] at hrep
      rw [show (some base).getD JVal.undef = base from rfl] at hrep
      rw [ebind_ok_iff] at hrep
      obtain ⟨sub₁, hsub, hset⟩ := hrep
      obtain ⟨_, hwsub⟩ := resolve_replace ps _ _ _ _ hr hw hww hsub
      have hget' : getKeyE r₁ p = .ok (some sub₁) :=
        getKeyE_setKeyE_self r p sub₁ r₁ base hset hg (wrappable_ne_undef hwsub)
      rw [replaceAtE, replaceAtE, hget', hg, ok_bind, ok_bind]
      rw [show (some base).getD JVal.undef = base from rfl]
      rw [show (some sub₁).getD JVal.undef = sub₁ from rfl]
      rw [ih _ _ _ _ hr hw hww hsub w']
      cases hR : replaceAtE base ps w'
      · rw [error_bind, error_bind]
      · rw [ok_bind, ok_bind]
        exact setKeyE_setKeyE r p sub₁ r₁ hset _

theorem setKeyE_ok_wrappable (n : JVal) (k : JKey) (v n' : JVal)
    (h : setKeyE n k v = .ok n') : isWrappable n = true := by
  cases n with
  | obj i fs => rfl
  | arr i es => rfl
  | null => cases h
  | undef => cases h
  | bool b => cases h
  | num x => cases h
  | str s => cases h

theorem getKey_source_not_wrappable (old : JVal) (k : JKey) (ov : JVal)
    (hget : getKeyE old k = .ok (some ov)) (h : isWrappable old = false) :
    isWrappable ov = false := by
  by_contra hc
  rw [getKey_source_wrappable old k ov hget (by revert hc; cases isWrappable ov <;> simp)]
    at h
  cases h

theorem delKey_sameCtor (old : JVal) (k : JKey) (h : isWrappable old = true) :
    sameCtorId old (delKey old k) = true := by
  cases old with
  | obj i fs => cases k <;> simp [delKey, sameCtorId]
  | arr i es =>
      cases k with
      | idx m => simp [delKey, sameCtorId]
      | str s =>
          rw [delKey]
          rcases hc : canonIdx s with _ | m <;> simp [sameCtorId]
  | null => cases h
  | undef => cases h
  | bool b => cases h
  | num x => cases h
  | str s => cases h

theorem rSetStep_sameCtor (k : JKey) (nvk old old₁ : JVal)
    (hw : isWrappable old = true) (h : rSetStep k nvk old = .ok old₁) :
    sameCtorId old old₁ = true := by
  rw [rSetStep] at h
  by_cases hto : isTypeofObject nvk = true
  · rw [if_pos hto] at h
    rw [ebind_ok_iff] at h
    obtain ⟨oldk, hget, h⟩ := h
    cases oldk with
    | none => exact setKeyE_sameCtor old k nvk old₁ h
    | some ov =>
        simp only [] at h
        by_cases hwo : isWrappable ov = true
        · rw [if_pos hwo, ebind_ok_iff] at h
          obtain ⟨ov', _, hset⟩ := h
          exact setKeyE_sameCtor old k ov' old₁ hset
        · rw [if_neg hwo, ebind_ok_iff] at h
          obtain ⟨_, _, h⟩ := h
          injection h with h
          rw [← h]
          exact sameCtorId_refl hw
  · rw [if_neg hto] at h
    exact setKeyE_sameCtor old k nvk old₁ h

theorem rSetStep_scalar_id (k : JKey) (nvk old old₁ : JVal)
    (hw : isWrappable old = false) (h : rSetStep k nvk old = .ok old₁) :
    old₁ = old := by
  rw [rSetStep] at h
  by_cases hto : isTypeofObject nvk = true
  · rw [if_pos hto] at h
    rw [ebind_ok_iff] at h
    obtain ⟨oldk, hget, h⟩ := h
    cases oldk with
    | none => rw [setKeyE_nonwrappable_error old k nvk hw] at h; cases h
    | some ov =>
        simp only [] at h
        have hwo := getKey_source_not_wrappable old k ov hget hw
        rw [if_neg (by rw [hwo]; simp), ebind_ok_iff] at h
        obtain ⟨_, _, h⟩ := h
        injection h with h
        exact h.symm
  · rw [if_neg hto] at h
    rw [setKeyE_nonwrappable_error old k nvk hw] at h
    cases h

theorem rCleanStep_sameCtor (nv : JVal) (k : JKey) (ov old old₁ : JVal)
    (hw : isWrappable old = true) (h : rCleanStep nv k ov old = .ok old₁) :
    sameCtorId old old₁ = true := by
  rw [rCleanStep] at h
  rw [ebind_ok_iff] at h
  obtain ⟨nvk, hget, h⟩ := h
  cases nvk with
  | none =>
      injection h with h
      rw [← h]
      exact delKey_sameCtor old k hw
  | some nvv =>
      simp only [] at h
      by_cases hto : isTypeofObject ov = true
      · rw [if_pos hto] at h
        by_cases hwo : isWrappable ov = true
        · rw [if_pos hwo, ebind_ok_iff] at h
          obtain ⟨ov', _, hset⟩ := h
          exact setKeyE_sameCtor old k ov' old₁ hset
        · rw [if_neg hwo, ebind_ok_iff] at h
          obtain ⟨_, _, h⟩ := h
          injection h with h
          rw [← h]
          exact sameCtorId_refl hw
      · rw [if_neg hto] at h
        injection h with h
        rw [← h]
        exact sameCtorId_refl hw

theorem liftPure_error (st : DBState) (path : List JKey) (old : JVal) (e : JErr) :
    liftPure st path old (.error e) = .error e := rfl

theorem liftPure_ok (st : DBState) (path : List JKey) (old w : JVal) :
    liftPure st path old (.ok w)
      = if isWrappable old = true then
          match replaceAtE st.root path w with
          | .error e => .error e
          | .ok r => .ok { st with root := r }
        else .ok st := rfl

theorem liftPure_self (st : DBState) (path : List JKey) (old : JVal)
    (hres : resolveAtE st.root path = .ok old) :
    liftPure st path old (.ok old) = .ok st := by
  by_cases hw : isWrappable old = true
  · rw [liftPure, if_pos hw, replace_self path st.root old hres hw]
  · rw [liftPure, if_neg hw]

theorem liftPure_shift (st : DBState) (path : List JKey) (old old1 r1 : JVal)
    (hres : resolveAtE st.root path = .ok old) (hw : isWrappable old = true)
    (hw1 : isWrappable old1 = true)
    (hrep : replaceAtE st.root path old1 = .ok r1) (X : Except JErr JVal) :
    liftPure { st with root := r1 } path old1 X = liftPure st path old X := by
  cases X with
  | error e => rfl
  | ok old2 =>
      rw [liftPure, liftPure, if_pos hw1, if_pos hw]
      have hrr := replace_replace path st.root old old1 r1 hres hw hw1 hrep old2
      rw [show ({ st with root := r1 } : DBState).root = r1 from rfl, hrr]

/-- The Apply pass, path-threaded over the state, factors through the pure
value-level `rSet` on the node the path resolves to. -/
theorem rSetP_factor (P : Platform) (o : Options) :
    (∀ (st : DBState) (nv : JVal) (path : List JKey) (old : JVal),
        st.disableWrites = true → resolveAtE st.root path = .ok old →
          rSetP P o st nv path = liftPure st path old (rSet nv old)) ∧
    (∀ (st : DBState) (i : Nat) (es : List JVal) (path : List JKey) (old : JVal),
        st.disableWrites = true → resolveAtE st.root path = .ok old →
          rSetElemsP P o st i es path = liftPure st path old (rSetElems i es old)) ∧
    (∀ (st : DBState) (k : JKey) (nvk : JVal) (path : List JKey) (old : JVal),
        st.disableWrites = true → resolveAtE st.root path = .ok old →
          rSetStepP P o st k nvk path = liftPure st path old (rSetStep k nvk old)) ∧
    (∀ (st : DBState) (fs : List (String × JVal)) (path : List JKey) (old : JVal),
        st.disableWrites = true → resolveAtE st.root path = .ok old →
          rSetFieldsP P o st fs path = liftPure st path old (rSetFields fs old)) := by
  refine rSetP.mutual_induct P o
    (fun st nv path => ∀ old, st.disableWrites = true →
      resolveAtE st.root path = .ok old →
        rSetP P o st nv path = liftPure st path old (rSet nv old))
    (fun st i es path => ∀ old, st.disableWrites = true →
      resolveAtE st.root path = .ok old →
        rSetElemsP P o st i es path = liftPure st path old (rSetElems i es old))
    (fun st k nvk path => ∀ old, st.disableWrites = true →
      resolveAtE st.root path = .ok old →
        rSetStepP P o st k nvk path = liftPure st path old (rSetStep k nvk old))
    (fun st fs path => ∀ old, st.disableWrites = true →
      resolveAtE st.root path = .ok old →
        rSetFieldsP P o st fs path = liftPure st path old (rSetFields fs old))
    ?_ ?_ ?_ ?_ ?_ ?_ ?_ ?_ ?_ ?_
  · intro st path id fs ih old hdw hres
    rw [rSetP, rSet]
    exact ih old hdw hres
  · intro st path id es ih old hdw hres
    rw [rSetP, rSet]
    exact ih old hdw hres
  · intro st nv path h1 h2 old hdw hres
    rw [rSetP]
    · rw [rSet]
      · exact (liftPure_self st path old hres).symm
      · exact h1
      · exact h2
    · exact h1
    · exact h2
  · intro st i path old hdw hres
    rw [rSetElemsP, rSetElems]
    exact (liftPure_self st path old hres).symm
  · intro st i path rest ih old hdw hres
    rw [rSetElemsP, rSetElems]
    exact ih old hdw hres
  · intro st i path v rest hne ih1 ih2 old hdw hres
    rw [rSetElemsP]
    · rw [rSetElems]
      · have hstep := ih1 old hdw hres
        cases hps : rSetStep (JKey.idx i) v old with
        | error e =>
            rw [hps] at hstep
            rw [liftPure_error] at hstep
            rw [hstep, error_bind, error_bind, liftPure_error]
        | ok old1 =>
            rw [hps] at hstep
            rw [ok_bind]
            by_cases hw : isWrappable old = true
            · have hsc := rSetStep_sameCtor (JKey.idx i) v old old1 hw hps
              have hw1 : isWrappable old1 = true := (sameCtorId_wrappable hsc).2
              obtain ⟨r1, hrep⟩ := replace_ok path st.root old hres hw old1
              have hstep' : rSetStepP P o st (JKey.idx i) v path
                  = .ok { st with root := r1 } := by
                rw [hstep, liftPure_ok, if_pos hw, hrep]
              have hres1 := resolve_replace path st.root old old1 r1 hres hw hw1 hrep
              have hcont := ih2 { st with root := r1 } old1 hdw hres1.1
              rw [hstep', ok_bind, hcont]
              exact liftPure_shift st path old old1 r1 hres hw hw1 hrep _
            · have hid := rSetStep_scalar_id (JKey.idx i) v old old1
                (by revert hw; cases isWrappable old <;> simp) hps
              subst hid
              have hstep' : rSetStepP P o st (JKey.idx i) v path = .ok st := by
                rw [hstep, liftPure_ok, if_neg hw]
              rw [hstep', ok_bind]
              exact ih2 st old1 hdw hres
      · exact hne
    · exact hne
  · intro st k nvk path hto ih old hdw hres
    rw [rSetStepP, if_pos hto, rSetStep, if_pos hto]
    rw [hres, ok_bind]
    cases hgk : getKeyE old k with
    | error e =>
        rw [error_bind, error_bind, liftPure_error]
    | ok oldk =>
        rw [ok_bind, ok_bind]
        cases oldk with
        | none =>
            simp only []
            rw [setAtPath_factor path st.root old k nvk hres]
            cases hsk : setKeyE old k nvk with
            | error e =>
                rw [error_bind, error_bind, liftPure_error]
            | ok w =>
                have hwold := setKeyE_ok_wrappable old k nvk w hsk
                rw [ok_bind, liftPure_ok, if_pos hwold]
                cases hR : replaceAtE st.root path w with
                | error e => rw [error_bind]
                | ok r =>
                    rw [ok_bind]
                    have hd : ({ st with root := r } : DBState).disableWrites = true := hdw
                    rw [writeStore_disabled P o _ _ hd]
        | some ov =>
            simp only []
            have hres2 : resolveAtE st.root (path ++ [k]) = .ok ov := by
              rw [resolve_snoc path k st.root, hres, ok_bind, hgk, ok_bind]
              rfl
            rw [ih ov hdw hres2]
            by_cases hwo : isWrappable ov = true
            · rw [if_pos hwo]
              have hwold := getKey_source_wrappable old k ov hgk hwo
              cases hrs : rSet nvk ov with
              | error e =>
                  rw [liftPure_error, error_bind, liftPure_error]
              | ok ov' =>
                  rw [ok_bind]
                  have hsn := replace_snoc path st.root old k (some ov) ov' hres hgk
                  cases hsk : setKeyE old k ov' with
                  | error e =>
                      rw [hsk, error_bind] at hsn
                      rw [liftPure_ok, if_pos hwo, hsn, liftPure_error]
                  | ok old1 =>
                      rw [hsk, ok_bind] at hsn
                      rw [liftPure_ok, if_pos hwo, hsn]
                      rw [liftPure_ok, if_pos hwold]
            · rw [if_neg hwo]
              cases hrs : rSet nvk ov with
              | error e =>
                  rw [liftPure_error, error_bind, liftPure_error]
              | ok ov' =>
                  rw [ok_bind]
                  rw [liftPure_ok, if_neg hwo]
                  exact (liftPure_self st path old hres).symm
  · intro st k nvk path hto old hdw hres
    rw [rSetStepP, if_neg hto, rSetStep, if_neg hto]
    rw [setAtPath_factor path st.root old k nvk hres]
    cases hsk : setKeyE old k nvk with
    | error e =>
        rw [error_bind, error_bind, liftPure_error]
    | ok w =>
        have hwold := setKeyE_ok_wrappable old k nvk w hsk
        rw [ok_bind, liftPure_ok, if_pos hwold]
        cases hR : replaceAtE st.root path w with
        | error e => rw [error_bind]
        | ok r =>
            rw [ok_bind]
            have hd : ({ st with root := r } : DBState).disableWrites = true := hdw
            rw [writeStore_disabled P o _ _ hd]
  · intro st path old hdw hres
    rw [rSetFieldsP, rSetFields]
    exact (liftPure_self st path old hres).symm
  · intro st path k v rest ih1 ih2 old hdw hres
    rw [rSetFieldsP, rSetFields]
    have hstep := ih1 old hdw hres
    cases hps : rSetStep (JKey.str k) v old with
    | error e =>
        rw [hps] at hstep
        rw [liftPure_error] at hstep
        rw [hstep, error_bind, error_bind, liftPure_error]
    | ok old1 =>
        rw [hps] at hstep
        rw [ok_bind]
        by_cases hw : isWrappable old = true
        · have hsc := rSetStep_sameCtor (JKey.str k) v old old1 hw hps
          have hw1 : isWrappable old1 = true := (sameCtorId_wrappable hsc).2
          obtain ⟨r1, hrep⟩ := replace_ok path st.root old hres hw old1
          have hstep' : rSetStepP P o st (JKey.str k) v path
              = .ok { st with root := r1 } := by
            rw [hstep, liftPure_ok, if_pos hw, hrep]
          have hres1 := resolve_replace path st.root old old1 r1 hres hw hw1 hrep
          have hcont := ih2 { st with root := r1 } old1 hdw hres1.1
          rw [hstep', ok_bind, hcont]
          exact liftPure_shift st path old old1 r1 hres hw hw1 hrep _
        · have hid := rSetStep_scalar_id (JKey.str k) v old old1
            (by revert hw; cases isWrappable old <;> simp) hps
          subst hid
          have hstep' : rSetStepP P o st (JKey.str k) v path = .ok st := by
            rw [hstep, liftPure_ok, if_neg hw]
          rw [hstep', ok_bind]
          exact ih2 st old1 hdw hres

theorem assocGet_of_mem_nodup (fs : List (String × JVal)) (k : String) (v : JVal)
    (hnd : keysNodup fs = true) (hm : (k, v) ∈ fs) : assocGet fs k = some v := by
  induction fs with
  | nil => cases hm
  | cons p rest ih =>
      obtain ⟨a, b⟩ := p
      rw [keysNodup, Bool.and_eq_true, Bool.not_eq_true'] at hnd
      rcases List.mem_cons.mp hm with hh | ht
      · injection hh with h1 h2
        subst h1; subst h2
        rw [assocGet, if_pos rfl]
      · by_cases ha : a = k
        · exfalso
          subst ha
          have : rest.any (fun p => p.1 = a) = true := by
            apply List.any_eq_true.mpr
            exact ⟨(a, v), ht, by simp⟩
          rw [this] at hnd
          cases hnd.1
        · rw [assocGet, if_neg ha]
          exact ih hnd.2 ht

theorem keys_any_false_ne (fs : List (String × JVal)) (a : String)
    (h : (fs.any fun p => p.1 = a) = false) : ∀ p ∈ fs, p.1 ≠ a := by
  intro p hp
  intro hpa
  have : fs.any (fun p => p.1 = a) = true :=
    List.any_eq_true.mpr ⟨p, hp, by simp [hpa]⟩
  rw [this] at h
  cases h

theorem arrGet_of_get? (es : List JVal) (j : Nat) (v : JVal)
    (h : es.get? j = some v) (hv : v ≠ .undef) : arrGet es j = some v := by
  rw [arrGet, h]
  cases v <;> simp_all

theorem sameCtorId_arr (ai : Nat) (aes : List JVal) (b : JVal)
    (h : sameCtorId (.arr ai aes) b = true) : ∃ bes, b = .arr ai bes := by
  cases b <;> simp_all [sameCtorId]

theorem sameCtorId_obj (oi : Nat) (ofs : List (String × JVal)) (b : JVal)
    (h : sameCtorId (.obj oi ofs) b = true) : ∃ bfs, b = .obj oi bfs := by
  cases b <;> simp_all [sameCtorId]

theorem rCleanStep_frame_arr (nv : JVal) (i : Nat) (ov : JVal) (ai : Nat)
    (aes : List JVal) (cur1 : JVal)
    (h : rCleanStep nv (JKey.idx i) ov (.arr ai aes) = .ok cur1) :
    ∀ m, m ≠ i → getKeyE cur1 (.idx m) = getKeyE (.arr ai aes) (.idx m) := by
  intro m hm
  rw [rCleanStep, ebind_ok_iff] at h
  obtain ⟨nvk, hget, h⟩ := h
  cases nvk with
  | none =>
      injection h with h
      rw [← h]
      rw [show delKey (.arr ai aes) (JKey.idx i) = .arr ai (arrDel aes i) from rfl]
      exact getKeyE_delKey_arr_ne ai aes i m hm
  | some nvv =>
      simp only [] at h
      by_cases hto : isTypeofObject ov = true
      · rw [if_pos hto] at h
        by_cases hwo : isWrappable ov = true
        · rw [if_pos hwo, ebind_ok_iff] at h
          obtain ⟨ov', _, hset⟩ := h
          rw [show setKeyE (.arr ai aes) (JKey.idx i) ov'
              = .ok (.arr ai (arrSet aes i ov')) from rfl] at hset
          injection hset with hset
          rw [← hset]
          exact getKeyE_setKeyE_arr_ne ai aes i m ov' hm
        · rw [if_neg hwo, ebind_ok_iff] at h
          obtain ⟨_, _, h⟩ := h
          injection h with h
          rw [← h]
      · rw [if_neg hto] at h
        injection h with h
        rw [← h]

theorem rCleanStep_frame_obj (nv : JVal) (a : String) (ov : JVal) (oi : Nat)
    (ofs : List (String × JVal)) (cur1 : JVal)
    (h : rCleanStep nv (JKey.str a) ov (.obj oi ofs) = .ok cur1) :
    ∀ s, s ≠ a → getKeyE cur1 (.str s) = getKeyE (.obj oi ofs) (.str s) := by
  intro s hs
  rw [rCleanStep, ebind_ok_iff] at h
  obtain ⟨nvk, hget, h⟩ := h
  cases nvk with
  | none =>
      injection h with h
      rw [← h]
      rw [show delKey (.obj oi ofs) (JKey.str a) = .obj oi (assocDel ofs a) from rfl]
      exact getKeyE_delKey_obj_ne oi ofs a s hs
  | some nvv =>
      simp only [] at h
      by_cases hto : isTypeofObject ov = true
      · rw [if_pos hto] at h
        by_cases hwo : isWrappable ov = true
        · rw [if_pos hwo, ebind_ok_iff] at h
          obtain ⟨ov', _, hset⟩ := h
          rw [show setKeyE (.obj oi ofs) (JKey.str a) ov'
              = .ok (.obj oi (assocSet ofs a ov')) from rfl] at hset
          injection hset with hset
          rw [← hset]
          exact getKeyE_setKeyE_obj_ne oi ofs a s ov' hs
        · rw [if_neg hwo, ebind_ok_iff] at h
          obtain ⟨_, _, h⟩ := h
          injection h with h
          rw [← h]
      · rw [if_neg hto] at h
        injection h with h
        rw [← h]

/-- The Prune pass, path-threaded over the state, factors through the pure
value-level `rClean` on the node the path resolves to. -/
theorem rCleanP_factor (P : Platform) (o : Options) :
    (∀ (st : DBState) (nv old : JVal) (path : List JKey),
        st.disableWrites = true → resolveAtE st.root path = .ok old →
          wfVal old = true →
          rCleanP P o st nv old path = liftPure st path old (rClean nv old)) ∧
    (∀ (st : DBState) (nv : JVal) (i : Nat) (es : List JVal) (path : List JKey)
        (cur : JVal),
        st.disableWrites = true → resolveAtE st.root path = .ok cur →
          (∃ ai aes, cur = .arr ai aes) →
          (∀ j v, es.get? j = some v → v ≠ .undef →
            getKeyE cur (.idx (i + j)) = .ok (some v)) →
          wfElems es = true →
          rCleanElemsP P o st nv i es path = liftPure st path cur (rCleanElems nv i es cur)) ∧
    (∀ (st : DBState) (nv : JVal) (k : JKey) (ov : JVal) (path : List JKey)
        (cur : JVal),
        st.disableWrites = true → resolveAtE st.root path = .ok cur →
          isWrappable cur = true → getKeyE cur k = .ok (some ov) → wfVal ov = true →
          rCleanStepP P o st nv k ov path = liftPure st path cur (rCleanStep nv k ov cur)) ∧
    (∀ (st : DBState) (nv : JVal) (fs : List (String × JVal)) (path : List JKey)
        (cur : JVal),
        st.disableWrites = true → resolveAtE st.root path = .ok cur →
          (∃ oi ofs, cur = .obj oi ofs) →
          (∀ p ∈ fs, getKeyE cur (.str p.1) = .ok (some p.2)) →
          keysNodup fs = true → wfFields fs = true →
          rCleanFieldsP P o st nv fs path = liftPure st path cur (rCleanFields nv fs cur)) := by
  refine rCleanP.mutual_induct P o
    (fun st nv old path => st.disableWrites = true →
      resolveAtE st.root path = .ok old → wfVal old = true →
        rCleanP P o st nv old path = liftPure st path old (rClean nv old))
    (fun st nv i es path => ∀ cur, st.disableWrites = true →
      resolveAtE st.root path = .ok cur →
        (∃ ai aes, cur = .arr ai aes) →
        (∀ j v, es.get? j = some v → v ≠ .undef →
          getKeyE cur (.idx (i + j)) = .ok (some v)) →
        wfElems es = true →
        rCleanElemsP P o st nv i es path = liftPure st path cur (rCleanElems nv i es cur))
    (fun st nv k ov path => ∀ cur, st.disableWrites = true →
      resolveAtE st.root path = .ok cur →
        isWrappable cur = true → getKeyE cur k = .ok (some ov) → wfVal ov = true →
        rCleanStepP P o st nv k ov path = liftPure st path cur (rCleanStep nv k ov cur))
    (fun st nv fs path => ∀ cur, st.disableWrites = true →
      resolveAtE st.root path = .ok cur →
        (∃ oi ofs, cur = .obj oi ofs) →
        (∀ p ∈ fs, getKeyE cur (.str p.1) = .ok (some p.2)) →
        keysNodup fs = true → wfFields fs = true →
        rCleanFieldsP P o st nv fs path = liftPure st path cur (rCleanFields nv fs cur))
    ?_ ?_ ?_ ?_ ?_ ?_ ?_ ?_ ?_
  · intro st nv path id fs ih hdw hres hwf
    rw [wfVal, Bool.and_eq_true] at hwf
    rw [rCleanP, rClean]
    refine ih _ hdw hres ⟨id, fs, rfl⟩ ?_ hwf.1 hwf.2
    intro p hp
    rw [getKeyE]
    rw [assocGet_of_mem_nodup fs p.1 p.2 hwf.1 hp]
  · intro st nv path id es ih hdw hres hwf
    rw [wfVal] at hwf
    rw [rCleanP, rClean]
    refine ih _ hdw hres ⟨id, es, rfl⟩ ?_ hwf
    intro j v hj hv
    rw [Nat.zero_add, getKeyE]
    rw [arrGet_of_get? es j v hj hv]
  · intro st nv old path h1 h2 hdw hres hwf
    rw [rCleanP]
    · rw [rClean]
      · exact (liftPure_self st path old hres).symm
      · exact h1
      · exact h2
    · exact h1
    · exact h2
  · intro st nv i path cur hdw hres harr hcap hwfe
    rw [rCleanElemsP, rCleanElems]
    exact (liftPure_self st path cur hres).symm
  · intro st nv i path rest ih cur hdw hres harr hcap hwfe
    exfalso
    rw [wfElems, Bool.and_eq_true] at hwfe
    rw [wfVal] at hwfe
    cases hwfe.1
  · intro st nv i path v rest hne ih1 ih2 cur hdw hres harr hcap hwfe
    obtain ⟨ai, aes, hc⟩ := harr
    subst hc
    have hwcur : isWrappable (JVal.arr ai aes) = true := rfl
    rw [wfElems, Bool.and_eq_true] at hwfe
    have hcapk : getKeyE (JVal.arr ai aes) (.idx i) = .ok (some v) := by
      have := hcap 0 v rfl (fun h => hne h)
      rwa [Nat.add_zero] at this
    have hstep := ih1 (JVal.arr ai aes) hdw hres hwcur hcapk hwfe.1
    rw [rCleanElemsP]
    · rw [rCleanElems]
      · cases hps : rCleanStep nv (JKey.idx i) v (JVal.arr ai aes) with
        | error e =>
            rw [hps] at hstep
            rw [liftPure_error] at hstep
            rw [hstep, error_bind, error_bind, liftPure_error]
        | ok cur1 =>
            rw [hps] at hstep
            rw [ok_bind]
            have hsc := rCleanStep_sameCtor nv (JKey.idx i) v (JVal.arr ai aes) cur1
              hwcur hps
            have hw1 : isWrappable cur1 = true := (sameCtorId_wrappable hsc).2
            obtain ⟨r1, hrep⟩ :=
              replace_ok path st.root (JVal.arr ai aes) hres hwcur cur1
            have hstep' : rCleanStepP P o st nv (JKey.idx i) v path
                = .ok { st with root := r1 } := by
              rw [hstep, liftPure_ok, if_pos hwcur, hrep]
            have hres1 := (resolve_replace path st.root (JVal.arr ai aes) cur1 r1
              hres hwcur hw1 hrep).1
            obtain ⟨aes1, hc1⟩ := sameCtorId_arr ai aes cur1 hsc
            have hcap1 : ∀ j w, rest.get? j = some w → w ≠ .undef →
                getKeyE cur1 (.idx ((i + 1) + j)) = .ok (some w) := by
              intro j w hj hw'
              have hprev := hcap (j + 1) w (by simpa using hj) hw'
              have hfr := rCleanStep_frame_arr nv i v ai aes cur1 hps
                ((i + 1) + j) (by omega)
              rw [hfr]
              rw [show (i + 1) + j = i + (j + 1) by omega]
              exact hprev
            have hcont := ih2 { st with root := r1 } cur1 hdw hres1
              ⟨ai, aes1, hc1⟩ hcap1 hwfe.2
            rw [hstep', ok_bind, hcont]
            exact liftPure_shift st path (JVal.arr ai aes) cur1 r1 hres hwcur hw1 hrep _
      · exact hne
    · exact hne
  · intro st nv k ov path ih cur hdw hres hwcur hcapk hwfov
    rw [rCleanStepP, rCleanStep]
    cases hnk : getKeyE nv k with
    | error e =>
        rw [error_bind, error_bind, liftPure_error]
    | ok nvk? =>
        rw [ok_bind, ok_bind]
        cases nvk? with
        | none =>
            simp only []
            rw [delAtPath_factor path st.root cur k hres]
            rw [liftPure_ok, if_pos hwcur]
            cases hR : replaceAtE st.root path (delKey cur k) with
            | error e => rw [error_bind]
            | ok r => rw [ok_bind]
        | some nvv =>
            simp only []
            by_cases hto : isTypeofObject ov = true
            · rw [if_pos hto, if_pos hto]
              have hres2 : resolveAtE st.root (path ++ [k]) = .ok ov := by
                rw [resolve_snoc path k st.root, hres, ok_bind, hcapk, ok_bind]
                rfl
              have hrc := ih nvv hdw hres2 hwfov
              rw [hrc]
              by_cases hwo : isWrappable ov = true
              · rw [if_pos hwo]
                cases hcl : rClean nvv ov with
                | error e =>
                    rw [liftPure_error, error_bind, liftPure_error]
                | ok ov' =>
                    rw [ok_bind]
                    have hsn := replace_snoc path st.root cur k (some ov) ov' hres hcapk
                    cases hsk : setKeyE cur k ov' with
                    | error e =>
                        rw [hsk, error_bind] at hsn
                        rw [liftPure_ok, if_pos hwo, hsn, liftPure_error]
                    | ok cur1 =>
                        rw [hsk, ok_bind] at hsn
                        rw [liftPure_ok, if_pos hwo, hsn, liftPure_ok, if_pos hwcur]
              · rw [if_neg hwo]
                cases hcl : rClean nvv ov with
                | error e =>
                    rw [liftPure_error, error_bind, liftPure_error]
                | ok ov' =>
                    rw [ok_bind]
                    rw [liftPure_ok, if_neg hwo, liftPure_self st path cur hres]
            · rw [if_neg hto, if_neg hto]
              rw [liftPure_self st path cur hres]
  · intro st nv path cur hdw hres hobj hcap hnd hwff
    rw [rCleanFieldsP, rCleanFields]
    exact (liftPure_self st path cur hres).symm
  · intro st nv path a v rest ih1 ih2 cur hdw hres hobj hcap hnd hwff
    obtain ⟨oi, ofs, hc⟩ := hobj
    subst hc
    have hwcur : isWrappable (JVal.obj oi ofs) = true := rfl
    rw [keysNodup, Bool.and_eq_true, Bool.not_eq_true'] at hnd
    rw [wfFields, Bool.and_eq_true] at hwff
    have hcapk : getKeyE (JVal.obj oi ofs) (.str a) = .ok (some v) :=
      hcap (a, v) (List.mem_cons_self _ _)
    have hstep := ih1 (JVal.obj oi ofs) hdw hres hwcur hcapk hwff.1
    rw [rCleanFieldsP, rCleanFields]
    cases hps : rCleanStep nv (JKey.str a) v (JVal.obj oi ofs) with
    | error e =>
        rw [hps] at hstep
        rw [liftPure_error] at hstep
        rw [hstep, error_bind, error_bind, liftPure_error]
    | ok cur1 =>
        rw [hps] at hstep
        rw [ok_bind]
        have hsc := rCleanStep_sameCtor nv (JKey.str a) v (JVal.obj oi ofs) cur1
          hwcur hps
        have hw1 : isWrappable cur1 = true := (sameCtorId_wrappable hsc).2
        obtain ⟨r1, hrep⟩ := replace_ok path st.root (JVal.obj oi ofs) hres hwcur cur1
        have hstep' : rCleanStepP P o st nv (JKey.str a) v path
            = .ok { st with root := r1 } := by
          rw [hstep, liftPure_ok, if_pos hwcur, hrep]
        have hres1 := (resolve_replace path st.root (JVal.obj oi ofs) cur1 r1
          hres hwcur hw1 hrep).1
        obtain ⟨ofs1, hc1⟩ := sameCtorId_obj oi ofs cur1 hsc
        have hcap1 : ∀ p ∈ rest, getKeyE cur1 (.str p.1) = .ok (some p.2) := by
          intro p hp
          have hne := keys_any_false_ne rest a hnd.1 p hp
          have hfr := rCleanStep_frame_obj nv a v oi ofs cur1 hps p.1 hne
          rw [hfr]
          exact hcap p (List.mem_cons_of_mem _ hp)
        have hcont := ih2 { st with root := r1 } cur1 hdw hres1
          ⟨oi, ofs1, hc1⟩ hcap1 hnd.2 hwff.2
        rw [hstep', ok_bind, hcont]
        exact liftPure_shift st path (JVal.obj oi ofs) cur1 r1 hres hwcur hw1 hrep _

theorem wfFields_mem (fs : List (String × JVal)) (k : String) (v : JVal)
    (h : wfFields fs = true) (hm : (k, v) ∈ fs) : wfVal v = true := by
  induction fs with
  | nil => cases hm
  | cons p rest ih =>
      obtain ⟨a, b⟩ := p
      rw [wfFields, Bool.and_eq_true] at h
      rcases List.mem_cons.mp hm with hh | ht
      · injection hh with h1 h2
        subst h2
        exact h.1
      · exact ih h.2 ht

theorem wfElems_get (es : List JVal) (j : Nat) (v : JVal)
    (h : wfElems es = true) (hm : es.get? j = some v) : wfVal v = true := by
  induction es generalizing j with
  | nil => cases hm
  | cons a rest ih =>
      rw [wfElems, Bool.and_eq_true] at h
      cases j with
      | zero =>
          injection hm with hm
          subst hm
          exact h.1
      | succ j => exact ih j h.2 hm

theorem wfVal_at_key (v : JVal) (k : JKey) (w : JVal)
    (hwf : wfVal v = true) (hget : getKeyE v k = .ok (some w)) : wfVal w = true := by
  cases v with
  | obj i fs =>
      rw [wfVal, Bool.and_eq_true] at hwf
      cases k with
      | str s =>
          rw [getKeyE] at hget
          injection hget with hg
          exact wfFields_mem fs s w hwf.2 (assocGet_mem fs s w hg)
      | idx n =>
          rw [getKeyE] at hget
          injection hget with hg
          exact wfFields_mem fs _ w hwf.2 (assocGet_mem fs _ w hg)
  | arr i es =>
      rw [wfVal] at hwf
      cases k with
      | idx n =>
          rw [getKeyE] at hget
          injection hget with hg
          obtain ⟨_, _, hg2⟩ := arrGet_some es n w hg
          exact wfElems_get es n w hwf (by rw [List.get?_eq_getElem?]; exact hg2)
      | str s =>
          rw [getKeyE] at hget
          rcases hc : canonIdx s with _ | n
          · simp only [hc] at hget
            cases hget
          · simp only [hc] at hget
            injection hget with hg
            obtain ⟨_, _, hg2⟩ := arrGet_some es n w hg
            exact wfElems_get es n w hwf (by rw [List.get?_eq_getElem?]; exact hg2)
  | str s =>
      cases k with
      | idx n =>
          rw [getKeyE] at hget
          injection hget with hg
          rcases hcc : s.data.get? n with _ | c
          · rw [hcc] at hg; cases hg
          · rw [hcc] at hg
            injection hg with hg
            rw [← hg]
            rfl
      | str s' =>
          rw [getKeyE] at hget
          rcases hc : canonIdx s' with _ | n
          · simp only [hc] at hget
            cases hget
          · simp only [hc] at hget
            injection hget with hg
            rcases hcc : s.data.get? n with _ | c
            · rw [hcc] at hg; cases hg
            · rw [hcc] at hg
              injection hg with hg
              rw [← hg]
              rfl
  | null => cases hget
  | undef => cases hget
  | bool b => cases hget
  | num x => cases hget

theorem wfFields_assocSet (fs : List (String × JVal)) (k : String) (v : JVal)
    (h : wfFields fs = true) (hv : wfVal v = true) :
    wfFields (assocSet fs k v) = true := by
  induction fs with
  | nil =>
      rw [assocSet, wfFields, Bool.and_eq_true]
      exact ⟨hv, rfl⟩
  | cons p rest ih =>
      obtain ⟨a, b⟩ := p
      rw [wfFields, Bool.and_eq_true] at h
      rw [assocSet]
      by_cases ha : a = k
      · rw [if_pos ha, wfFields, Bool.and_eq_true]
        exact ⟨hv, h.2⟩
      · rw [if_neg ha, wfFields, Bool.and_eq_true]
        exact ⟨h.1, ih h.2⟩

theorem wfFields_assocDel (fs : List (String × JVal)) (k : String)
    (h : wfFields fs = true) : wfFields (assocDel fs k) = true := by
  induction fs with
  | nil => rw [assocDel]; exact h
  | cons p rest ih =>
      obtain ⟨a, b⟩ := p
      rw [wfFields, Bool.and_eq_true] at h
      rw [assocDel]
      by_cases ha : a = k
      · rw [if_pos ha]; exact h.2
      · rw [if_neg ha, wfFields, Bool.and_eq_true]
        exact ⟨h.1, ih h.2⟩

theorem wfElems_set (es : List JVal) (i : Nat) (v : JVal)
    (h : wfElems es = true) (hv : wfVal v = true) : wfElems (es.set i v) = true := by
  induction es generalizing i with
  | nil => exact h
  | cons a rest ih =>
      rw [wfElems, Bool.and_eq_true] at h
      cases i with
      | zero =>
          rw [List.set, wfElems, Bool.and_eq_true]
          exact ⟨hv, h.2⟩
      | succ i =>
          rw [List.set, wfElems, Bool.and_eq_true]
          exact ⟨h.1, ih i h.2⟩

theorem wfElems_append (as bs : List JVal) (ha : wfElems as = true)
    (hb : wfElems bs = true) : wfElems (as ++ bs) = true := by
  induction as with
  | nil => simpa using hb
  | cons a rest ih =>
      rw [wfElems, Bool.and_eq_true] at ha
      rw [List.cons_append, wfElems, Bool.and_eq_true]
      exact ⟨ha.1, ih ha.2⟩

theorem wfElems_arrSet (es : List JVal) (i : Nat) (v : JVal)
    (h : wfElems es = true) (hv : wfVal v = true) (hi : i ≤ es.length) :
    wfElems (arrSet es i v) = true := by
  rw [arrSet]
  by_cases hlt : i < es.length
  · rw [if_pos hlt]
    exact wfElems_set es i v h hv
  · rw [if_neg hlt]
    have : i = es.length := by omega
    subst this
    rw [Nat.sub_self, List.replicate_zero, List.append_nil]
    refine wfElems_append es [v] h ?_
    rw [wfElems, Bool.and_eq_true]
    exact ⟨hv, rfl⟩

theorem getKeyE_setKeyE_obj_self (oi : Nat) (ofs : List (String × JVal))
    (s : String) (v : JVal) :
    getKeyE (.obj oi (assocSet ofs s v)) (.str s) = .ok (some v) := by
  rw [getKeyE, assocGet_assocSet_self]

theorem getKeyE_setKeyE_arr_self (ai : Nat) (aes : List JVal) (i : Nat)
    (v : JVal) (hv : v ≠ .undef) :
    getKeyE (.arr ai (arrSet aes i v)) (.idx i) = .ok (some v) := by
  rw [getKeyE, arrGet_arrSet_self aes i v hv]

theorem rSetStep_frame_obj (a : String) (sv : JVal) (oi : Nat)
    (ofs : List (String × JVal)) (cur1 : JVal)
    (h : rSetStep (JKey.str a) sv (.obj oi ofs) = .ok cur1) :
    ∀ s, s ≠ a → getKeyE cur1 (.str s) = getKeyE (.obj oi ofs) (.str s) := by
  intro s hs
  rw [rSetStep] at h
  by_cases hto : isTypeofObject sv = true
  · rw [if_pos hto, ebind_ok_iff] at h
    obtain ⟨oldk, hget, h⟩ := h
    cases oldk with
    | none =>
        rw [show setKeyE (.obj oi ofs) (JKey.str a) sv
            = .ok (.obj oi (assocSet ofs a sv)) from rfl] at h
        injection h with h
        rw [← h]
        exact getKeyE_setKeyE_obj_ne oi ofs a s sv hs
    | some ov =>
        simp only [] at h
        by_cases hwo : isWrappable ov = true
        · rw [if_pos hwo, ebind_ok_iff] at h
          obtain ⟨ov', _, hset⟩ := h
          rw [show setKeyE (.obj oi ofs) (JKey.str a) ov'
              = .ok (.obj oi (assocSet ofs a ov')) from rfl] at hset
          injection hset with hset
          rw [← hset]
          exact getKeyE_setKeyE_obj_ne oi ofs a s ov' hs
        · rw [if_neg hwo, ebind_ok_iff] at h
          obtain ⟨_, _, h⟩ := h
          injection h with h
          rw [← h]
  · rw [if_neg hto] at h
    rw [show setKeyE (.obj oi ofs) (JKey.str a) sv
        = .ok (.obj oi (assocSet ofs a sv)) from rfl] at h
    injection h with h
    rw [← h]
    exact getKeyE_setKeyE_obj_ne oi ofs a s sv hs

theorem rSetStep_frame_arr (i : Nat) (sv : JVal) (ai : Nat)
    (aes : List JVal) (cur1 : JVal)
    (h : rSetStep (JKey.idx i) sv (.arr ai aes) = .ok cur1) :
    ∀ m, m ≠ i → getKeyE cur1 (.idx m) = getKeyE (.arr ai aes) (.idx m) := by
  intro m hm
  rw [rSetStep] at h
  by_cases hto : isTypeofObject sv = true
  · rw [if_pos hto, ebind_ok_iff] at h
    obtain ⟨oldk, hget, h⟩ := h
    cases oldk with
    | none =>
        rw [show setKeyE (.arr ai aes) (JKey.idx i) sv
            = .ok (.arr ai (arrSet aes i sv)) from rfl] at h
        injection h with h
        rw [← h]
        exact getKeyE_setKeyE_arr_ne ai aes i m sv hm
    | some ov =>
        simp only [] at h
        by_cases hwo : isWrappable ov = true
        · rw [if_pos hwo, ebind_ok_iff] at h
          obtain ⟨ov', _, hset⟩ := h
          rw [show setKeyE (.arr ai aes) (JKey.idx i) ov'
              = .ok (.arr ai (arrSet aes i ov')) from rfl] at hset
          injection hset with hset
          rw [← hset]
          exact getKeyE_setKeyE_arr_ne ai aes i m ov' hm
        · rw [if_neg hwo, ebind_ok_iff] at h
          obtain ⟨_, _, h⟩ := h
          injection h with h
          rw [← h]
  · rw [if_neg hto] at h
    rw [show setKeyE (.arr ai aes) (JKey.idx i) sv
        = .ok (.arr ai (arrSet aes i sv)) from rfl] at h
    injection h with h
    rw [← h]
    exact getKeyE_setKeyE_arr_ne ai aes i m sv hm

theorem appliedFields_get (sfs lfs : List (String × JVal)) (k : String)
    (sv lv : JVal) (h : appliedFields sfs lfs = true)
    (hs : assocGet sfs k = some sv) (hl : assocGet lfs k = some lv) :
    applied sv lv = true := by
  induction sfs with
  | nil => cases hs
  | cons p rest ih =>
      obtain ⟨a, b⟩ := p
      rw [appliedFields, Bool.and_eq_true] at h
      rw [assocGet] at hs
      by_cases ha : a = k
      · rw [if_pos ha] at hs
        injection hs with hs
        subst hs
        subst ha
        obtain ⟨h1, _⟩ := h
        rw [hl] at h1
        exact h1
      · rw [if_neg ha] at hs
        exact ih h.2 hs

theorem appliedElems_get (ses les : List JVal) (j : Nat) (sv lv : JVal)
    (h : appliedElems ses les = true) (hs : ses.get? j = some sv)
    (hl : les.get? j = some lv) : applied sv lv = true := by
  induction ses generalizing les j with
  | nil => cases hs
  | cons a rest ih =>
      cases les with
      | nil => rw [appliedElems] at h; cases h
      | cons b ls =>
          rw [appliedElems, Bool.and_eq_true] at h
          cases j with
          | zero =>
              injection hs with hs
              injection hl with hl
              subst hs; subst hl
              exact h.1
          | succ j => exact ih ls j h.2 hs hl

theorem compatFields_get (sfs lfs : List (String × JVal)) (k : String)
    (sv lv : JVal) (h : compatFields sfs lfs = true)
    (hs : assocGet sfs k = some sv) (hl : assocGet lfs k = some lv) :
    compat sv lv = true := by
  induction sfs with
  | nil => cases hs
  | cons p rest ih =>
      obtain ⟨a, b⟩ := p
      rw [compatFields, Bool.and_eq_true] at h
      rw [assocGet] at hs
      by_cases ha : a = k
      · rw [if_pos ha] at hs
        injection hs with hs
        subst hs
        subst ha
        obtain ⟨h1, _⟩ := h
        rw [hl] at h1
        exact h1
      · rw [if_neg ha] at hs
        exact ih h.2 hs

theorem compatElems_get (ses les : List JVal) (j : Nat) (sv lv : JVal)
    (h : compatElems ses les = true) (hs : ses.get? j = some sv)
    (hl : les.get? j = some lv) : compat sv lv = true := by
  induction ses generalizing les j with
  | nil => cases hs
  | cons a rest ih =>
      cases les with
      | nil => cases hl
      | cons b ls =>
          rw [compatElems, Bool.and_eq_true] at h
          cases j with
          | zero =>
              injection hs with hs
              injection hl with hl
              subst hs; subst hl
              exact h.1
          | succ j => exact ih ls j h.2 hs hl

theorem compatElems_length (ses les : List JVal)
    (h : compatElems ses les = true) : les.length ≤ ses.length := by
  induction ses generalizing les with
  | nil =>
      cases les with
      | nil => exact Nat.le_refl 0
      | cons b ls => rw [compatElems] at h; cases h
  | cons a rest ih =>
      cases les with
      | nil => exact Nat.zero_le _
      | cons b ls =>
          rw [compatElems, Bool.and_eq_true] at h
          have := ih ls h.2
          simpa using Nat.succ_le_succ this

theorem arrGet_wf_get (es : List JVal) (j : Nat) (h : wfElems es = true) :
    arrGet es j = es.get? j := by
  rcases hj : es.get? j with _ | v
  · rw [arrGet, hj]
  · have hv := wfElems_get es j v h hj
    have hvu : v ≠ .undef := by
      intro hc
      subst hc
      rw [wfVal] at hv
      cases hv
    exact arrGet_of_get? es j v hj hvu

theorem deepEqFields_of_pointwise (afs bfs : List (String × JVal))
    (h : ∀ p ∈ afs, ∃ w, assocGet bfs p.1 = some w ∧ deepEq p.2 w = true) :
    deepEqFields afs bfs = true := by
  induction afs with
  | nil => rfl
  | cons p rest ih =>
      obtain ⟨a, b⟩ := p
      obtain ⟨w, hw, hd⟩ := h (a, b) (List.mem_cons_self _ _)
      rw [deepEqFields, Bool.and_eq_true, hw]
      exact ⟨hd, ih (fun q hq => h q (List.mem_cons_of_mem _ hq))⟩

theorem deepEqElems_of_pointwise (as bs : List JVal)
    (hlen : as.length = bs.length)
    (h : ∀ j a b, as.get? j = some a → bs.get? j = some b → deepEq a b = true) :
    deepEqElems as bs = true := by
  induction as generalizing bs with
  | nil =>
      cases bs with
      | nil => rfl
      | cons b ls => cases hlen
  | cons a rest ih =>
      cases bs with
      | nil => cases hlen
      | cons b ls =>
          rw [deepEqElems, Bool.and_eq_true]
          refine ⟨h 0 a b rfl rfl, ih ls (by simpa using hlen) ?_⟩
          intro j x y hx hy
          exact h (j + 1) x y (by simpa using hx) (by simpa using hy)

theorem applied_refl :
    (∀ v : JVal, wfVal v = true → applied v v = true) ∧
    (∀ es : List JVal, wfElems es = true → appliedElems es es = true) ∧
    (∀ fs : List (String × JVal), wfFields fs = true →
      ∀ lfs, (∀ p ∈ fs, assocGet lfs p.1 = some p.2) →
        appliedFields fs lfs = true) := by
  refine wfVal.mutual_induct
    (fun v => wfVal v = true → applied v v = true)
    (fun es => wfElems es = true → appliedElems es es = true)
    (fun fs => wfFields fs = true →
      ∀ lfs, (∀ p ∈ fs, assocGet lfs p.1 = some p.2) →
        appliedFields fs lfs = true)
    ?_ ?_ ?_ ?_ ?_ ?_ ?_ ?_
  · intro id fs ih hwf
    rw [wfVal, Bool.and_eq_true] at hwf
    rw [applied]
    exact ih hwf.2 fs (fun p hp => assocGet_of_mem_nodup fs p.1 p.2 hwf.1 hp)
  · intro id es ih hwf
    rw [wfVal] at hwf
    rw [applied, Bool.and_eq_true]
    exact ⟨by simp, ih hwf⟩
  · intro hwf
    rw [wfVal] at hwf
    cases hwf
  · intro t h1 h2 h3 hwf
    cases t with
    | null => rfl
    | bool b => rw [applied] <;> simp [deepEq]
    | num n => rw [applied] <;> simp [deepEq]
    | str s => rw [applied] <;> simp [deepEq]
    | undef => exact absurd rfl h3
    | arr id es => exact absurd rfl (h2 id es)
    | obj id fs => exact absurd rfl (h1 id fs)
  · intro _
    rfl
  · intro v rest ihv ihr hwf
    rw [wfElems, Bool.and_eq_true] at hwf
    rw [appliedElems, Bool.and_eq_true]
    exact ⟨ihv hwf.1, ihr hwf.2⟩
  · intro _ lfs _
    rfl
  · intro k v rest ihv ihr hwf lfs hget
    rw [wfFields, Bool.and_eq_true] at hwf
    rw [appliedFields, Bool.and_eq_true]
    rw [hget (k, v) (List.mem_cons_self _ _)]
    exact ⟨ihv hwf.1, ihr hwf.2 lfs (fun p hp => hget p (List.mem_cons_of_mem _ hp))⟩

theorem wf_ne_undef {v : JVal} (h : wfVal v = true) : v ≠ .undef := by
  intro hc
  subst hc
  rw [wfVal] at h
  cases h

theorem appliedFields_of_pointwise (sfs mfs : List (String × JVal))
    (h : ∀ p ∈ sfs, ∃ mv, assocGet mfs p.1 = some mv ∧ applied p.2 mv = true) :
    appliedFields sfs mfs = true := by
  induction sfs with
  | nil => rfl
  | cons p rest ih =>
      obtain ⟨a, b⟩ := p
      obtain ⟨mv, hmv, ha⟩ := h (a, b) (List.mem_cons_self _ _)
      rw [appliedFields, Bool.and_eq_true, hmv]
      exact ⟨ha, ih (fun q hq => h q (List.mem_cons_of_mem _ hq))⟩

theorem appliedElems_of_pointwise (ses : List JVal) :
    ∀ mes : List JVal,
      (∀ j sv, ses.get? j = some sv → ∃ mv, mes.get? j = some mv ∧ applied sv mv = true) →
      ses.length ≤ mes.length →
      appliedElems ses mes = true := by
  induction ses with
  | nil => intro mes _ _; rfl
  | cons a rest ih =>
      intro mes h hlen
      cases mes with
      | nil => cases hlen
      | cons b ms =>
          obtain ⟨mv, hmv, ha⟩ := h 0 a rfl
          injection hmv with hmv
          subst hmv
          rw [appliedElems, Bool.and_eq_true]
          refine ⟨ha, ih ms ?_ (by simpa using hlen)⟩
          intro j sv hj
          exact h (j + 1) sv (by simpa using hj)

theorem rSet_null (ov : JVal) : rSet .null ov = .ok ov := by
  rw [rSet]
  · intro id fs h; cases h
  · intro id es h; cases h

/-- **Apply-pass characterization**: on kind-compatible, well-formed data the
Apply pass succeeds, mutates the live node in place (same constructor and
identity), keeps it well-formed, establishes `applied`, and at every key
whose snapshot and live values are both wrappable stores exactly the
recursive `rSet` result. -/
theorem rSet_applies :
    (∀ nv old, applyFacts nv old) ∧
    (∀ i es old, applyElemsFacts i es old) ∧
    (∀ k nvk old, applyStepFacts k nvk old) ∧
    (∀ fs old, applyFieldsFacts fs old) := by
  refine rSet.mutual_induct applyFacts applyElemsFacts applyStepFacts applyFieldsFacts
    ?_ ?_ ?_ ?_ ?_ ?_ ?_ ?_ ?_ ?_
  · -- rSet on an object snapshot
    intro old id sfs ih hto hc hwfn hwfo
    cases old with
    | obj oi ofs =>
        rw [wfVal, Bool.and_eq_true] at hwfn
        rw [compat] at hc
        have hcf : ∀ p ∈ sfs, ∀ lv,
            getKeyE (JVal.obj oi ofs) (.str p.1) = .ok (some lv) →
              compat p.2 lv = true := by
          intro p hp lv hg
          rw [getKeyE] at hg
          injection hg with hg
          exact compatFields_get sfs ofs p.1 p.2 lv hc
            (assocGet_of_mem_nodup sfs p.1 p.2 hwfn.1 hp) hg
        obtain ⟨mid, h1, h2, h3, h4, h5⟩ := ih ⟨oi, ofs, rfl⟩ hcf hwfn.1 hwfn.2 hwfo
        refine ⟨mid, ?_, Or.inr h2, h3, ?_, ?_⟩
        · rw [rSet]; exact h1
        · obtain ⟨mfs, hmid⟩ := sameCtorId_obj oi ofs mid h2
          subst hmid
          rw [applied]
          apply appliedFields_of_pointwise
          intro p hp
          obtain ⟨mv, hmv, ha, _⟩ := h4 p hp
          rw [getKeyE] at hmv
          injection hmv with hmv
          exact ⟨mv, hmv, ha⟩
        · intro kk sv lv hgn hsvto hgo hwl
          obtain ⟨mfs, hmid⟩ := sameCtorId_obj oi ofs mid h2
          cases kk with
          | str s =>
              rw [getKeyE] at hgn
              injection hgn with hgn
              obtain ⟨mv, hmv, _, hex⟩ := h4 (s, sv) (assocGet_mem sfs s sv hgn)
              exact ⟨mv, hmv, hex lv hsvto hgo hwl⟩
          | idx n =>
              rw [getKeyE] at hgn
              injection hgn with hgn
              obtain ⟨mv, hmv, _, hex⟩ := h4 (Nat.repr n, sv)
                (assocGet_mem sfs _ sv hgn)
              subst hmid
              exact ⟨mv, hmv, hex lv hsvto hgo hwl⟩
    | null =>
        rw [compat] at hc
        · cases hc
        · intro a2 b2 h2x; cases h2x
    | undef =>
        rw [compat] at hc
        · cases hc
        · intro a2 b2 h2x; cases h2x
    | bool b =>
        rw [compat] at hc
        · cases hc
        · intro a2 b2 h2x; cases h2x
    | num x =>
        rw [compat] at hc
        · cases hc
        · intro a2 b2 h2x; cases h2x
    | str s =>
        rw [compat] at hc
        · cases hc
        · intro a2 b2 h2x; cases h2x
    | arr ai aes =>
        rw [compat] at hc
        · cases hc
        · intro a2 b2 h2x; cases h2x
  · -- rSet on an array snapshot
    intro old id ses ih hto hc hwfn hwfo
    cases old with
    | arr ai aes =>
        rw [wfVal] at hwfn
        rw [compat] at hc
        have hlen0 := compatElems_length ses aes hc
        have hce : ∀ j sv, ses.get? j = some sv → ∀ lv,
            getKeyE (JVal.arr ai aes) (.idx (0 + j)) = .ok (some lv) →
              compat sv lv = true := by
          intro j sv hj lv hg
          rw [Nat.zero_add, getKeyE] at hg
          injection hg with hg
          obtain ⟨_, _, hg2⟩ := arrGet_some aes j lv hg
          exact compatElems_get ses aes j sv lv hc hj
            (by rw [List.get?_eq_getElem?]; exact hg2)
        obtain ⟨mid, h1, h2, h3, hlenc, h4, h5⟩ :=
          ih ⟨ai, aes, rfl, Nat.zero_le _, by omega⟩ hce hwfn hwfo
        refine ⟨mid, ?_, Or.inr h2, h3, ?_, ?_⟩
        · rw [rSet]; exact h1
        · obtain ⟨mes2, hmid2⟩ := sameCtorId_arr ai aes mid h2
          obtain ⟨ai', mes, hmid, hmlen⟩ := hlenc
          have hmm : mes2 = mes := by
            rw [hmid2] at hmid
            injection hmid with _ hmm
          subst hmid2
          have hml : mes2.length = ses.length := by
            rw [hmm, hmlen, Nat.zero_add]
          rw [applied, Bool.and_eq_true]
          constructor
          · simp [hml]
          · refine appliedElems_of_pointwise ses mes2 ?_ (by omega)
            intro j sv hj
            obtain ⟨mv, hmv, ha, _⟩ := h4 j sv hj
            rw [Nat.zero_add, getKeyE] at hmv
            injection hmv with hmv
            obtain ⟨_, _, hg2⟩ := arrGet_some mes2 j mv hmv
            exact ⟨mv, by rw [List.get?_eq_getElem?]; exact hg2, ha⟩
        · intro kk sv lv hgn hsvto hgo hwl
          cases kk with
          | idx n =>
              rw [getKeyE] at hgn
              injection hgn with hgn
              obtain ⟨_, _, hg2⟩ := arrGet_some ses n sv hgn
              obtain ⟨mv, hmv, _, hex⟩ := h4 n sv
                (by rw [List.get?_eq_getElem?]; exact hg2)
              rw [Nat.zero_add] at hmv
              refine ⟨mv, hmv, hex lv hsvto ?_ hwl⟩
              rwa [Nat.zero_add]
          | str s =>
              rw [getKeyE] at hgn
              rcases hci : canonIdx s with _ | n
              · simp only [hci] at hgn
                injection hgn with hgn
                cases hgn
              · simp only [hci] at hgn
                injection hgn with hgn
                obtain ⟨_, _, hg2⟩ := arrGet_some ses n sv hgn
                obtain ⟨mv, hmv, _, hex⟩ := h4 n sv
                  (by rw [List.get?_eq_getElem?]; exact hg2)
                rw [Nat.zero_add] at hmv
                obtain ⟨mes2, hmid2⟩ := sameCtorId_arr ai aes mid h2
                subst hmid2
                refine ⟨mv, ?_, ?_⟩
                · have hred : getKeyE (JVal.arr ai mes2) (JKey.str s)
                      = Except.ok (arrGet mes2 n) := by
                    rw [getKeyE, hci]
                  rw [hred]
                  exact hmv
                · refine hex lv hsvto ?_ hwl
                  rw [Nat.zero_add]
                  have hred : getKeyE (JVal.arr ai aes) (JKey.str s)
                      = Except.ok (arrGet aes n) := by
                    rw [getKeyE, hci]
                  rw [hred] at hgo
                  exact hgo
    | null =>
        rw [compat] at hc
        · cases hc
        · intro a2 b2 h2x; cases h2x
    | undef =>
        rw [compat] at hc
        · cases hc
        · intro a2 b2 h2x; cases h2x
    | bool b =>
        rw [compat] at hc
        · cases hc
        · intro a2 b2 h2x; cases h2x
    | num x =>
        rw [compat] at hc
        · cases hc
        · intro a2 b2 h2x; cases h2x
    | str s =>
        rw [compat] at hc
        · cases hc
        · intro a2 b2 h2x; cases h2x
    | obj oi ofs =>
        rw [compat] at hc
        · cases hc
        · intro a2 b2 h2x; cases h2x
  · -- rSet on a non-object snapshot (only null has typeof "object")
    intro nv old h1 h2 hto hc hwfn hwfo
    cases nv with
    | null =>
        have hold : old = .null := by
          cases old <;> rw [compat] at hc <;> simp_all
        subst hold
        refine ⟨.null, rSet_null .null, Or.inl rfl, hwfo, rfl, ?_⟩
        intro kk sv lv hgn
        rw [getKeyE] at hgn
        cases hgn
    | bool b => simp [isTypeofObject] at hto
    | num x => simp [isTypeofObject] at hto
    | str s => simp [isTypeofObject] at hto
    | undef => simp [isTypeofObject] at hto
    | obj id fs => exact absurd rfl (h1 id fs)
    | arr id es => exact absurd rfl (h2 id es)
  · -- elems: nil
    intro i old harr hce hwfe hwfo
    obtain ⟨ai, aes, hold, hle, hge⟩ := harr
    subst hold
    refine ⟨.arr ai aes, ?_, sameCtorId_refl rfl, hwfo,
      ⟨ai, aes, rfl, by simp at hge ⊢; omega⟩, ?_, ?_⟩
    · rw [rSetElems]
    · intro j sv hj; cases hj
    · intro m _; rfl
  · -- elems: hole in the snapshot (excluded by well-formedness)
    intro i old rest ih harr hce hwfe hwfo
    exfalso
    rw [wfElems, Bool.and_eq_true, wfVal] at hwfe
    cases hwfe.1
  · -- elems: cons
    intro i old v rest hne ihstep ihrest harr hce hwfe hwfo
    obtain ⟨ai, aes, hold, hle, hge⟩ := harr
    subst hold
    rw [wfElems, Bool.and_eq_true] at hwfe
    have hcek : ∀ lv, getKeyE (JVal.arr ai aes) (.idx i) = .ok (some lv) →
        compat v lv = true := by
      intro lv hg
      exact hce 0 v rfl lv (by rwa [Nat.add_zero])
    obtain ⟨cur1, hs1, hctor1, hwf1, hlen1, mv, hmv, happ, hex⟩ :=
      ihstep (Or.inr ⟨ai, aes, i, rfl, rfl, hle⟩) hcek hwfe.1 hwfo
    obtain ⟨aes1, hcur1, hlen1'⟩ := hlen1 ai aes i rfl rfl
    subst hcur1
    have hmvlt : i < aes1.length := by
      rw [getKeyE] at hmv
      injection hmv with hmv
      exact (arrGet_some aes1 i mv hmv).1
    have hgex : aes.length ≤ i + (rest.length + 1) := by
      simpa using hge
    have harr1 : ∃ ai' aes', (JVal.arr ai aes1) = JVal.arr ai' aes' ∧
        i + 1 ≤ aes'.length ∧ aes'.length ≤ (i + 1) + rest.length :=
      ⟨ai, aes1, rfl, by omega, by omega⟩
    have hce1 : ∀ j sv, rest.get? j = some sv → ∀ lv,
        getKeyE (JVal.arr ai aes1) (.idx ((i + 1) + j)) = .ok (some lv) →
          compat sv lv = true := by
      intro j sv hj lv hg
      have hfr := rSetStep_frame_arr i v ai aes (JVal.arr ai aes1) hs1
        ((i + 1) + j) (by omega)
      rw [hfr] at hg
      refine hce (j + 1) sv (by simpa using hj) lv ?_
      rwa [show i + (j + 1) = (i + 1) + j by omega]
    obtain ⟨mid, hm1, hm2, hm3, hm4, hm5, hm6⟩ :=
      ihrest (JVal.arr ai aes1) harr1 hce1 hwfe.2 hwf1
    refine ⟨mid, ?_, sameCtorId_trans hctor1 hm2, hm3, ?_, ?_, ?_⟩
    · rw [rSetElems]
      · rw [hs1, ok_bind]
        exact hm1
      · exact hne
    · obtain ⟨ai', mes, hm, hl⟩ := hm4
      refine ⟨ai', mes, hm, ?_⟩
      rw [hl]
      simp
      omega
    · intro j sv hj
      cases j with
      | zero =>
          injection hj with hj
          subst hj
          refine ⟨mv, ?_, happ, ?_⟩
          · rw [Nat.add_zero, hm6 i (by omega)]
            exact hmv
          · intro lv ha1 ha2 ha3
            exact hex lv ha1 (by rwa [Nat.add_zero] at ha2) ha3
      | succ j =>
          obtain ⟨mv2, hmv2, happ2, hex2⟩ := hm5 j sv (by simpa using hj)
          refine ⟨mv2, ?_, happ2, ?_⟩
          · rwa [show i + (j + 1) = (i + 1) + j by omega]
          · intro lv ha1 ha2 ha3
            have hfr := rSetStep_frame_arr i v ai aes (JVal.arr ai aes1) hs1
              ((i + 1) + j) (by omega)
            refine hex2 lv ha1 ?_ ha3
            rw [hfr]
            rwa [show i + (j + 1) = (i + 1) + j by omega] at ha2
    · intro m hm
      rw [hm6 m (by omega)]
      exact rSetStep_frame_arr i v ai aes (JVal.arr ai aes1) hs1 m (by omega)
  · -- step: snapshot value of typeof "object"
    intro k nvk old hto ihv hkey hck hwfn hwfo
    rcases hkey with ⟨oi, ofs, s, hold, hk⟩ | ⟨ai, aes, m, hold, hk, hmle⟩
    · subst hold
      subst hk
      rcases hga : assocGet ofs s with _ | lv
      · have hstep : rSetStep (.str s) nvk (.obj oi ofs)
            = .ok (.obj oi (assocSet ofs s nvk)) := by
          rw [rSetStep, if_pos hto]
          rw [show getKeyE (.obj oi ofs) (.str s) = .ok (assocGet ofs s) from rfl,
            ok_bind, hga]
          rfl
        refine ⟨_, hstep, by simp [sameCtorId], ?_, ?_, nvk,
          getKeyE_setKeyE_obj_self oi ofs s nvk, applied_refl.1 nvk hwfn, ?_⟩
        · rw [wfVal, Bool.and_eq_true] at hwfo ⊢
          exact ⟨keysNodup_assocSet ofs s nvk hwfo.1,
            wfFields_assocSet ofs s nvk hwfo.2 hwfn⟩
        · intro ai aes m h _
          cases h
        · intro lv _ hg _
          rw [getKeyE] at hg
          injection hg with hg
          rw [hga] at hg
          cases hg
      · have hglv : getKeyE (.obj oi ofs) (.str s) = .ok (some lv) := by
          rw [getKeyE, hga]
        have hcompat := hck lv hglv
        have hwflv := wfVal_at_key _ _ _ hwfo hglv
        obtain ⟨mid_s, hrs, _, hwfm, happm, _⟩ := ihv lv hto hcompat hwfn hwflv
        by_cases hwl : isWrappable lv = true
        · have hstep : rSetStep (.str s) nvk (.obj oi ofs)
              = .ok (.obj oi (assocSet ofs s mid_s)) := by
            rw [rSetStep, if_pos hto]
            rw [show getKeyE (.obj oi ofs) (.str s) = .ok (assocGet ofs s) from rfl,
              ok_bind, hga]
            simp only []
            rw [if_pos hwl, hrs, ok_bind]
            rfl
          refine ⟨_, hstep, by simp [sameCtorId], ?_, ?_, mid_s,
            getKeyE_setKeyE_obj_self oi ofs s mid_s, happm, ?_⟩
          · rw [wfVal, Bool.and_eq_true] at hwfo ⊢
            exact ⟨keysNodup_assocSet ofs s mid_s hwfo.1,
              wfFields_assocSet ofs s mid_s hwfo.2 hwfm⟩
          · intro ai aes m h _
            cases h
          · intro lv2 _ hg2 _
            rw [getKeyE] at hg2
            injection hg2 with hg2
            rw [hga] at hg2
            injection hg2 with hg2
            subst hg2
            exact hrs
        · have hnn : nvk = .null := by
            cases nvk with
            | null => rfl
            | obj i2 fs2 =>
                exfalso
                cases lv <;> rw [compat] at hcompat <;> simp_all [isWrappable]
            | arr i2 es2 =>
                exfalso
                cases lv <;> rw [compat] at hcompat <;> simp_all [isWrappable]
            | bool b => simp [isTypeofObject] at hto
            | num x => simp [isTypeofObject] at hto
            | str s2 => simp [isTypeofObject] at hto
            | undef => simp [isTypeofObject] at hto
          subst hnn
          have hln : lv = .null := by
            cases lv <;> rw [compat] at hcompat <;> simp_all [isWrappable]
          subst hln
          have hstep : rSetStep (.str s) .null (.obj oi ofs) = .ok (.obj oi ofs) := by
            rw [rSetStep, if_pos hto]
            rw [show getKeyE (.obj oi ofs) (.str s) = .ok (assocGet ofs s) from rfl,
              ok_bind, hga]
            simp only []
            rw [if_neg hwl, rSet_null, ok_bind]
          refine ⟨_, hstep, sameCtorId_refl rfl, hwfo, ?_, .null, hglv, rfl, ?_⟩
          · intro ai aes m h _
            cases h
          · intro lv2 _ hg2 hwl2
            rw [getKeyE] at hg2
            injection hg2 with hg2
            rw [hga] at hg2
            injection hg2 with hg2
            subst hg2
            simp [isWrappable] at hwl2
    · subst hold
      subst hk
      rcases hga : arrGet aes m with _ | lv
      · have hstep : rSetStep (.idx m) nvk (.arr ai aes)
            = .ok (.arr ai (arrSet aes m nvk)) := by
          rw [rSetStep, if_pos hto]
          rw [show getKeyE (.arr ai aes) (.idx m) = .ok (arrGet aes m) from rfl,
            ok_bind, hga]
          rfl
        refine ⟨_, hstep, by simp [sameCtorId], ?_, ?_, nvk,
          getKeyE_setKeyE_arr_self ai aes m nvk (wf_ne_undef hwfn),
          applied_refl.1 nvk hwfn, ?_⟩
        · rw [wfVal] at hwfo ⊢
          exact wfElems_arrSet aes m nvk hwfo hwfn hmle
        · intro ai2 aes2 m2 h hk2
          injection h with h1 h2
          injection hk2 with hk2
          subst h1; subst h2; subst hk2
          exact ⟨arrSet aes m nvk, rfl, by rw [arrSet_length]⟩
        · intro lv _ hg _
          rw [getKeyE] at hg
          injection hg with hg
          rw [hga] at hg
          cases hg
      · have hglv : getKeyE (.arr ai aes) (.idx m) = .ok (some lv) := by
          rw [getKeyE, hga]
        have hcompat := hck lv hglv
        have hwflv := wfVal_at_key _ _ _ hwfo hglv
        have hmlt : m < aes.length := (arrGet_some aes m lv hga).1
        obtain ⟨mid_s, hrs, _, hwfm, happm, _⟩ := ihv lv hto hcompat hwfn hwflv
        by_cases hwl : isWrappable lv = true
        · have hstep : rSetStep (.idx m) nvk (.arr ai aes)
              = .ok (.arr ai (arrSet aes m mid_s)) := by
            rw [rSetStep, if_pos hto]
            rw [show getKeyE (.arr ai aes) (.idx m) = .ok (arrGet aes m) from rfl,
              ok_bind, hga]
            simp only []
            rw [if_pos hwl, hrs, ok_bind]
            rfl
          refine ⟨_, hstep, by simp [sameCtorId], ?_, ?_, mid_s,
            getKeyE_setKeyE_arr_self ai aes m mid_s (wf_ne_undef hwfm), happm, ?_⟩
          · rw [wfVal] at hwfo ⊢
            exact wfElems_arrSet aes m mid_s hwfo hwfm (by omega)
          · intro ai2 aes2 m2 h hk2
            injection h with h1 h2
            injection hk2 with hk2
            subst h1; subst h2; subst hk2
            exact ⟨arrSet aes m mid_s, rfl, by rw [arrSet_length]⟩
          · intro lv2 _ hg2 _
            rw [getKeyE] at hg2
            injection hg2 with hg2
            rw [hga] at hg2
            injection hg2 with hg2
            subst hg2
            exact hrs
        · have hnn : nvk = .null := by
            cases nvk with
            | null => rfl
            | obj i2 fs2 =>
                exfalso
                cases lv <;> rw [compat] at hcompat <;> simp_all [isWrappable]
            | arr i2 es2 =>
                exfalso
                cases lv <;> rw [compat] at hcompat <;> simp_all [isWrappable]
            | bool b => simp [isTypeofObject] at hto
            | num x => simp [isTypeofObject] at hto
            | str s2 => simp [isTypeofObject] at hto
            | undef => simp [isTypeofObject] at hto
          subst hnn
          have hln : lv = .null := by
            cases lv <;> rw [compat] at hcompat <;> simp_all [isWrappable]
          subst hln
          have hstep : rSetStep (.idx m) .null (.arr ai aes) = .ok (.arr ai aes) := by
            rw [rSetStep, if_pos hto]
            rw [show getKeyE (.arr ai aes) (.idx m) = .ok (arrGet aes m) from rfl,
              ok_bind, hga]
            simp only []
            rw [if_neg hwl, rSet_null, ok_bind]
          refine ⟨_, hstep, sameCtorId_refl rfl, hwfo, ?_, .null, hglv, rfl, ?_⟩
          · intro ai2 aes2 m2 h hk2
            injection h with h1 h2
            injection hk2 with hk2
            subst h1; subst h2; subst hk2
            exact ⟨aes, rfl, by omega⟩
          · intro lv2 _ hg2 hwl2
            rw [getKeyE] at hg2
            injection hg2 with hg2
            rw [hga] at hg2
            injection hg2 with hg2
            subst hg2
            simp [isWrappable] at hwl2
  · -- step: scalar snapshot value
    intro k nvk old hto hkey hck hwfn hwfo
    rcases hkey with ⟨oi, ofs, s, hold, hk⟩ | ⟨ai, aes, m, hold, hk, hmle⟩
    · subst hold
      subst hk
      have hstep : rSetStep (.str s) nvk (.obj oi ofs)
          = .ok (.obj oi (assocSet ofs s nvk)) := by
        rw [rSetStep, if_neg hto]
        rfl
      refine ⟨_, hstep, by simp [sameCtorId], ?_, ?_, nvk,
        getKeyE_setKeyE_obj_self oi ofs s nvk, applied_refl.1 nvk hwfn, ?_⟩
      · rw [wfVal, Bool.and_eq_true] at hwfo ⊢
        exact ⟨keysNodup_assocSet ofs s nvk hwfo.1,
          wfFields_assocSet ofs s nvk hwfo.2 hwfn⟩
      · intro ai aes m h _
        cases h
      · intro lv h1 _ _
        exact absurd h1 hto
    · subst hold
      subst hk
      have hstep : rSetStep (.idx m) nvk (.arr ai aes)
          = .ok (.arr ai (arrSet aes m nvk)) := by
        rw [rSetStep, if_neg hto]
        rfl
      refine ⟨_, hstep, by simp [sameCtorId], ?_, ?_, nvk,
        getKeyE_setKeyE_arr_self ai aes m nvk (wf_ne_undef hwfn),
        applied_refl.1 nvk hwfn, ?_⟩
      · rw [wfVal] at hwfo ⊢
        exact wfElems_arrSet aes m nvk hwfo hwfn hmle
      · intro ai2 aes2 m2 h hk2
        injection h with h1 h2
        injection hk2 with hk2
        subst h1; subst h2; subst hk2
        exact ⟨arrSet aes m nvk, rfl, by rw [arrSet_length]⟩
      · intro lv h1 _ _
        exact absurd h1 hto
  · -- fields: nil
    intro old hobj hcf hnd hwff hwfo
    obtain ⟨oi, ofs, hold⟩ := hobj
    subst hold
    refine ⟨.obj oi ofs, ?_, sameCtorId_refl rfl, hwfo, ?_, ?_⟩
    · rw [rSetFields]
    · intro p hp; cases hp
    · intro s _; rfl
  · -- fields: cons
    intro old a sv rest ihstep ihrest hobj hcf hnd hwff hwfo
    obtain ⟨oi, ofs, hold⟩ := hobj
    subst hold
    rw [keysNodup, Bool.and_eq_true, Bool.not_eq_true'] at hnd
    rw [wfFields, Bool.and_eq_true] at hwff
    have hcek : ∀ lv, getKeyE (JVal.obj oi ofs) (.str a) = .ok (some lv) →
        compat sv lv = true :=
      fun lv hg => hcf (a, sv) (List.mem_cons_self _ _) lv hg
    obtain ⟨cur1, hs1, hctor1, hwf1, _, mv, hmv, happ, hex⟩ :=
      ihstep (Or.inl ⟨oi, ofs, a, rfl, rfl⟩) hcek hwff.1 hwfo
    obtain ⟨ofs1, hcur1⟩ := sameCtorId_obj oi ofs cur1 hctor1
    subst hcur1
    have hcf1 : ∀ p ∈ rest, ∀ lv,
        getKeyE (JVal.obj oi ofs1) (.str p.1) = .ok (some lv) →
          compat p.2 lv = true := by
      intro p hp lv hg
      have hnea := keys_any_false_ne rest a hnd.1 p hp
      have hfr := rSetStep_frame_obj a sv oi ofs (JVal.obj oi ofs1) hs1 p.1 hnea
      rw [hfr] at hg
      exact hcf p (List.mem_cons_of_mem _ hp) lv hg
    obtain ⟨mid, hm1, hm2, hm3, hm4, hm5⟩ :=
      ihrest (JVal.obj oi ofs1) ⟨oi, ofs1, rfl⟩ hcf1 hnd.2 hwff.2 hwf1
    refine ⟨mid, ?_, sameCtorId_trans hctor1 hm2, hm3, ?_, ?_⟩
    · rw [rSetFields, hs1, ok_bind]
      exact hm1
    · intro p hp
      rcases List.mem_cons.mp hp with hh | ht
      · subst hh
        refine ⟨mv, ?_, happ, ?_⟩
        · rw [hm5 a hnd.1]
          exact hmv
        · intro lv ha1 ha2 ha3
          exact hex lv ha1 ha2 ha3
      · obtain ⟨mv2, hmv2, happ2, hex2⟩ := hm4 p ht
        refine ⟨mv2, hmv2, happ2, ?_⟩
        intro lv ha1 ha2 ha3
        have hnea := keys_any_false_ne rest a hnd.1 p ht
        have hfr := rSetStep_frame_obj a sv oi ofs (JVal.obj oi ofs1) hs1 p.1 hnea
        refine hex2 lv ha1 ?_ ha3
        rw [hfr]
        exact ha2
    · intro s hs
      rw [List.any_cons, Bool.or_eq_false_iff] at hs
      have hsa : s ≠ a := by
        intro hc
        subst hc
        simp at hs
      rw [hm5 s hs.2]
      exact rSetStep_frame_obj a sv oi ofs (JVal.obj oi ofs1) hs1 s hsa

theorem applied_null_forces (nvv : JVal) (h : applied nvv .null = true) :
    nvv = .null := by
  cases nvv with
  | null => rfl
  | obj i fs => exact absurd (show (false : Bool) = true from h) (by decide)
  | arr i es => exact absurd (show (false : Bool) = true from h) (by decide)
  | bool b => exact absurd (show (false : Bool) = true from h) (by decide)
  | num n => exact absurd (show (false : Bool) = true from h) (by decide)
  | str s => exact absurd (show (false : Bool) = true from h) (by decide)
  | undef => exact absurd (show (false : Bool) = true from h) (by decide)

theorem applied_scalar (nvv lv : JVal) (hto : isTypeofObject lv = false)
    (h : applied nvv lv = true) : deepEq lv nvv = true := by
  cases lv with
  | null => exact absurd (show (true : Bool) = false from hto) (by decide)
  | obj i fs => exact absurd (show (true : Bool) = false from hto) (by decide)
  | arr i es => exact absurd (show (true : Bool) = false from hto) (by decide)
  | bool b =>
      cases nvv with
      | null => exact absurd (show (false : Bool) = true from h) (by decide)
      | obj ni nfs => exact absurd (show (false : Bool) = true from h) (by decide)
      | arr ni nes => exact absurd (show (false : Bool) = true from h) (by decide)
      | bool c => exact h
      | num n => exact h
      | str t => exact h
      | undef => exact h
  | num m =>
      cases nvv with
      | null => exact absurd (show (false : Bool) = true from h) (by decide)
      | obj ni nfs => exact absurd (show (false : Bool) = true from h) (by decide)
      | arr ni nes => exact absurd (show (false : Bool) = true from h) (by decide)
      | bool c => exact h
      | num n => exact h
      | str t => exact h
      | undef => exact h
  | str u =>
      cases nvv with
      | null => exact absurd (show (false : Bool) = true from h) (by decide)
      | obj ni nfs => exact absurd (show (false : Bool) = true from h) (by decide)
      | arr ni nes => exact absurd (show (false : Bool) = true from h) (by decide)
      | bool c => exact h
      | num n => exact h
      | str t => exact h
      | undef => exact h
  | undef =>
      cases nvv with
      | null => exact absurd (show (false : Bool) = true from h) (by decide)
      | obj ni nfs => exact absurd (show (false : Bool) = true from h) (by decide)
      | arr ni nes => exact absurd (show (false : Bool) = true from h) (by decide)
      | bool c => exact h
      | num n => exact h
      | str t => exact h
      | undef => exact h

theorem applied_obj_forces (nv : JVal) (oi : Nat) (lfs : List (String × JVal))
    (h : applied nv (.obj oi lfs) = true) :
    ∃ ni nfs, nv = .obj ni nfs ∧ appliedFields nfs lfs = true := by
  cases nv with
  | obj ni nfs => exact ⟨ni, nfs, rfl, h⟩
  | null => exact absurd (show (false : Bool) = true from h) (by decide)
  | arr ni nes => exact absurd (show (false : Bool) = true from h) (by decide)
  | bool b => exact absurd (show (false : Bool) = true from h) (by decide)
  | num n => exact absurd (show (false : Bool) = true from h) (by decide)
  | str s => exact absurd (show (false : Bool) = true from h) (by decide)
  | undef => exact absurd (show (false : Bool) = true from h) (by decide)

theorem applied_arr_forces (nv : JVal) (ai : Nat) (les : List JVal)
    (h : applied nv (.arr ai les) = true) :
    ∃ ni nes, nv = .arr ni nes ∧ nes.length = les.length ∧
      appliedElems nes les = true := by
  cases nv with
  | arr ni nes =>
      have h2 : (decide (nes.length = les.length) && appliedElems nes les) = true := h
      rw [Bool.and_eq_true] at h2
      exact ⟨ni, nes, rfl, by simpa using h2.1, h2.2⟩
  | null => exact absurd (show (false : Bool) = true from h) (by decide)
  | obj ni nfs => exact absurd (show (false : Bool) = true from h) (by decide)
  | bool b => exact absurd (show (false : Bool) = true from h) (by decide)
  | num n => exact absurd (show (false : Bool) = true from h) (by decide)
  | str s => exact absurd (show (false : Bool) = true from h) (by decide)
  | undef => exact absurd (show (false : Bool) = true from h) (by decide)

theorem rClean_nonwrappable (nv old : JVal) (h : isWrappable old = false) :
    rClean nv old = .ok old := by
  cases old with
  | obj i fs => rw [isWrappable] at h; cases h
  | arr i es => rw [isWrappable] at h; cases h
  | null => rw [rClean] <;> intro a b hx <;> cases hx
  | undef => rw [rClean] <;> intro a b hx <;> cases hx
  | bool b => rw [rClean] <;> intro a b hx <;> cases hx
  | num n => rw [rClean] <;> intro a b hx <;> cases hx
  | str s => rw [rClean] <;> intro a b hx <;> cases hx

theorem assocGet_some_any (fs : List (String × JVal)) (s : String) (w : JVal)
    (h : assocGet fs s = some w) : (fs.any fun q => q.1 = s) = true := by
  induction fs with
  | nil => cases h
  | cons p rest ih =>
      obtain ⟨a, b⟩ := p
      rw [assocGet] at h
      rw [List.any_cons]
      by_cases ha : a = s
      · simp [ha]
      · rw [if_neg ha] at h
        simp [ih h]

theorem appliedFields_present (nfs lfs : List (String × JVal))
    (h : appliedFields nfs lfs = true) :
    ∀ p ∈ nfs, ∃ lv, assocGet lfs p.1 = some lv ∧ applied p.2 lv = true := by
  induction nfs with
  | nil => intro p hp; cases hp
  | cons q rest ih =>
      obtain ⟨a, b⟩ := q
      rw [appliedFields, Bool.and_eq_true] at h
      intro p hp
      rcases List.mem_cons.mp hp with hh | ht
      · subst hh
        obtain ⟨h1, _⟩ := h
        rcases hl : assocGet lfs a with _ | lv
        · rw [hl] at h1; cases h1
        · rw [hl] at h1
          exact ⟨lv, rfl, h1⟩
      · exact ih h.2 p ht

/-- **Prune-pass characterization**: on applied, well-formed data the Prune
pass succeeds, mutates the live node in place, keeps it well-formed, makes
it deep-equal to the snapshot, and at every key whose live value is
wrappable stores exactly the recursive `rClean` result. -/
theorem rClean_cleans :
    (∀ nv old, cleanFacts nv old) ∧
    (∀ nv i es old, cleanElemsFacts nv i es old) ∧
    (∀ nv k ov old, cleanStepFacts nv k ov old) ∧
    (∀ nv fs old, cleanFieldsFacts nv fs old) := by
  refine rClean.mutual_induct cleanFacts cleanElemsFacts cleanStepFacts cleanFieldsFacts
    ?_ ?_ ?_ ?_ ?_ ?_ ?_ ?_ ?_
  · -- rClean on an object live node
    intro nv oi lfs ih happ hwfn hwfo
    obtain ⟨ni, nfs, hnv, haf⟩ := applied_obj_forces nv oi lfs happ
    subst hnv
    have hwfo' := hwfo
    rw [wfVal, Bool.and_eq_true] at hwfo'
    have hwfn' := hwfn
    rw [wfVal, Bool.and_eq_true] at hwfn'
    have hcap : ∀ p ∈ lfs, getKeyE (JVal.obj oi lfs) (.str p.1) = .ok (some p.2) := by
      intro p hp
      rw [getKeyE, assocGet_of_mem_nodup lfs p.1 p.2 hwfo'.1 hp]
    have hlink : ∀ p ∈ lfs, ∀ nvv,
        getKeyE (JVal.obj ni nfs) (.str p.1) = .ok (some nvv) →
          applied nvv p.2 = true := by
      intro p hp nvv hg
      rw [getKeyE] at hg
      injection hg with hg
      exact appliedFields_get nfs lfs p.1 nvv p.2 haf hg
        (assocGet_of_mem_nodup lfs p.1 p.2 hwfo'.1 hp)
    obtain ⟨out, h1, h2, h3, ha', hd, hc4, he⟩ :=
      ih ⟨oi, lfs, rfl⟩ ⟨ni, nfs, rfl⟩ hcap hlink hwfo'.1 hwfo'.2 hwfn hwfo
    refine ⟨out, ?_, Or.inr h2, h3, ?_, ?_⟩
    · rw [rClean]; exact h1
    · obtain ⟨ofs', hout⟩ := sameCtorId_obj oi lfs out h2
      subst hout
      have hwout := h3
      rw [wfVal, Bool.and_eq_true] at hwout
      rw [deepEq, Bool.and_eq_true]
      constructor
      · apply deepEqFields_of_pointwise
        intro p hp
        have hga : assocGet ofs' p.1 = some p.2 :=
          assocGet_of_mem_nodup ofs' p.1 p.2 hwout.1 hp
        rcases ha' p.1 p.2 (by rw [getKeyE, hga]) with ⟨hold, hany⟩ | ⟨nvv, hnv2, hde⟩
        · exfalso
          rw [getKeyE] at hold
          injection hold with hold
          rw [assocGet_some_any lfs p.1 p.2 hold] at hany
          cases hany
        · rw [getKeyE] at hnv2
          injection hnv2 with hnv2
          exact ⟨nvv, hnv2, hde⟩
      · rw [List.all_eq_true]
        intro p hp
        obtain ⟨lv, hlv, hap⟩ := appliedFields_present nfs lfs haf p hp
        have hnvsome : ¬ getKeyE (JVal.obj ni nfs) (.str p.1) = .ok none := by
          rw [getKeyE, assocGet_of_mem_nodup nfs p.1 p.2 hwfn'.1 hp]
          intro hx
          injection hx with hx
          cases hx
        obtain ⟨w2, hw2⟩ := hd p.1 lv (by rw [getKeyE, hlv]) hnvsome
        rw [getKeyE] at hw2
        injection hw2 with hw2
        rw [hw2]
        rfl
    · intro k nvv lv hgn hgo hwl
      obtain ⟨ofs', hout⟩ := sameCtorId_obj oi lfs out h2
      subst hout
      cases k with
      | str s =>
          rw [getKeyE] at hgo
          injection hgo with hgo
          exact hc4 (s, lv) (assocGet_mem lfs s lv hgo) nvv hgn hwl
      | idx n =>
          rw [getKeyE] at hgo
          injection hgo with hgo
          exact hc4 (Nat.repr n, lv) (assocGet_mem lfs _ lv hgo) nvv hgn hwl
  · -- rClean on an array live node
    intro nv ai les ih happ hwfn hwfo
    obtain ⟨ni, nes, hnv, hlen, hae⟩ := applied_arr_forces nv ai les happ
    subst hnv
    have hwles : wfElems les = true := by
      have := hwfo; rw [wfVal] at this; exact this
    have hwnes : wfElems nes = true := by
      have := hwfn; rw [wfVal] at this; exact this
    have hcap : ∀ j v, les.get? j = some v →
        getKeyE (JVal.arr ai les) (.idx (0 + j)) = .ok (some v) := by
      intro j v hj
      rw [Nat.zero_add, getKeyE, arrGet_wf_get les j hwles, hj]
    have hlink : ∀ j v, les.get? j = some v → ∀ nvv,
        getKeyE (JVal.arr ni nes) (.idx (0 + j)) = .ok (some nvv) →
          applied nvv v = true := by
      intro j v hj nvv hg
      rw [Nat.zero_add, getKeyE, arrGet_wf_get nes j hwnes] at hg
      injection hg with hg
      exact appliedElems_get nes les j nvv v hae hg hj
    obtain ⟨out, h1, h2, h3, hsh, hpt, _⟩ :=
      ih ⟨ai, les, rfl, by omega⟩ ⟨ni, nes, rfl, by omega⟩ hcap hlink hwles hwfn hwfo
    refine ⟨out, ?_, Or.inr h2, h3, ?_, ?_⟩
    · rw [rClean]; exact h1
    · obtain ⟨oes, hout, holen⟩ := hsh ai les rfl
      subst hout
      have hwoes : wfElems oes = true := by
        have := h3; rw [wfVal] at this; exact this
      rw [deepEq]
      refine deepEqElems_of_pointwise oes nes (by omega) ?_
      intro j a b hja hjb
      have hjlt : j < les.length := by
        have : j < oes.length := by
          by_contra hcc
          rw [List.get?_eq_getElem?, List.getElem?_eq_none (by omega)] at hja
          cases hja
        omega
      rcases hv : les.get? j with _ | v
      · rw [List.get?_eq_getElem?, List.getElem?_eq_none_iff] at hv
        omega
      · obtain ⟨w, nvv, hw, hnvv, hde, _⟩ := hpt j v hv
        rw [Nat.zero_add, getKeyE, arrGet_wf_get oes j hwoes, hja] at hw
        injection hw with hw
        injection hw with hw
        rw [Nat.zero_add, getKeyE, arrGet_wf_get nes j hwnes, hjb] at hnvv
        injection hnvv with hnvv
        injection hnvv with hnvv
        subst hw
        subst hnvv
        exact hde
    · intro k nvv lv hgn hgo hwl
      cases k with
      | idx n =>
          rw [getKeyE, arrGet_wf_get les n hwles] at hgo
          injection hgo with hgo
          obtain ⟨w, nvv2, hw, hnvv2, _, hcl⟩ := hpt n lv hgo
          rw [Nat.zero_add] at hw hnvv2
          rw [hnvv2] at hgn
          injection hgn with hgn
          injection hgn with hgn
          subst hgn
          exact ⟨w, hcl hwl, hw⟩
      | str s =>
          rw [getKeyE] at hgo
          rcases hci : canonIdx s with _ | n
          · simp only [hci] at hgo
            injection hgo with hgo
            cases hgo
          · simp only [hci] at hgo
            injection hgo with hgo
            rw [arrGet_wf_get les n hwles] at hgo
            obtain ⟨w, nvv2, hw, hnvv2, _, hcl⟩ := hpt n lv hgo
            rw [Nat.zero_add] at hw hnvv2
            have hgn' : getKeyE (JVal.arr ni nes) (.idx n) = .ok (some nvv) := by
              rw [getKeyE]
              have : getKeyE (JVal.arr ni nes) (JKey.str s)
                  = Except.ok (arrGet nes n) := by
                rw [getKeyE, hci]
              rw [this] at hgn
              exact hgn
            rw [hnvv2] at hgn'
            injection hgn' with hgn'
            injection hgn' with hgn'
            subst hgn'
            refine ⟨w, hcl hwl, ?_⟩
            obtain ⟨oes, hout, holen⟩ := hsh ai les rfl
            subst hout
            have hred : getKeyE (JVal.arr ai oes) (JKey.str s)
                = Except.ok (arrGet oes n) := by
              rw [getKeyE, hci]
            rw [hred]
            exact hw
  · -- rClean on a non-wrappable live node
    intro nv old h1 h2 happ hwfn hwfo
    have hwnot : isWrappable old = false := by
      cases old with
      | obj oi ofs => exact absurd rfl (h1 oi ofs)
      | arr ai aes => exact absurd rfl (h2 ai aes)
      | null => rfl
      | undef => rfl
      | bool b => rfl
      | num n => rfl
      | str s => rfl
    refine ⟨old, rClean_nonwrappable nv old hwnot, Or.inl rfl, hwfo, ?_, ?_⟩
    · cases old with
      | null =>
          have hn := applied_null_forces nv happ
          subst hn
          rfl
      | bool b => exact applied_scalar nv _ rfl happ
      | num n => exact applied_scalar nv _ rfl happ
      | str s => exact applied_scalar nv _ rfl happ
      | undef => exact applied_scalar nv _ rfl happ
      | obj oi ofs => exact absurd rfl (h1 oi ofs)
      | arr ai aes => exact absurd rfl (h2 ai aes)
    · intro k nvv lv hgn hgo hwl
      exfalso
      have := getKey_source_wrappable old k lv hgo hwl
      rw [this] at hwnot
      cases hwnot
  · -- clean elems: nil
    intro nv i old harr hnva hcap hlink hwfe hwfn hwfo
    obtain ⟨ai, aes, hold, hlen⟩ := harr
    subst hold
    refine ⟨.arr ai aes, by rw [rCleanElems], sameCtorId_refl rfl, hwfo, ?_, ?_, ?_⟩
    · intro ai2 aes2 h
      injection h with e1 e2
      subst e1
      subst e2
      exact ⟨aes, rfl, rfl⟩
    · intro j v hj
      cases hj
    · intro m _
      rfl
  · -- clean elems: hole (excluded by well-formedness)
    intro nv i old rest ih harr hnva hcap hlink hwfe hwfn hwfo
    exfalso
    rw [wfElems, Bool.and_eq_true, wfVal] at hwfe
    cases hwfe.1
  · -- clean elems: cons
    intro nv i old v rest hne ihstep ihrest harr hnva hcap hlink hwfe hwfn hwfo
    obtain ⟨ai, aes, hold, hlen⟩ := harr
    obtain ⟨ni, nes, hnv, hnlen⟩ := hnva
    subst hold
    subst hnv
    rw [wfElems, Bool.and_eq_true] at hwfe
    have hwnes : wfElems nes = true := by
      have := hwfn; rw [wfVal] at this; exact this
    have hlenr : aes.length = i + (rest.length + 1) := by simpa using hlen
    have hnlenr : nes.length = i + (rest.length + 1) := by simpa using hnlen
    have hcapk : getKeyE (JVal.arr ai aes) (.idx i) = .ok (some v) := by
      have := hcap 0 v rfl
      rwa [Nat.add_zero] at this
    have hnes_i : ∃ nvvi, getKeyE (JVal.arr ni nes) (.idx i) = .ok (some nvvi) := by
      rcases hx : nes.get? i with _ | nvvi
      · exfalso
        rw [List.get?_eq_getElem?, List.getElem?_eq_none_iff] at hx
        omega
      · exact ⟨nvvi, by rw [getKeyE, arrGet_wf_get nes i hwnes, hx]⟩
    obtain ⟨nvvi, hgnvi⟩ := hnes_i
    have hlinkk : ∀ nvv, getKeyE (JVal.arr ni nes) (.idx i) = .ok (some nvv) →
        applied nvv v = true := by
      intro nvv hg
      refine hlink 0 v rfl nvv ?_
      rwa [Nat.add_zero]
    obtain ⟨cur1, hs1, hctor1, hwf1, harrlen1, hnone1, hsome1⟩ :=
      ihstep (Or.inr ⟨ai, aes, i, rfl, rfl, by
        rw [hgnvi]; intro hx; injection hx with hx; cases hx⟩)
        hcapk hlinkk ⟨_, hgnvi⟩ hwfn hwfe.1 hwfo
    obtain ⟨aes1, hcur1, hlen1⟩ := harrlen1 ai aes i rfl rfl
    subst hcur1
    have hcap1 : ∀ j w, rest.get? j = some w →
        getKeyE (JVal.arr ai aes1) (.idx ((i + 1) + j)) = .ok (some w) := by
      intro j w hj
      rw [rCleanStep_frame_arr (JVal.arr ni nes) i v ai aes (JVal.arr ai aes1) hs1
        ((i + 1) + j) (by omega)]
      have := hcap (j + 1) w (by simpa using hj)
      rwa [show i + (j + 1) = (i + 1) + j by omega] at this
    have hlink1 : ∀ j w, rest.get? j = some w → ∀ nvv,
        getKeyE (JVal.arr ni nes) (.idx ((i + 1) + j)) = .ok (some nvv) →
          applied nvv w = true := by
      intro j w hj nvv hg
      refine hlink (j + 1) w (by simpa using hj) nvv ?_
      rwa [show i + (j + 1) = (i + 1) + j by omega]
    obtain ⟨out, ho1, ho2, ho3, ho4, ho5, ho6⟩ :=
      ihrest (JVal.arr ai aes1) ⟨ai, aes1, rfl, by omega⟩
        ⟨ni, nes, rfl, by omega⟩ hcap1 hlink1 hwfe.2 hwfn hwf1
    refine ⟨out, ?_, sameCtorId_trans hctor1 ho2, ho3, ?_, ?_, ?_⟩
    · rw [rCleanElems]
      · rw [hs1, ok_bind]
        exact ho1
      · exact hne
    · intro ai2 aes2 h
      injection h with e1 e2
      subst e1
      subst e2
      obtain ⟨oes, ho, hol⟩ := ho4 ai aes1 rfl
      exact ⟨oes, ho, by omega⟩
    · intro j w hj
      cases j with
      | zero =>
          injection hj with hj
          subst hj
          obtain ⟨w0, hw0, hde0, hcl0⟩ := hsome1 nvvi hgnvi
          refine ⟨w0, nvvi, ?_, ?_, hde0, hcl0⟩
          · rw [Nat.add_zero, ho6 i (by omega)]
            exact hw0
          · rwa [Nat.add_zero]
      | succ j =>
          obtain ⟨w2, nvv2, hw2, hn2, hd2, hc2⟩ := ho5 j w (by simpa using hj)
          refine ⟨w2, nvv2, ?_, ?_, hd2, hc2⟩
          · rwa [show i + (j + 1) = (i + 1) + j by omega]
          · rwa [show i + (j + 1) = (i + 1) + j by omega]
    · intro m hm
      rw [ho6 m (by omega)]
      exact rCleanStep_frame_arr (JVal.arr ni nes) i v ai aes (JVal.arr ai aes1) hs1 m
        (by omega)
  · -- clean step
    intro nv k ov old ihv hshape hcap hlink hnvok hwfn hwfov hwfo
    obtain ⟨r, hr⟩ := hnvok
    rcases hshape with ⟨oi, ofs, s, hold, hk⟩ | ⟨ai, aes, m, hold, hk, hnn⟩
    · subst hold
      subst hk
      cases r with
      | none =>
          have hwfo' := hwfo
          rw [wfVal, Bool.and_eq_true] at hwfo'
          have hstep : rCleanStep nv (.str s) ov (.obj oi ofs)
              = .ok (.obj oi (assocDel ofs s)) := by
            rw [rCleanStep, hr, ok_bind]
            rfl
          refine ⟨_, hstep, by simp [sameCtorId], ?_, ?_, ?_, ?_⟩
          · rw [wfVal, Bool.and_eq_true]
            exact ⟨keysNodup_assocDel ofs s hwfo'.1, wfFields_assocDel ofs s hwfo'.2⟩
          · intro ai aes m h _
            cases h
          · intro _
            rw [getKeyE, assocGet_assocDel_self ofs s hwfo'.1]
          · intro nvv hg
            rw [hr] at hg
            injection hg with hg
            cases hg
      | some nvv =>
          have happv := hlink nvv hr
          by_cases hto : isTypeofObject ov = true
          · by_cases hwo : isWrappable ov = true
            · have hwfnvv := wfVal_at_key nv (.str s) nvv hwfn hr
              obtain ⟨out_s, hcl, _, hwfs, hdes, _⟩ := ihv nvv happv hwfnvv hwfov
              have hwfo' := hwfo
              rw [wfVal, Bool.and_eq_true] at hwfo'
              have hstep : rCleanStep nv (.str s) ov (.obj oi ofs)
                  = .ok (.obj oi (assocSet ofs s out_s)) := by
                rw [rCleanStep, hr, ok_bind]
                simp only []
                rw [if_pos hto, if_pos hwo, hcl, ok_bind]
                rfl
              refine ⟨_, hstep, by simp [sameCtorId], ?_, ?_, ?_, ?_⟩
              · rw [wfVal, Bool.and_eq_true]
                exact ⟨keysNodup_assocSet ofs s out_s hwfo'.1,
                  wfFields_assocSet ofs s out_s hwfo'.2 hwfs⟩
              · intro ai aes m h _
                cases h
              · intro hx
                rw [hr] at hx
                injection hx with hx
                cases hx
              · intro nvv2 hg
                rw [hr] at hg
                injection hg with hg
                injection hg with hg
                subst hg
                exact ⟨out_s, getKeyE_setKeyE_obj_self oi ofs s out_s, hdes,
                  fun _ => hcl⟩
            · have hovn : ov = .null := by
                cases ov <;> simp_all [isTypeofObject, isWrappable]
              subst hovn
              have hnvvn : nvv = .null := applied_null_forces nvv happv
              subst hnvvn
              have hstep : rCleanStep nv (.str s) .null (.obj oi ofs)
                  = .ok (.obj oi ofs) := by
                rw [rCleanStep, hr, ok_bind]
                simp only []
                rw [if_pos hto, if_neg hwo,
                  rClean_nonwrappable JVal.null JVal.null rfl, ok_bind]
              refine ⟨_, hstep, sameCtorId_refl rfl, hwfo, ?_, ?_, ?_⟩
              · intro ai aes m h _
                cases h
              · intro hx
                rw [hr] at hx
                injection hx with hx
                cases hx
              · intro nvv2 hg
                rw [hr] at hg
                injection hg with hg
                injection hg with hg
                subst hg
                exact ⟨.null, hcap, rfl, fun hwx => absurd hwx (by decide)⟩
          · have hstep : rCleanStep nv (.str s) ov (.obj oi ofs)
                = .ok (.obj oi ofs) := by
              rw [rCleanStep, hr, ok_bind]
              simp only []
              rw [if_neg hto]
            refine ⟨_, hstep, sameCtorId_refl rfl, hwfo, ?_, ?_, ?_⟩
            · intro ai aes m h _
              cases h
            · intro hx
              rw [hr] at hx
              injection hx with hx
              cases hx
            · intro nvv2 hg
              rw [hr] at hg
              injection hg with hg
              injection hg with hg
              subst hg
              refine ⟨ov, hcap,
                applied_scalar nvv ov (by revert hto; cases isTypeofObject ov <;> simp)
                  happv, ?_⟩
              intro hwx
              exfalso
              revert hto
              cases ov <;> simp_all [isWrappable, isTypeofObject]
    · subst hold
      subst hk
      cases r with
      | none => exact absurd hr hnn
      | some nvv =>
          have happv := hlink nvv hr
          have hcap' := hcap
          rw [getKeyE] at hcap'
          injection hcap' with hcap'
          have hmlt : m < aes.length := (arrGet_some aes m ov hcap').1
          have hwaes : wfElems aes = true := by
            have := hwfo; rw [wfVal] at this; exact this
          by_cases hto : isTypeofObject ov = true
          · by_cases hwo : isWrappable ov = true
            · have hwfnvv := wfVal_at_key nv (.idx m) nvv hwfn hr
              obtain ⟨out_s, hcl, _, hwfs, hdes, _⟩ := ihv nvv happv hwfnvv hwfov
              have hstep : rCleanStep nv (.idx m) ov (.arr ai aes)
                  = .ok (.arr ai (arrSet aes m out_s)) := by
                rw [rCleanStep, hr, ok_bind]
                simp only []
                rw [if_pos hto, if_pos hwo, hcl, ok_bind]
                rfl
              refine ⟨_, hstep, by simp [sameCtorId], ?_, ?_, ?_, ?_⟩
              · rw [wfVal]
                exact wfElems_arrSet aes m out_s hwaes hwfs (by omega)
              · intro ai2 aes2 m2 h hk2
                injection h with e1 e2
                injection hk2 with e3
                subst e1
                subst e2
                subst e3
                refine ⟨arrSet aes m out_s, rfl, ?_⟩
                rw [arrSet_length]
                omega
              · intro hx
                rw [hr] at hx
                injection hx with hx
                cases hx
              · intro nvv2 hg
                rw [hr] at hg
                injection hg with hg
                injection hg with hg
                subst hg
                exact ⟨out_s,
                  getKeyE_setKeyE_arr_self ai aes m out_s (wf_ne_undef hwfs),
                  hdes, fun _ => hcl⟩
            · have hovn : ov = .null := by
                cases ov <;> simp_all [isTypeofObject, isWrappable]
              subst hovn
              have hnvvn : nvv = .null := applied_null_forces nvv happv
              subst hnvvn
              have hstep : rCleanStep nv (.idx m) .null (.arr ai aes)
                  = .ok (.arr ai aes) := by
                rw [rCleanStep, hr, ok_bind]
                simp only []
                rw [if_pos hto, if_neg hwo,
                  rClean_nonwrappable JVal.null JVal.null rfl, ok_bind]
              refine ⟨_, hstep, sameCtorId_refl rfl, hwfo, ?_, ?_, ?_⟩
              · intro ai2 aes2 m2 h hk2
                injection h with e1 e2
                subst e1
                subst e2
                exact ⟨aes, rfl, rfl⟩
              · intro hx
                rw [hr] at hx
                injection hx with hx
                cases hx
              · intro nvv2 hg
                rw [hr] at hg
                injection hg with hg
                injection hg with hg
                subst hg
                exact ⟨.null, hcap, rfl, fun hwx => absurd hwx (by decide)⟩
          · have hstep : rCleanStep nv (.idx m) ov (.arr ai aes)
                = .ok (.arr ai aes) := by
              rw [rCleanStep, hr, ok_bind]
              simp only []
              rw [if_neg hto]
            refine ⟨_, hstep, sameCtorId_refl rfl, hwfo, ?_, ?_, ?_⟩
            · intro ai2 aes2 m2 h hk2
              injection h with e1 e2
              subst e1
              subst e2
              exact ⟨aes, rfl, rfl⟩
            · intro hx
              rw [hr] at hx
              injection hx with hx
              cases hx
            · intro nvv2 hg
              rw [hr] at hg
              injection hg with hg
              injection hg with hg
              subst hg
              refine ⟨ov, hcap,
                applied_scalar nvv ov (by revert hto; cases isTypeofObject ov <;> simp)
                  happv, ?_⟩
              intro hwx
              exfalso
              revert hto
              cases ov <;> simp_all [isWrappable, isTypeofObject]
  · -- clean fields: nil
    intro nv old hobj hnvo hcap hlink hnd hwff hwfn hwfo
    refine ⟨old, by rw [rCleanFields], ?_, hwfo, ?_, ?_, ?_, ?_⟩
    · obtain ⟨oi, ofs, h⟩ := hobj
      subst h
      exact sameCtorId_refl rfl
    · intro s w hw
      exact Or.inl ⟨hw, rfl⟩
    · intro s w hw _
      exact ⟨w, hw⟩
    · intro p hp
      cases hp
    · intro s _
      rfl
  · -- clean fields: cons
    intro nv old a ov rest ihstep ihrest hobj hnvo hcap hlink hnd hwff hwfn hwfo
    obtain ⟨oi, ofs, hold⟩ := hobj
    obtain ⟨ni, nfs, hnv⟩ := hnvo
    subst hold
    subst hnv
    rw [keysNodup, Bool.and_eq_true, Bool.not_eq_true'] at hnd
    rw [wfFields, Bool.and_eq_true] at hwff
    have hcapk := hcap (a, ov) (List.mem_cons_self _ _)
    have hlinkk : ∀ nvv, getKeyE (JVal.obj ni nfs) (.str a) = .ok (some nvv) →
        applied nvv ov = true :=
      fun nvv hg => hlink (a, ov) (List.mem_cons_self _ _) nvv hg
    obtain ⟨cur1, hs1, hctor1, hwf1, _, hnone1, hsome1⟩ :=
      ihstep (Or.inl ⟨oi, ofs, a, rfl, rfl⟩) hcapk hlinkk ⟨_, rfl⟩ hwfn hwff.1 hwfo
    obtain ⟨ofs1, hcur1⟩ := sameCtorId_obj oi ofs cur1 hctor1
    subst hcur1
    have hframe1 := rCleanStep_frame_obj (JVal.obj ni nfs) a ov oi ofs
      (JVal.obj oi ofs1) hs1
    have hcap1 : ∀ p ∈ rest, getKeyE (JVal.obj oi ofs1) (.str p.1) = .ok (some p.2) := by
      intro p hp
      rw [hframe1 p.1 (keys_any_false_ne rest a hnd.1 p hp)]
      exact hcap p (List.mem_cons_of_mem _ hp)
    have hlink1 : ∀ p ∈ rest, ∀ nvv,
        getKeyE (JVal.obj ni nfs) (.str p.1) = .ok (some nvv) →
          applied nvv p.2 = true :=
      fun p hp nvv hg => hlink p (List.mem_cons_of_mem _ hp) nvv hg
    obtain ⟨out, ho1, ho2, ho3, ha', hd, hc4, he⟩ :=
      ihrest (JVal.obj oi ofs1) ⟨oi, ofs1, rfl⟩ ⟨ni, nfs, rfl⟩ hcap1 hlink1
        hnd.2 hwff.2 hwfn hwf1
    refine ⟨out, ?_, sameCtorId_trans hctor1 ho2, ho3, ?_, ?_, ?_, ?_⟩
    · rw [rCleanFields, hs1, ok_bind]
      exact ho1
    · intro s w hw
      rcases ha' s w hw with ⟨hcur, hanyr⟩ | hsome
      · by_cases hsa : s = a
        · subst hsa
          rcases hnvk : assocGet nfs s with _ | nvv
          · have hcn : getKeyE (JVal.obj ni nfs) (.str s) = .ok none := by
              rw [getKeyE, hnvk]
            have := hnone1 hcn
            rw [this] at hcur
            injection hcur with hx
            cases hx
          · obtain ⟨w0, hw0, hde0, _⟩ := hsome1 nvv (by rw [getKeyE, hnvk])
            rw [hw0] at hcur
            injection hcur with hx
            injection hx with hx
            subst hx
            exact Or.inr ⟨nvv, by rw [getKeyE, hnvk], hde0⟩
        · refine Or.inl ⟨?_, ?_⟩
          · rw [← hframe1 s hsa]
            exact hcur
          · rw [List.any_cons, Bool.or_eq_false_iff]
            refine ⟨?_, hanyr⟩
            simp only [decide_eq_false_iff_not]
            exact fun hc => hsa hc.symm
      · exact Or.inr hsome
    · intro s w hw hnns
      by_cases hsa : s = a
      · subst hsa
        rcases hnvk : assocGet nfs s with _ | nvv
        · exact absurd (by rw [getKeyE, hnvk]) hnns
        · obtain ⟨w0, hw0, _, _⟩ := hsome1 nvv (by rw [getKeyE, hnvk])
          exact hd s w0 hw0 hnns
      · refine hd s w ?_ hnns
        rw [hframe1 s hsa]
        exact hw
    · intro p hp nvv hg hwl
      rcases List.mem_cons.mp hp with hh | ht
      · subst hh
        obtain ⟨w0, hw0, _, hcl0⟩ := hsome1 nvv hg
        refine ⟨w0, hcl0 hwl, ?_⟩
        rw [he a hnd.1]
        exact hw0
      · exact hc4 p ht nvv hg hwl
    · intro s hs
      rw [List.any_cons, Bool.or_eq_false_iff] at hs
      have hsa : s ≠ a := by
        have := hs.1
        simp only [decide_eq_false_iff_not] at this
        exact fun hc => this hc.symm
      rw [he s hs.2]
      exact hframe1 s hsa

theorem wrappable_typeof {v : JVal} (h : isWrappable v = true) :
    isTypeofObject v = true := by
  cases v <;> simp_all [isWrappable, isTypeofObject]

theorem wf_resolve (p : List JKey) :
    ∀ v w, wfVal v = true → resolveAtE v p = .ok w → isWrappable w = true →
      wfVal w = true := by
  induction p with
  | nil =>
      intro v w hwf h _
      rw [resolveAtE] at h
      injection h with h
      rw [← h]
      exact hwf
  | cons k ks ih =>
      intro v w hwf h hww
      obtain ⟨base, hg, hr, _⟩ := resolve_cons_some v k ks w h hww
      exact ih base w (wfVal_at_key v k base hwf hg) hr hww

theorem deepEqFields_mem (afs bfs : List (String × JVal)) (t : String) (v : JVal)
    (h : deepEqFields afs bfs = true) (hm : (t, v) ∈ afs) :
    ∃ w, assocGet bfs t = some w ∧ deepEq v w = true := by
  induction afs with
  | nil => cases hm
  | cons p rest ih =>
      obtain ⟨a, b⟩ := p
      rw [deepEqFields, Bool.and_eq_true] at h
      rcases List.mem_cons.mp hm with hh | ht
      · injection hh with h1 h2
        subst h1
        subst h2
        obtain ⟨h1, _⟩ := h
        rcases hl : assocGet bfs t with _ | w
        · rw [hl] at h1; cases h1
        · rw [hl] at h1
          exact ⟨w, rfl, h1⟩
      · exact ih h.2 ht

theorem deepEqElems_length (as bs : List JVal)
    (h : deepEqElems as bs = true) : as.length = bs.length := by
  induction as generalizing bs with
  | nil =>
      cases bs with
      | nil => rfl
      | cons b ls => exact absurd (show (false : Bool) = true from h) (by decide)
  | cons a rest ih =>
      cases bs with
      | nil => exact absurd (show (false : Bool) = true from h) (by decide)
      | cons b ls =>
          rw [deepEqElems, Bool.and_eq_true] at h
          simpa using ih ls h.2

theorem deepEq_getKey_none (a b : JVal) (k : JKey)
    (hd : deepEq a b = true) (hwa : wfVal a = true) (hwb : wfVal b = true)
    (hg : getKeyE b k = .ok none) : getKeyE a k = .ok none := by
  cases a with
  | obj ai afs =>
      cases b with
      | obj bi bfs =>
          have hd2 : (deepEqFields afs bfs &&
              bfs.all fun p => (assocGet afs p.1).isSome) = true := hd
          rw [Bool.and_eq_true] at hd2
          have key : ∀ t : String, assocGet bfs t = none → assocGet afs t = none := by
            intro t hbt
            rcases hat : assocGet afs t with _ | v
            · rfl
            · exfalso
              obtain ⟨w, hw, _⟩ :=
                deepEqFields_mem afs bfs t v hd2.1 (assocGet_mem afs t v hat)
              rw [hbt] at hw
              cases hw
          cases k with
          | str s =>
              rw [getKeyE] at hg ⊢
              injection hg with hg
              rw [key s hg]
          | idx n =>
              rw [getKeyE] at hg ⊢
              injection hg with hg
              rw [key _ hg]
      | null => exact absurd (show (false : Bool) = true from hd) (by decide)
      | undef => exact absurd (show (false : Bool) = true from hd) (by decide)
      | bool c => exact absurd (show (false : Bool) = true from hd) (by decide)
      | num n => exact absurd (show (false : Bool) = true from hd) (by decide)
      | str t => exact absurd (show (false : Bool) = true from hd) (by decide)
      | arr bi bes => exact absurd (show (false : Bool) = true from hd) (by decide)
  | arr ai aes =>
      cases b with
      | arr bi bes =>
          have hd2 : deepEqElems aes bes = true := hd
          have hlen := deepEqElems_length aes bes hd2
          have hwae : wfElems aes = true := by
            have := hwa; rw [wfVal] at this; exact this
          have hwbe : wfElems bes = true := by
            have := hwb; rw [wfVal] at this; exact this
          have key : ∀ n : Nat, arrGet bes n = none → arrGet aes n = none := by
            intro n hbn
            rw [arrGet_wf_get bes n hwbe] at hbn
            rw [List.get?_eq_getElem?, List.getElem?_eq_none_iff] at hbn
            rw [arrGet_wf_get aes n hwae, List.get?_eq_getElem?,
              List.getElem?_eq_none_iff]
            omega
          cases k with
          | idx n =>
              rw [getKeyE] at hg ⊢
              injection hg with hg
              rw [key n hg]
          | str s =>
              rw [getKeyE] at hg ⊢
              rcases hci : canonIdx s with _ | n
              · simp only [hci]
              · simp only [hci] at hg ⊢
                injection hg with hg
                rw [key n hg]
      | null => exact absurd (show (false : Bool) = true from hd) (by decide)
      | undef => exact absurd (show (false : Bool) = true from hd) (by decide)
      | bool c => exact absurd (show (false : Bool) = true from hd) (by decide)
      | num n => exact absurd (show (false : Bool) = true from hd) (by decide)
      | str t => exact absurd (show (false : Bool) = true from hd) (by decide)
      | obj bi bfs => exact absurd (show (false : Bool) = true from hd) (by decide)
  | null =>
      cases b <;> first
        | exact absurd (show (false : Bool) = true from hd) (by decide)
        | exact hg
  | undef =>
      cases b <;> exact absurd (show (false : Bool) = true from hd) (by decide)
  | bool c =>
      cases b with
      | bool c2 => cases k <;> rfl
      | _ => exact absurd (show (false : Bool) = true from hd) (by decide)
  | num n =>
      cases b with
      | num n2 => cases k <;> rfl
      | _ => exact absurd (show (false : Bool) = true from hd) (by decide)
  | str t =>
      cases b with
      | str t2 =>
          have ht : t = t2 := by
            have hd2 : decide (t = t2) = true := hd
            simpa using hd2
          subst ht
          exact hg
      | _ => exact absurd (show (false : Bool) = true from hd) (by decide)

theorem compat_at_key (nv old : JVal) (k : JKey) (sv lv : JVal)
    (hc : compat nv old = true)
    (hgn : getKeyE nv k = .ok (some sv)) (hgo : getKeyE old k = .ok (some lv)) :
    compat sv lv = true := by
  cases nv with
  | null => rw [getKeyE] at hgn; cases hgn
  | undef => rw [getKeyE] at hgn; cases hgn
  | bool b =>
      cases k with
      | str s2 => injection hgn with h2; cases h2
      | idx n2 => injection hgn with h2; cases h2
  | num n =>
      cases k with
      | str s2 => injection hgn with h2; cases h2
      | idx n2 => injection hgn with h2; cases h2
  | str t =>
      have hsv : ∃ c, sv = .str c := by
        cases k with
        | idx n =>
            rw [getKeyE] at hgn
            injection hgn with hgn
            rcases hx : t.data.get? n with _ | c
            · rw [hx] at hgn; cases hgn
            · rw [hx] at hgn
              injection hgn with hgn
              exact ⟨_, hgn.symm⟩
        | str s2 =>
            rw [getKeyE] at hgn
            rcases hci : canonIdx s2 with _ | n
            · simp only [hci] at hgn
              injection hgn with hgn
              cases hgn
            · simp only [hci] at hgn
              injection hgn with hgn
              rcases hx : t.data.get? n with _ | c
              · rw [hx] at hgn; cases hgn
              · rw [hx] at hgn
                injection hgn with hgn
                exact ⟨_, hgn.symm⟩
      obtain ⟨c, hsv⟩ := hsv
      subst hsv
      rfl
  | obj ni nfs =>
      cases old with
      | obj oi ofs =>
          have hcf : compatFields nfs ofs = true := hc
          cases k with
          | str s =>
              rw [getKeyE] at hgn hgo
              injection hgn with hgn
              injection hgo with hgo
              exact compatFields_get nfs ofs s sv lv hcf hgn hgo
          | idx n =>
              rw [getKeyE] at hgn hgo
              injection hgn with hgn
              injection hgo with hgo
              exact compatFields_get nfs ofs _ sv lv hcf hgn hgo
      | null => exact absurd (show (false : Bool) = true from hc) (by decide)
      | undef => exact absurd (show (false : Bool) = true from hc) (by decide)
      | bool b => exact absurd (show (false : Bool) = true from hc) (by decide)
      | num n => exact absurd (show (false : Bool) = true from hc) (by decide)
      | str t => exact absurd (show (false : Bool) = true from hc) (by decide)
      | arr oi oes => exact absurd (show (false : Bool) = true from hc) (by decide)
  | arr ni nes =>
      cases old with
      | arr oi oes =>
          have hce : compatElems nes oes = true := hc
          cases k with
          | idx n =>
              rw [getKeyE] at hgn hgo
              injection hgn with hgn
              injection hgo with hgo
              obtain ⟨_, _, hn2⟩ := arrGet_some nes n sv hgn
              obtain ⟨_, _, ho2⟩ := arrGet_some oes n lv hgo
              exact compatElems_get nes oes n sv lv hce
                (by rw [List.get?_eq_getElem?]; exact hn2)
                (by rw [List.get?_eq_getElem?]; exact ho2)
          | str s =>
              rw [getKeyE] at hgn hgo
              rcases hci : canonIdx s with _ | n
              · simp only [hci] at hgn
                injection hgn with hgn
                cases hgn
              · simp only [hci] at hgn hgo
                injection hgn with hgn
                injection hgo with hgo
                obtain ⟨_, _, hn2⟩ := arrGet_some nes n sv hgn
                obtain ⟨_, _, ho2⟩ := arrGet_some oes n lv hgo
                exact compatElems_get nes oes n sv lv hce
                  (by rw [List.get?_eq_getElem?]; exact hn2)
                  (by rw [List.get?_eq_getElem?]; exact ho2)
      | null => exact absurd (show (false : Bool) = true from hc) (by decide)
      | undef => exact absurd (show (false : Bool) = true from hc) (by decide)
      | bool b => exact absurd (show (false : Bool) = true from hc) (by decide)
      | num n => exact absurd (show (false : Bool) = true from hc) (by decide)
      | str t => exact absurd (show (false : Bool) = true from hc) (by decide)
      | obj oi ofs => exact absurd (show (false : Bool) = true from hc) (by decide)

/-- The Apply-then-Prune composition tracked down one live/snapshot path pair:
the node the path reaches is mutated in place — same constructor and ghost
identity — and ends deep-equal to the snapshot node at the same path. -/
theorem setCleanAt (p : List JKey) :
    ∀ nv old w s, compat nv old = true → isWrappable nv = true →
      isWrappable old = true → wfVal nv = true → wfVal old = true →
      resolveAtE old p = .ok w → isWrappable w = true →
      resolveAtE nv p = .ok s → isWrappable s = true →
      ∃ mid out w', rSet nv old = .ok mid ∧ rClean nv mid = .ok out ∧
        resolveAtE out p = .ok w' ∧ sameCtorId w w' = true ∧
        deepEq w' s = true := by
  induction p with
  | nil =>
      intro nv old w s hc hwn hwo hwfn hwfo hrw hww hrs hws
      rw [resolveAtE] at hrw hrs
      injection hrw with hrw
      injection hrs with hrs
      subst hrw
      subst hrs
      obtain ⟨mid, h1, h2, h3, h4, _⟩ :=
        rSet_applies.1 nv old (wrappable_typeof hwn) hc hwfn hwfo
      obtain ⟨out, hc1, hc2, hc3, hc4, _⟩ := rClean_cleans.1 nv mid h4 hwfn h3
      refine ⟨mid, out, out, h1, hc1, rfl, ?_, hc4⟩
      have hmw : sameCtorId old mid = true := by
        rcases h2 with he | hsc
        · subst he; exact sameCtorId_refl hwo
        · exact hsc
      rcases hc2 with he | hsc
      · subst he; exact hmw
      · exact sameCtorId_trans hmw hsc
  | cons k ks ih =>
      intro nv old w s hc hwn hwo hwfn hwfo hrw hww hrs hws
      obtain ⟨lv, hglv, hrl, hwl⟩ := resolve_cons_some old k ks w hrw hww
      obtain ⟨sv, hgsv, hrsv, hwsv⟩ := resolve_cons_some nv k ks s hrs hws
      have hcsl := compat_at_key nv old k sv lv hc hgsv hglv
      have hwfsv := wfVal_at_key nv k sv hwfn hgsv
      have hwflv := wfVal_at_key old k lv hwfo hglv
      obtain ⟨mid, h1, h2, h3, h4, h5⟩ :=
        rSet_applies.1 nv old (wrappable_typeof hwn) hc hwfn hwfo
      obtain ⟨mv, hmidk, hrsv2⟩ :=
        h5 k sv lv hgsv (wrappable_typeof hwsv) hglv hwl
      have hwmv : isWrappable mv = true := by
        obtain ⟨mid2, hm2, hco2, _, _, _⟩ :=
          rSet_applies.1 sv lv (wrappable_typeof hwsv) hcsl hwfsv hwflv
        rw [hrsv2] at hm2
        injection hm2 with hm2
        subst hm2
        rcases hco2 with he | hsc
        · rw [he]; exact hwl
        · exact (sameCtorId_wrappable hsc).2
      obtain ⟨out, hc1, hc2, hc3, hc4, hc5⟩ := rClean_cleans.1 nv mid h4 hwfn h3
      obtain ⟨lv2, hclv, houtk⟩ := hc5 k sv mv hgsv hmidk hwmv
      obtain ⟨mid', out', w', him, hio, hires, hictor, hideep⟩ :=
        ih sv lv w s hcsl hwsv hwl hwfsv hwflv hrl hww hrsv hws
      rw [hrsv2] at him
      injection him with him
      subst him
      rw [hclv] at hio
      injection hio with hio
      subst hio
      refine ⟨mid, out, w', h1, hc1, ?_, hictor, hideep⟩
      rw [resolveAtE, houtk, ok_bind]
      exact hires

/-- `_recursiveUpdate` computed through the pure passes: on compatible,
well-formed inputs Apply and Prune both succeed, and the merge returns the
pruned root with the persistence trigger re-enabled. -/
theorem recursiveUpdate_pure (P : Platform) (o : Options) (st : DBState)
    (nv : JVal)
    (hwr : isWrappable st.root = true) (hwn : isWrappable nv = true)
    (hwfr : wfVal st.root = true) (hwfn : wfVal nv = true)
    (hc : compat nv st.root = true) :
    ∃ mid out, rSet nv st.root = .ok mid ∧ rClean nv mid = .ok out ∧
      wfVal out = true ∧ deepEq out nv = true ∧
      recursiveUpdate P o st nv
        = .ok { st with root := out, disableWrites := false } := by
  obtain ⟨mid, h1, h2, h3, h4, _⟩ :=
    rSet_applies.1 nv st.root (wrappable_typeof hwn) hc hwfn hwfr
  obtain ⟨out, hc1, hc2, hc3, hc4, _⟩ := rClean_cleans.1 nv mid h4 hwfn h3
  have hwm : isWrappable mid = true := by
    rcases h2 with he | hsc
    · rw [he]; exact hwr
    · exact (sameCtorId_wrappable hsc).2
  have hset := (rSetP_factor P o).1 { st with disableWrites := true } nv []
    st.root rfl rfl
  rw [h1, liftPure_ok, if_pos hwr] at hset
  have hmid_state : rSetP P o { st with disableWrites := true } nv []
      = .ok { st with disableWrites := true, root := mid } := hset
  have hclean := (rCleanP_factor P o).1
    { st with disableWrites := true, root := mid } nv mid [] rfl rfl h3
  rw [hc1, liftPure_ok, if_pos hwm] at hclean
  have hout_state : rCleanP P o { st with disableWrites := true, root := mid }
      nv mid [] = .ok { st with disableWrites := true, root := out } := hclean
  refine ⟨mid, out, h1, hc1, hc3, hc4, ?_⟩
  have hun : recursiveUpdate P o st nv
      = (rSetP P o { st with disableWrites := true } nv [] >>= fun st2 =>
          rCleanP P o st2 nv st2.root [] >>= fun st3 =>
            Except.ok { st3 with disableWrites := false }) := rfl
  rw [hun, hmid_state]
  simp only [ok_bind]
  rw [hout_state]
  simp only [ok_bind]

/-- **C3** (counterexample to the unamended claim): the snapshot value `null`
at key `"a"` and the live scalar `5` are not both objects/arrays, yet the
Reconciler does NOT overwrite the live value with `null`: since JS evaluates
`typeof null` to `"object"`, `_rSet` recurses into `null` (a no-op — it has
no keys) instead of assigning it, and `_rClean` skips the key because the
snapshot still has it and the live value is not `typeof "object"`.  The merge
completes with the live root unchanged and NOT deep-equal to the snapshot. -/
theorem reconciler_null_overwrite_fails :
    recursiveUpdate trivialPlatform {} { root := .obj 1 [("a", .num 5)] }
        (.obj 50 [("a", .null)])
      = .ok { root := JVal.obj 1 [("a", JVal.num 5)], disableWrites := false } ∧
    getKeyE (JVal.obj 1 [("a", JVal.num 5)]) (.str "a")
      = .ok (some (JVal.num 5)) ∧
    deepEq (JVal.obj 1 [("a", JVal.num 5)]) (JVal.obj 50 [("a", JVal.null)])
      = false := by
  refine ⟨?_, rfl, by decide⟩
  simp [recursiveUpdate, rSetP, rSetFieldsP, rSetStepP, rCleanP, rCleanFieldsP,
    rCleanStepP, isTypeofObject, getKeyE, setKeyE, assocGet, assocSet,
    resolveAtE, setAtPath, delAtPath, writeStore, delKey, assocDel, ok_bind]

/-- **C3** (amended): for every live root and snapshot that are JS-compatible
— at every position where both sides carry a `typeof`-"object" value
(object, array, or `null`) the kinds agree and live arrays are no longer
than the snapshot's — running the Reconciler (Apply, then Prune) succeeds
and leaves the live root deep-equal to the snapshot; in particular every
key whose snapshot value is not `typeof` "object" is overwritten with the
snapshot's value, and newly introduced nested structures are copied in.
Without the compatibility hypothesis the claim is false: a snapshot `null`
over a live scalar is NOT applied, because `typeof null === "object"` makes
`_rSet` recurse into `null` instead of assigning it. -/
theorem reconciler_applies_snapshot (P : Platform) (o : Options) (st : DBState)
    (snap : JVal)
    (hwr : isWrappable st.root = true) (hws : isWrappable snap = true)
    (hwfr : wfVal st.root = true) (hwfs : wfVal snap = true)
    (hc : compat snap st.root = true) :
    ∃ r, recursiveUpdate P o st snap
        = .ok { st with root := r, disableWrites := false } ∧
      deepEq r snap = true := by
  obtain ⟨mid, out, h1, h2, hwf, hdeep, hru⟩ :=
    recursiveUpdate_pure P o st snap hwr hws hwfr hwfs hc
  exact ⟨out, hru, hdeep⟩

/-- Witness for `reconciler_applies_snapshot`: a merge that changes a scalar,
keeps an unrelated live key out of the snapshot's way (Prune deletes it),
and copies in a newly introduced nested object. -/
theorem reconciler_applies_snapshot_witness :
    ∃ r, recursiveUpdate trivialPlatform {}
        { root := JVal.obj 1 [("a", JVal.num 2), ("b", JVal.num 9)] }
        (JVal.obj 50 [("a", JVal.num 3),
          ("c", JVal.obj 51 [("d", JVal.str "x")])])
      = .ok { ({ root := JVal.obj 1 [("a", JVal.num 2), ("b", JVal.num 9)] }
          : DBState) with root := r, disableWrites := false } ∧
    deepEq r (JVal.obj 50 [("a", JVal.num 3),
      ("c", JVal.obj 51 [("d", JVal.str "x")])]) = true :=
  reconciler_applies_snapshot trivialPlatform {}
    { root := JVal.obj 1 [("a", JVal.num 2), ("b", JVal.num 9)] }
    (JVal.obj 50 [("a", JVal.num 3), ("c", JVal.obj 51 [("d", JVal.str "x")])])
    (by decide) (by decide) (by decide) (by decide) (by decide)

/-- **C4** (counterexample to the unamended claim): live root
`\x7b u: \x7b x: 5 \x7d \x7d`, snapshot `\x7b u: \x7b x: null \x7d \x7d`:
the nested object at `"u"` has unchanged shape (object on both sides), the
merge completes, and the held node keeps its identity — yet its leaf `"x"`
still reads `5`, not the snapshot's `null`, and the node is NOT deep-equal
to the snapshot node.  `typeof null === "object"` makes `_rSet` recurse
into `null` (a no-op) instead of assigning it, and `_rClean` keeps the key
because the snapshot still has it and `5` is not `typeof` "object", so "a
pre-merge reference observes the updated leaf values" fails. -/
theorem reconciler_identity_leaf_not_updated :
    recursiveUpdate trivialPlatform {}
        { root := JVal.obj 1 [("u", JVal.obj 2 [("x", JVal.num 5)])] }
        (JVal.obj 50 [("u", JVal.obj 51 [("x", JVal.null)])])
      = .ok { root := JVal.obj 1 [("u", JVal.obj 2 [("x", JVal.num 5)])],
              disableWrites := false } ∧
    resolveAtE (JVal.obj 1 [("u", JVal.obj 2 [("x", JVal.num 5)])])
        [JKey.str "u"] = .ok (JVal.obj 2 [("x", JVal.num 5)]) ∧
    getKeyE (JVal.obj 2 [("x", JVal.num 5)]) (.str "x")
      = .ok (some (JVal.num 5)) ∧
    deepEq (JVal.obj 2 [("x", JVal.num 5)]) (JVal.obj 51 [("x", JVal.null)])
      = false := by
  refine ⟨?_, rfl, rfl, by decide⟩
  simp [recursiveUpdate, rSetP, rSetFieldsP, rSetStepP, rCleanP, rCleanFieldsP,
    rCleanStepP, isTypeofObject, getKeyE, setKeyE, assocGet, assocSet,
    resolveAtE, setAtPath, delAtPath, writeStore, delKey, assocDel, ok_bind]

/-- **C4** (amended): for every nested node of the live root reached by a
path whose shape is wrappable (object/array) on both the live side and the
snapshot side all along, PROVIDED the snapshot and live root are
JS-compatible (at every position where both sides carry a
`typeof`-"object" value the kinds agree and live arrays are no longer than
the snapshot's), reconciliation mutates that same node in place: after the
merge, the node found at the same path has the same constructor AND the
same ghost heap identity as the node a caller captured before the merge
(so a pre-merge reference observes the update without re-fetching), its
contents are deep-equal to the snapshot's node at that path, and every key
absent from the snapshot node is absent from it.  Without the
compatibility hypothesis the claim is false: a snapshot `null` leaf inside
a shape-unchanged object is never assigned over a live scalar, because
`typeof null === "object"` makes `_rSet` recurse into it. -/
theorem reconciler_preserves_identity (P : Platform) (o : Options)
    (st : DBState) (snap : JVal) (p : List JKey) (w s : JVal)
    (hwr : isWrappable st.root = true) (hws : isWrappable snap = true)
    (hwfr : wfVal st.root = true) (hwfs : wfVal snap = true)
    (hc : compat snap st.root = true)
    (hrw : resolveAtE st.root p = .ok w) (hww : isWrappable w = true)
    (hrs : resolveAtE snap p = .ok s) (hwss : isWrappable s = true) :
    ∃ r w', recursiveUpdate P o st snap
        = .ok { st with root := r, disableWrites := false } ∧
      resolveAtE r p = .ok w' ∧ sameCtorId w w' = true ∧
      deepEq w' s = true ∧
      (∀ k, getKeyE s k = .ok none → getKeyE w' k = .ok none) := by
  obtain ⟨mid, out, h1, h2, hwfout, hdeepout, hru⟩ :=
    recursiveUpdate_pure P o st snap hwr hws hwfr hwfs hc
  obtain ⟨mid', out', w', hm, ho, hresw, hctor, hdw⟩ :=
    setCleanAt p snap st.root w s hc hws hwr hwfs hwfr hrw hww hrs hwss
  rw [h1] at hm
  injection hm with hm
  subst hm
  rw [h2] at ho
  injection ho with ho
  subst ho
  refine ⟨out, w', hru, hresw, hctor, hdw, ?_⟩
  intro k hk
  have hww' : isWrappable w' = true := (sameCtorId_wrappable hctor).2
  have hwfs' : wfVal s = true := wf_resolve p snap s hwfs hrs hwss
  have hwfw' : wfVal w' = true := wf_resolve p out w' hwfout hresw hww'
  exact deepEq_getKey_none w' s k hdw hwfw' hwfs' hk

/-- Witness for `reconciler_preserves_identity`: the nested object at `"u"`
keeps its ghost identity (`id = 2`) through the merge, its leaf `"x"` is
updated, and the key `"z"`, absent from the snapshot, is pruned from it. -/
theorem reconciler_preserves_identity_witness :
    ∃ r w', recursiveUpdate trivialPlatform {}
        { root := JVal.obj 1
            [("u", JVal.obj 2 [("x", JVal.num 1), ("z", JVal.num 3)])] }
        (JVal.obj 50 [("u", JVal.obj 51 [("x", JVal.num 2)])])
      = .ok { ({ root := JVal.obj 1 [("u", JVal.obj 2 [("x", JVal.num 1), ("z", JVal.num 3)])] } : DBState) with root := r, disableWrites := false } ∧
      resolveAtE r [JKey.str "u"] = .ok w' ∧
      sameCtorId (JVal.obj 2 [("x", JVal.num 1), ("z", JVal.num 3)]) w' = true ∧
      deepEq w' (JVal.obj 51 [("x", JVal.num 2)]) = true ∧
      (∀ k, getKeyE (JVal.obj 51 [("x", JVal.num 2)]) k = .ok none →
        getKeyE w' k = .ok none) :=
  reconciler_preserves_identity trivialPlatform {}
    { root := JVal.obj 1
        [("u", JVal.obj 2 [("x", JVal.num 1), ("z", JVal.num 3)])] }
    (JVal.obj 50 [("u", JVal.obj 51 [("x", JVal.num 2)])])
    [JKey.str "u"]
    (JVal.obj 2 [("x", JVal.num 1), ("z", JVal.num 3)])
    (JVal.obj 51 [("x", JVal.num 2)])
    (by decide) (by decide) (by decide) (by decide) (by decide)
    rfl (by decide) rfl (by decide)

end DbTs
